import Mathlib

/-!
# Verification of the `cate` workflow core (`cate/core/workflow.py`)

This file gives a shallow embedding of the workflow engine of the repository:
the node/port data model, source-reference resolution, step sorting,
the value cache, and the Workflow-JSON (de)serialization, together with
theorems about the behaviour of these operations.

Python `dict`s are modelled as insertion-ordered association lists,
Python object identity as explicit numeric tags, raised `ValueError`s as an
`Except` error type, and the `UNDEFINED` sentinel as a dedicated value
constructor.  Python values that flow through ports and caches are modelled
by a small JSON-like value type in which arbitrary (non-JSON) Python objects
appear as opaquely tagged values carrying only the information the code
inspects (their identity and whether they have a `close` attribute).
-/

namespace Cate

/-! ## Ordered dictionaries (Python `dict` semantics) -/

/-- Lookup in an insertion-ordered association list (`d.get(k)` / `d[k]`). -/
def dget {α : Type} : List (String × α) → String → Option α
  | [], _ => none
  | (k, v) :: rest, key => if k = key then some v else dget rest key

/-- `d[k] = v`: update the first binding of `k` in place, else append. -/
def dset {α : Type} : List (String × α) → String → α → List (String × α)
  | [], key, v => [(key, v)]
  | (k, v') :: rest, key, v =>
    if k = key then (k, v) :: rest else (k, v') :: dset rest key v

/-- `del d[k]` / `d.pop(k)`: remove the binding of `k`. -/
def dpop {α : Type} (d : List (String × α)) (key : String) : List (String × α) :=
  d.filter (fun kv => kv.1 ≠ key)

/-- `d.update(m)`: merge `m` into `d`, `m` overwriting, new keys appended. -/
def dupdate {α : Type} (d m : List (String × α)) : List (String × α) :=
  m.foldl (fun acc kv => dset acc kv.1 kv.2) d

@[simp] theorem dget_nil {α : Type} (k : String) : dget ([] : List (String × α)) k = none := rfl

@[simp] theorem dget_cons {α : Type} (k k' : String) (v : α) (rest : List (String × α)) :
    dget ((k, v) :: rest) k' = if k = k' then some v else dget rest k' := rfl

@[simp] theorem dset_nil {α : Type} (k : String) (v : α) :
    dset ([] : List (String × α)) k v = [(k, v)] := rfl

theorem dget_dset {α : Type} (d : List (String × α)) (k k' : String) (v : α) :
    dget (dset d k v) k' = if k = k' then some v else dget d k' := by
  induction d with
  | nil => simp [dset]
  | cons kv rest ih =>
    obtain ⟨k0, v0⟩ := kv
    by_cases h0 : k0 = k
    · subst h0
      by_cases h1 : k0 = k'
      · subst h1
        simp [dset]
      · rw [show dset ((k0, v0) :: rest) k0 v = (k0, v) :: rest from by simp [dset]]
        rw [dget_cons, dget_cons, if_neg h1, if_neg h1, if_neg h1]
    · rw [show dset ((k0, v0) :: rest) k v = (k0, v0) :: dset rest k v from by simp [dset, h0]]
      by_cases h1 : k0 = k'
      · subst h1
        rw [dget_cons, dget_cons, if_pos rfl, if_pos rfl,
          if_neg (fun h => h0 h.symm)]
      · rw [dget_cons, dget_cons, if_neg h1, if_neg h1, ih]

theorem dget_append_single {α : Type} (d : List (String × α)) (nm : String) (v : α)
    (h : dget d nm = none) : dget (d ++ [(nm, v)]) nm = some v := by
  induction d with
  | nil => simp [dget]
  | cons kv rest ih =>
    rw [List.cons_append, dget_cons]
    rw [dget_cons] at h
    by_cases h1 : kv.1 = nm
    · rw [if_pos h1] at h
      exact absurd h (by simp)
    · rw [if_neg h1] at h
      rw [if_neg h1]
      exact ih h

theorem dget_dpop {α : Type} (d : List (String × α)) (k k' : String) :
    dget (dpop d k) k' = if k = k' then none else dget d k' := by
  induction d with
  | nil => simp [dpop]
  | cons kv rest ih =>
    obtain ⟨k0, v0⟩ := kv
    by_cases h1 : k0 = k
    · subst h1
      rw [show dpop ((k0, v0) :: rest) k0 = dpop rest k0 from by simp [dpop], ih]
      by_cases h2 : k0 = k'
      · subst h2; simp
      · rw [dget_cons, if_neg h2, if_neg h2, if_neg h2]
    · rw [show dpop ((k0, v0) :: rest) k = (k0, v0) :: dpop rest k from by simp [dpop, h1]]
      by_cases h2 : k0 = k'
      · subst h2
        rw [dget_cons, dget_cons, if_pos rfl, if_pos rfl,
          if_neg (fun h => h1 h.symm)]
      · rw [dget_cons, dget_cons, if_neg h2, if_neg h2, ih]

/-! ## Values

`PyPrim` models primitive / atomic Python values; `PyVal` adds the
`UNDEFINED` sentinel (`cate.util.undefined.UNDEFINED`), flat dictionaries
(used for named-output return values) and `ValueCache` objects (which can be
stored inside caches as child caches).  `vobj tag hasClose` stands for an
arbitrary further Python object with identity `tag`; `hasClose` records
whether `hasattr(value, 'close')` holds for it. -/

inductive PyPrim where
  | vnone
  | vbool (b : Bool)
  | vint (n : Int)
  | vstr (s : String)
  | vobj (tag : Nat) (hasClose : Bool)
deriving DecidableEq, Repr

inductive PyVal where
  | prim (p : PyPrim)
  | vdict (fields : List (String × PyPrim))
  | vcache (tag : Nat)
  | vundef
deriving DecidableEq, Repr

/-- `hasattr(value, 'close')`: only opaque objects declaring a `close`
attribute and `ValueCache` objects (which define `close()`) are closable. -/
def PyVal.closable : PyVal → Bool
  | .prim (.vobj _ h) => h
  | .vcache _ => true
  | _ => false

/-- Python `None`. -/
def pynone : PyVal := .prim .vnone

instance {ε α : Type} [DecidableEq ε] [DecidableEq α] : DecidableEq (Except ε α) := fun x y =>
  match x, y with
  | .ok a, .ok b =>
    if h : a = b then isTrue (by rw [h])
    else isFalse (fun hc => by injection hc; contradiction)
  | .error a, .error b =>
    if h : a = b then isTrue (by rw [h])
    else isFalse (fun hc => by injection hc; contradiction)
  | .ok _, .error _ => isFalse (fun hc => by injection hc)
  | .error _, .ok _ => isFalse (fun hc => by injection hc)

/-! ## `ValueCache` (workflow.py lines 1525-1659)

A closable dictionary that maintains unique integer ids for its keys.
`closedLog` is a ghost field recording, in order, every value on which
`_close_value` actually invoked `close()`; it models the observable
side effect of closing. -/

structure ValueCache where
  entries : List (String × PyVal)
  idInfos : List (String × (Nat × Nat))
  lastId : Nat
  closedLog : List PyVal
deriving DecidableEq, Repr

namespace ValueCache

/-- `ValueCache.__init__`. -/
def init : ValueCache := ⟨[], [], 0, []⟩

/-- `ValueCache._close_value(value)`: call `close()` when the value is not
`None` and has a `close` attribute (errors from `close` are swallowed). -/
def closeValue (c : ValueCache) (v : PyVal) : ValueCache :=
  if v ≠ pynone ∧ v.closable then { c with closedLog := c.closedLog ++ [v] } else c

/-- `ValueCache.__setitem__(key, value)` (lines 1544-1557): keep the id and
bump the update count for an existing key, else assign a fresh id with
update count 0; close the old value when it differs from the new one.
(Python compares the old and new value with `is not`; over this value model
object identity coincides with structural equality.) -/
def setItem (c : ValueCache) (key : String) (value : PyVal) : ValueCache :=
  let oldValue := (dget c.entries key).getD pynone
  let idInfo := dget c.idInfos key
  let entries' := dset c.entries key value
  let c' : ValueCache :=
    match idInfo with
    | some (i, n) => { c with entries := entries', idInfos := dset c.idInfos key (i, n + 1) }
    | none =>
      { c with entries := entries'
               idInfos := dset c.idInfos key (c.lastId + 1, 0)
               lastId := c.lastId + 1 }
  if oldValue ≠ value then c'.closeValue oldValue else c'

/-- `ValueCache.get_id(key)` (lines 1575-1578). -/
def getId (c : ValueCache) (key : String) : Option Nat :=
  (dget c.idInfos key).map (·.1)

/-- `ValueCache.get_update_count(key)` (lines 1580-1583). -/
def getUpdateCount (c : ValueCache) (key : String) : Option Nat :=
  (dget c.idInfos key).map (·.2)

/-- The errors `ValueCache` methods can raise. -/
inductive CacheError where
  | keyError (key : String)
deriving DecidableEq, Repr

/-- `ValueCache.rename_key(key, new_key)` (lines 1599-1621): move the value,
the id metadata and any child cache from `key` to `new_key`. -/
def renameKey (c : ValueCache) (key newKey : String) : Except CacheError ValueCache :=
  if key = newKey then .ok c
  else
    match dget c.entries key, dget c.idInfos key with
    | none, _ => .error (.keyError key)
    | some _, none => .error (.keyError key)
    | some value, some idInfo =>
      let entries1 := dset (dpop c.entries key) newKey value
      let idInfos1 := dset (dpop c.idInfos key) newKey idInfo
      let childKey := key ++ "._child"
      let entries2 :=
        match dget entries1 childKey with
        | some childCache => dset (dpop entries1 childKey) (newKey ++ "._child") childCache
        | none => entries1
      .ok { c with entries := entries2, idInfos := idInfos1 }

/-- `ValueCache.child(key)` (lines 1592-1597): return the child cache stored
under `key + '._child'`, creating it via the raw `_set` (which assigns no id)
if absent.  `freshTag` models the identity of the newly allocated
`ValueCache()` object. -/
def child (c : ValueCache) (key : String) (freshTag : Nat) : ValueCache × PyVal :=
  let childKey := key ++ "._child"
  match dget c.entries childKey with
  | some v => (c, v)
  | none =>
    let v : PyVal := .vcache freshTag
    ({ c with entries := dset c.entries childKey v }, v)

theorem setItem_idInfos (c : ValueCache) (key : String) (v : PyVal) :
    (setItem c key v).idInfos =
      match dget c.idInfos key with
      | some i => dset c.idInfos key (i.1, i.2 + 1)
      | none => dset c.idInfos key (c.lastId + 1, 0) := by
  unfold setItem closeValue
  rcases h : dget c.idInfos key with _ | ⟨i, n⟩ <;> simp [h] <;> split <;>
    first
    | rfl
    | (split <;> rfl)

theorem setItem_lastId (c : ValueCache) (key : String) (v : PyVal) :
    (setItem c key v).lastId =
      match dget c.idInfos key with
      | some _ => c.lastId
      | none => c.lastId + 1 := by
  unfold setItem closeValue
  rcases h : dget c.idInfos key with _ | ⟨i, n⟩ <;> simp [h] <;> split <;>
    first
    | rfl
    | (split <;> rfl)

theorem setItem_entries (c : ValueCache) (key : String) (v : PyVal) :
    (setItem c key v).entries = dset c.entries key v := by
  unfold setItem closeValue
  rcases h : dget c.idInfos key with _ | ⟨i, n⟩ <;> simp [h] <;> split <;>
    first
    | rfl
    | (split <;> rfl)

theorem setItem_closedLog (c : ValueCache) (key : String) (v : PyVal) :
    (setItem c key v).closedLog =
      c.closedLog ++
        (if (dget c.entries key).getD pynone ≠ v
            ∧ (dget c.entries key).getD pynone ≠ pynone
            ∧ ((dget c.entries key).getD pynone).closable
         then [(dget c.entries key).getD pynone] else []) := by
  unfold setItem closeValue
  set o := (dget c.entries key).getD pynone with ho
  by_cases h1 : o ≠ v
  · by_cases h2 : o ≠ pynone ∧ o.closable
    · rcases h : dget c.idInfos key with _ | ⟨i, n⟩ <;>
        simp [h, ← ho, h1, h2.1, h2.2]
    · rcases h : dget c.idInfos key with _ | ⟨i, n⟩ <;>
        · simp only [h, ← ho, if_pos h1, if_neg h2]
          have : ¬(o ≠ v ∧ o ≠ pynone ∧ o.closable = true) := fun hc => h2 ⟨hc.2.1, hc.2.2⟩
          simp [this]
  · push_neg at h1
    rcases h : dget c.idInfos key with _ | ⟨i, n⟩ <;>
      · simp only [h, ← ho, h1, ne_eq, not_true_eq_false, if_false]
        have : ¬(v ≠ v ∧ v ≠ pynone ∧ v.closable = true) := fun hc => hc.1 rfl
        simp [this]

theorem getId_setItem_stable (c : ValueCache) (key : String) (v : PyVal)
    (h : (getId c key).isSome) : getId (setItem c key v) key = getId c key := by
  unfold getId at h ⊢
  rw [setItem_idInfos]
  rcases h' : dget c.idInfos key with _ | ⟨i, n⟩
  · rw [h'] at h; simp at h
  · simp [dget_dset]

/-- **C4.** In a `ValueCache`, `get_id(k)` returns the same integer across any
number of subsequent assignments to key `k` and across `rename_key`; each
assignment to an existing key increments that key's `update_count` by exactly
one and closes the previous value when it differs from the new one (and the
value is closable); a first-time assignment gives the key a fresh,
monotonically increasing id starting at 1 (the id counter starts at 0 and
each fresh id is its successor) with `update_count` 0; `rename_key` also
preserves the `update_count`. -/
theorem valueCache_id_stability (c : ValueCache) (key newKey : String) (v : PyVal) :
    -- get_id is stable across a single assignment to an existing key
    ((getId c key).isSome → getId (setItem c key v) key = getId c key)
    ∧ -- ... hence across any number of subsequent assignments
    (∀ vs : List PyVal, (getId c key).isSome →
        getId (vs.foldl (fun c' v' => setItem c' key v') c) key = getId c key)
    ∧ -- update_count grows by exactly one per assignment to an existing key
    (∀ i n, dget c.idInfos key = some (i, n) →
        getUpdateCount (setItem c key v) key = some (n + 1)
        ∧ getId (setItem c key v) key = some i)
    ∧ -- the previous value is closed exactly when it differs from the new one
    (∀ o, dget c.entries key = some o →
        (setItem c key v).closedLog =
          c.closedLog ++ (if o ≠ v ∧ o ≠ pynone ∧ o.closable then [o] else []))
    ∧ -- a first-time assignment: fresh monotonic id (successor of the
      -- counter, which starts at 0), update_count 0
    (dget c.idInfos key = none →
        getId (setItem c key v) key = some (c.lastId + 1)
        ∧ getUpdateCount (setItem c key v) key = some 0
        ∧ (setItem c key v).lastId = c.lastId + 1)
    ∧ -- freshness: the new id differs from every id already in use
    ((∀ k' i' n', dget c.idInfos k' = some (i', n') → i' ≤ c.lastId) →
      dget c.idInfos key = none →
        ∀ k', getId c k' ≠ some (c.lastId + 1))
    ∧ -- rename_key preserves both id and update_count
    (∀ c', renameKey c key newKey = .ok c' → key ≠ newKey →
        getId c' newKey = getId c key
        ∧ getUpdateCount c' newKey = getUpdateCount c key) := by
  refine ⟨getId_setItem_stable c key v, ?_, ?_, ?_, ?_, ?_, ?_⟩
  · intro vs
    induction vs generalizing c with
    | nil => intro _; rfl
    | cons v' rest ih =>
      intro h
      have h1 := getId_setItem_stable c key v' h
      rw [List.foldl_cons, ih (setItem c key v'), h1]
      rw [h1]; exact h
  · intro i n h
    constructor
    · unfold getUpdateCount
      rw [setItem_idInfos, h]
      simp [dget_dset]
    · unfold getId
      rw [setItem_idInfos, h]
      simp [dget_dset]
  · intro o h
    rw [setItem_closedLog, h]
    simp
  · intro h
    refine ⟨?_, ?_, ?_⟩
    · unfold getId
      rw [setItem_idInfos, h]
      simp [dget_dset]
    · unfold getUpdateCount
      rw [setItem_idInfos, h]
      simp [dget_dset]
    · rw [setItem_lastId, h]
  · intro hbound _ k'
    unfold getId
    rcases h' : dget c.idInfos k' with _ | ⟨i', n'⟩
    · simp
    · have := hbound k' i' n' h'
      simp only [Option.map_some']
      intro hc
      have : i' = c.lastId + 1 := by injection hc
      omega
  · intro c' hok hne
    unfold renameKey at hok
    rw [if_neg hne] at hok
    rcases h1 : dget c.entries key with _ | val
    · rw [h1] at hok; exact absurd hok (by simp)
    · rw [h1] at hok
      rcases h2 : dget c.idInfos key with _ | idInfo
      · rw [h2] at hok; exact absurd hok (by simp)
      · rw [h2] at hok
        injection hok with hok
        subst hok
        constructor
        · unfold getId
          simp [dget_dset, h2]
        · unfold getUpdateCount
          simp [dget_dset, h2]

/-- Witness for C4 at a concrete cache: key `"a"` is first assigned
(receiving id 1 and update count 0), then reassigned (id kept, update count
bumped, the old closable value closed), then renamed to `"b"` (id and update
count preserved). -/
theorem valueCache_id_stability_witness :
    (ValueCache.getId
        (ValueCache.setItem (ValueCache.setItem ValueCache.init "a" (.prim (.vobj 9 true)))
          "a" (.prim (.vint 2))) "a"
      = ValueCache.getId (ValueCache.setItem ValueCache.init "a" (.prim (.vobj 9 true))) "a")
    ∧ (ValueCache.getUpdateCount
        (ValueCache.setItem (ValueCache.setItem ValueCache.init "a" (.prim (.vobj 9 true)))
          "a" (.prim (.vint 2))) "a" = some 1
       ∧ ValueCache.getId
          (ValueCache.setItem (ValueCache.setItem ValueCache.init "a" (.prim (.vobj 9 true)))
            "a" (.prim (.vint 2))) "a" = some 1)
    ∧ ((ValueCache.setItem (ValueCache.setItem ValueCache.init "a" (.prim (.vobj 9 true)))
          "a" (.prim (.vint 2))).closedLog
        = (ValueCache.setItem ValueCache.init "a" (.prim (.vobj 9 true))).closedLog ++
            [(.prim (.vobj 9 true))])
    ∧ (ValueCache.getId (ValueCache.setItem ValueCache.init "a" (.prim (.vobj 9 true))) "a"
        = some 1)
    ∧ (∀ c', ValueCache.renameKey
          (ValueCache.setItem ValueCache.init "a" (.prim (.vobj 9 true))) "a" "b" = .ok c' →
        ValueCache.getId c' "b"
          = ValueCache.getId (ValueCache.setItem ValueCache.init "a" (.prim (.vobj 9 true))) "a") := by
  have h1 := valueCache_id_stability
    (ValueCache.setItem ValueCache.init "a" (.prim (.vobj 9 true))) "a" "b" (.prim (.vint 2))
  have h0 := valueCache_id_stability ValueCache.init "a" "b" (.prim (.vobj 9 true))
  refine ⟨h1.1 (by decide), ?_, ?_, ?_, ?_⟩
  · exact h1.2.2.1 1 0 (by decide)
  · have := h1.2.2.2.1 (.prim (.vobj 9 true)) (by decide)
    rw [this]; decide
  · exact ((h0.2.2.2.2.1 (by decide)).1)
  · intro c' hok
    rw [(h1.2.2.2.2.2.2 c' hok (by decide)).1]

/-- **C10.** A child cache created by `ValueCache.child(key)` is stored in
the parent under the derived key `key + '._child'` without being assigned an
id or an update count: after `child(key)`, `get_id` and `get_update_count`
of the derived key both return `None` (provided the derived key had not
previously been assigned an id via a regular `set`), and no other entry of
the parent cache is closed or modified by the call. -/
theorem valueCache_child_no_id (c : ValueCache) (key : String) (tag : Nat)
    (hnoid : dget c.idInfos (key ++ "._child") = none) :
    ValueCache.getId (ValueCache.child c key tag).1 (key ++ "._child") = none
    ∧ ValueCache.getUpdateCount (ValueCache.child c key tag).1 (key ++ "._child") = none
    ∧ dget (ValueCache.child c key tag).1.entries (key ++ "._child")
        = some (ValueCache.child c key tag).2
    ∧ (dget c.entries (key ++ "._child") = none →
        (ValueCache.child c key tag).2 = .vcache tag)
    ∧ (∀ k', k' ≠ key ++ "._child" →
        dget (ValueCache.child c key tag).1.entries k' = dget c.entries k')
    ∧ (ValueCache.child c key tag).1.idInfos = c.idInfos
    ∧ (ValueCache.child c key tag).1.closedLog = c.closedLog
    ∧ (ValueCache.child c key tag).1.lastId = c.lastId := by
  have hch : ValueCache.child c key tag =
      match dget c.entries (key ++ "._child") with
      | some v => (c, v)
      | none =>
        ({ c with entries := dset c.entries (key ++ "._child") (.vcache tag) },
          .vcache tag) := rfl
  rcases h : dget c.entries (key ++ "._child") with _ | v <;>
    rw [h] at hch <;> rw [hch]
  · refine ⟨?_, ?_, ?_, ?_, ?_, rfl, rfl, rfl⟩
    · unfold ValueCache.getId; rw [hnoid]; rfl
    · unfold ValueCache.getUpdateCount; rw [hnoid]; rfl
    · simp [dget_dset]
    · intro _; rfl
    · intro k' hk'
      simp only
      rw [dget_dset]
      exact if_neg (fun hh => hk' hh.symm)
  · refine ⟨?_, ?_, h, ?_, fun _ _ => rfl, rfl, rfl, rfl⟩
    · unfold ValueCache.getId; rw [hnoid]; rfl
    · unfold ValueCache.getUpdateCount; rw [hnoid]; rfl
    · intro hnone
      exact absurd hnone (by simp)

/-- Witness for C10: creating a child under key `"k"` in a one-entry cache. -/
theorem valueCache_child_no_id_witness :
    ValueCache.getId
        (ValueCache.child (ValueCache.setItem ValueCache.init "k" pynone) "k" 5).1 "k._child"
      = none
    ∧ dget (ValueCache.child (ValueCache.setItem ValueCache.init "k" pynone) "k" 5).1.entries
        "k._child"
      = some (ValueCache.child (ValueCache.setItem ValueCache.init "k" pynone) "k" 5).2 := by
  have h := valueCache_child_no_id (ValueCache.setItem ValueCache.init "k" pynone) "k" 5
    (by decide)
  exact ⟨by simpa using h.1, h.2.2.1⟩

end ValueCache

/-! ## The node / port model

A workflow tree is flat: a root `Workflow` whose children are `Step`s
(steps themselves have no child nodes; a `WorkflowStep`'s inner workflow is
a separate tree with its own root).  Python object identity of nodes is
modelled by a numeric `tag`; a resolved port source (`NodePort._source`,
a pointer to another `NodePort` object) is modelled by a `PortPtr`
identifying the owning node by tag, the namespace (outputs vs inputs) the
port lives in, and the port name. -/

/-- Property dictionaries (`OpMetaInfo` input/output/header property maps). -/
abbrev Props : Type := List (String × PyVal)

/-- `SourceRef` (workflow.py line 1250): an unresolved or resolved source
reference `(node_id, port_name)`; either component may be `None`. -/
structure SRef where
  node_id : Option String
  port_name : Option String
deriving DecidableEq, Repr

/-- Identity of a `NodePort` object: owning node's tag, namespace, name. -/
structure PortPtr where
  tag : Nat
  isOutput : Bool
  name : String
deriving DecidableEq, Repr

/-- The state of one `NodePort`: `_source_ref`, `_source` and `_value`
(lines 1256-1264; a fresh port is `⟨none, none, .vundef⟩`). -/
structure Port where
  sref : Option SRef
  source : Option PortPtr
  pval : PyVal
deriving DecidableEq, Repr

/-- A fresh `NodePort(node, name)`. -/
def Port.fresh : Port := ⟨none, none, .vundef⟩

/-- Meta-information about an operation.

Modelled from the spec: the class `OpMetaInfo` lives in
`cate/util/opmetainf.py`, which is not part of the sources; per spec §3 it
is a record of a qualified name, a header map, ordered input and output
property maps, and derived flags, of which only `can_cache` ("header flag")
is needed here; it is represented as a stored boolean. -/
structure OpMetaInfo where
  qualified_name : String
  header : Props
  inputs : List (String × Props)
  outputs : List (String × Props)
  can_cache : Bool
deriving DecidableEq, Repr

/-- `OpMetaInfo.RETURN_OUTPUT_NAME`. -/
def RETURN_NAME : String := "return"

/-- The per-node state shared by `Workflow` and `Step`: tag (object
identity), `_id`, `_op_meta_info`, and the two ordered port namespaces. -/
structure NodeData where
  tag : Nat
  id : String
  meta : OpMetaInfo
  inputs : List (String × Port)
  outputs : List (String × Port)
deriving DecidableEq, Repr

/-- The port namespaces a freshly constructed node derives from its
meta-info (`Node.__init__` via `_new_input_namespace`/`_new_output_namespace`). -/
def NodeData.new (tag : Nat) (id : String) (meta : OpMetaInfo) : NodeData :=
  ⟨tag, id, meta, meta.inputs.map (fun nv => (nv.1, Port.fresh)),
    meta.outputs.map (fun nv => (nv.1, Port.fresh))⟩

/-- The kind-specific payload of a `Step` (the tagged sum of step classes). -/
inductive StepKind where
  | opStep (opName : String)
  | workflowStep (resource : String)
  | exprStep (expression : String)
  | noOpStep
  | subProcessStep (command : String) (runPython : Bool) (cwd : Option String)
      (env : Option (List (String × String))) (shell : Bool)
      (startedRe progressRe doneRe : Option String)
deriving DecidableEq, Repr

/-- A workflow step. -/
structure Step where
  node : NodeData
  kind : StepKind
  persistent : Bool
deriving DecidableEq, Repr

/-- A workflow: its own node data, the ordered `_steps` list, and
`_steps_dict` mapping step ids to steps (steps are referenced by tag,
mirroring Python's storing of object references). -/
structure Workflow where
  node : NodeData
  steps : List Step
  stepsDict : List (String × Nat)
deriving DecidableEq, Repr

/-- All node objects of the tree (root first). -/
def Workflow.allNodes (w : Workflow) : List NodeData :=
  w.node :: w.steps.map (·.node)

/-- Resolve a node tag to the node object (dereferencing a stored object
pointer). -/
def findNodeByTag (nodes : List NodeData) (tag : Nat) : Option NodeData :=
  nodes.find? (fun n => n.tag = tag)

/-- `Node.find_port(name)` (lines 393-403): output ports are searched
first, then input ports.  (`Workflow` does not override this method.) -/
def NodeData.find_port (n : NodeData) (name : String) : Option PortPtr :=
  if (dget n.outputs name).isSome then some ⟨n.tag, true, name⟩
  else if (dget n.inputs name).isSome then some ⟨n.tag, false, name⟩
  else none

/-- `Workflow.find_node(step_id)` (lines 524-534): look the id up in
`_steps_dict`, then search the children's children (steps have none). -/
def Workflow.find_node (w : Workflow) (stepId : String) : Option NodeData :=
  match dget w.stepsDict stepId with
  | some tag => (w.steps.find? (fun s => s.node.tag = tag)).map (·.node)
  | none => none

/-- Errors raised (as `ValueError`) by the workflow code, by category. -/
inductive WfError where
  | idMustBeGiven
  | selfBinding
  | unknownPort (nodeId name : String)
  | unknownNodeWithPort (nodeId : String)
  | ambiguousNode (nodeId : String) (numOutputs : Nat)
  | unknownNode (nodeId : String)
  | unknownPortInScope (name : String)
  | sourceAndValue
  | badSourceFormat
  | stepExists (id : String)
  | missingQualifiedName
  | unknownStepType (idx : Nat)
  | opNotFound (name : String)
  | resourceNotFound (resource : String)
  | typeError
  | missingOutput (name : String)
deriving DecidableEq, Repr

namespace Port

/-- The `value` property setter (lines 1300-1304). -/
def setValue (_p : Port) (v : PyVal) : Port := ⟨none, none, v⟩

/-- The `source` property setter (lines 1318-1324): reject self-binding,
store the pointer, rebuild `_source_ref` from the source port's current
node id and name, and reset the value to `UNDEFINED`.  `nodes` is used to
dereference the source port's owning node (Python reads `new_source.node_id`
off the object). -/
def setSource (_p : Port) (nodes : List NodeData) (selfPtr : PortPtr)
    (newSource : Option PortPtr) : Except WfError Port :=
  if newSource = some selfPtr then .error .selfBinding
  else
    match newSource with
    | some ptr =>
      let nid := ((findNodeByTag nodes ptr.tag).map (·.id)).getD ""
      .ok ⟨some ⟨some nid, some ptr.name⟩, some ptr, .vundef⟩
    | none => .ok ⟨none, none, .vundef⟩

/-- `NodePort.update_source_node_id(node, old_node_id)` (lines 1326-1337):
if the port's source reference points at `old_node_id`, reconnect the port
to `node.find_port(port_name)` (which is `None` when the reference carried
no port name or the port does not exist on `node`). -/
def update_source_node_id (p : Port) (nodes : List NodeData) (selfPtr : PortPtr)
    (node : NodeData) (oldNodeId : String) : Except WfError Port :=
  match p.sref with
  | some r =>
    if r.node_id = some oldNodeId then
      let found := match r.port_name with
        | some nm => node.find_port nm
        | none => none
      p.setSource nodes selfPtr found
    else .ok p
  | none => .ok p

/-- `Node.remove_orphaned_sources` per-port action (lines 386-391): a port
whose resolved source still belongs to the orphaned node is assigned the
value `None` (which clears source and reference and stores the literal
`None`). -/
def remove_orphaned (p : Port) (orphanTag : Nat) : Port :=
  match p.source with
  | some ptr => if ptr.tag = orphanTag then p.setValue pynone else p
  | none => p

/-- `NodePort.update_source()` (lines 1339-1402): resolve the port's source
reference against the root tree.  `selfPtr` identifies the port, `scope`
is the chain `self._node :: parents` used for `.name`-form references. -/
def update_source (p : Port) (w : Workflow) (selfPtr : PortPtr)
    (scope : List NodeData) : Except WfError Port :=
  match p.sref with
  | none => .ok p
  | some r =>
    let otherNode : Option NodeData :=
      match r.node_id with
      | some nid => if w.node.id = nid then some w.node else w.find_node nid
      | none => none
    match r.node_id, r.port_name with
    | some nid, some nm =>
      (match otherNode with
      | some n =>
        match n.find_port nm with
        | some ptr => p.setSource w.allNodes selfPtr (some ptr)
        | none => .error (.unknownPort nid nm)
      | none => .error (.unknownNodeWithPort nid))
    | some nid, none =>
      (match otherNode with
      | some n =>
        if h : n.outputs.length = 1 then
          p.setSource w.allNodes selfPtr
            (some ⟨n.tag, true, (n.outputs.head (by
              intro hn; rw [hn] at h; exact absurd h (by simp))).1⟩)
        else .error (.ambiguousNode nid n.outputs.length)
      | none => .error (.unknownNode nid))
    | none, some nm =>
      (match scope.find? (fun n => (n.find_port nm).isSome) with
      | some n =>
        match n.find_port nm with
        | some ptr => p.setSource w.allNodes selfPtr (some ptr)
        | none => .error (.unknownPortInScope nm)
      | none => .error (.unknownPortInScope nm))
    | none, none => .ok p

end Port

/-- Monadic map over a list in the `Except` monad (first error wins). -/
def mapME {α β : Type} (f : α → Except WfError β) : List α → Except WfError (List β)
  | [] => .ok []
  | a :: rest => do
    let b ← f a
    let bs ← mapME f rest
    .ok (b :: bs)

/-! `update_source` / `update_source_node_id` read only the *structure* of
the tree (node ids, tags, port names, output counts), never other ports'
states, and each updates only its own port; hence Python's sequential
in-place traversal over `chain(self._outputs[:], self._inputs[:])` is
modelled by mapping each port against a frozen snapshot of the tree (on an
error Python leaves the already-visited ports updated; the `Except` model
discards that partial state, which no theorem below inspects). -/

/-- `Node.update_sources` (lines 376-379): resolve the source references of
all output ports, then all input ports. -/
def NodeData.update_sources (n : NodeData) (w : Workflow) (scope : List NodeData) :
    Except WfError NodeData := do
  let outs ← mapME (fun nv =>
    (Port.update_source nv.2 w ⟨n.tag, true, nv.1⟩ scope).map (fun p => (nv.1, p))) n.outputs
  let ins ← mapME (fun nv =>
    (Port.update_source nv.2 w ⟨n.tag, false, nv.1⟩ scope).map (fun p => (nv.1, p))) n.inputs
  .ok { n with outputs := outs, inputs := ins }

/-- `Workflow.update_sources` (lines 578-582): the workflow's own ports,
then every step's ports. -/
def Workflow.update_sources (w : Workflow) : Except WfError Workflow := do
  let root ← w.node.update_sources w [w.node]
  let steps ← mapME (fun s =>
    (s.node.update_sources w [s.node, w.node]).map (fun nd => { s with node := nd })) w.steps
  .ok { w with node := root, steps := steps }

/-- `Node.update_sources_node_id` (lines 381-384): outputs then inputs. -/
def NodeData.update_sources_node_id (n : NodeData) (nodes : List NodeData)
    (changed : NodeData) (oldId : String) : Except WfError NodeData := do
  let outs ← mapME (fun nv =>
    (Port.update_source_node_id nv.2 nodes ⟨n.tag, true, nv.1⟩ changed oldId).map
      (fun p => (nv.1, p))) n.outputs
  let ins ← mapME (fun nv =>
    (Port.update_source_node_id nv.2 nodes ⟨n.tag, false, nv.1⟩ changed oldId).map
      (fun p => (nv.1, p))) n.inputs
  .ok { n with outputs := outs, inputs := ins }

/-- `Workflow.update_sources_node_id` (lines 584-591): the workflow's own
ports, then re-keying `_steps_dict`, then every step's ports. -/
def Workflow.update_sources_node_id (w : Workflow) (changed : NodeData) (oldId : String) :
    Except WfError Workflow := do
  let root ← w.node.update_sources_node_id w.allNodes changed oldId
  let steps ← mapME (fun s =>
    (s.node.update_sources_node_id w.allNodes changed oldId).map
      (fun nd => { s with node := nd })) w.steps
  .ok { w with node := root, steps := steps,
               stepsDict :=
                 if (dget w.stepsDict oldId).isSome then
                   dset (dpop w.stepsDict oldId) changed.id changed.tag
                 else w.stepsDict }

/-- A node of the tree, as the receiver of `set_id`. -/
inductive NodeRef where
  | root
  | step (tag : Nat)
deriving DecidableEq, Repr

/-- `Node.set_id(node_id)` (lines 171-183): reject a falsy id; no-op when
unchanged; otherwise store the new id and cascade through
`root_node.update_sources_node_id(self, old_id)`. -/
def Workflow.set_node_id (w : Workflow) (target : NodeRef) (newId : String) :
    Except WfError Workflow :=
  if newId = "" then .error .idMustBeGiven
  else
    match target with
    | .root =>
      if newId = w.node.id then .ok w
      else
        let oldId := w.node.id
        let w1 : Workflow := { w with node := { w.node with id := newId } }
        w1.update_sources_node_id w1.node oldId
    | .step tag =>
      match w.steps.find? (fun s => s.node.tag = tag) with
      | none => .ok w   -- unreachable: `set_id` is invoked on a step of this tree
      | some s =>
        if newId = s.node.id then .ok w
        else
          let oldId := s.node.id
          let w1 : Workflow := { w with steps := w.steps.map (fun s' =>
            if s'.node.tag = tag then { s' with node := { s'.node with id := newId } } else s') }
          w1.update_sources_node_id { s.node with id := newId } oldId

/-- `Node.remove_orphaned_sources` over one node's ports (lines 386-391). -/
def NodeData.remove_orphaned_sources (n : NodeData) (orphanTag : Nat) : NodeData :=
  { n with outputs := n.outputs.map (fun nv => (nv.1, nv.2.remove_orphaned orphanTag)),
           inputs := n.inputs.map (fun nv => (nv.1, nv.2.remove_orphaned orphanTag)) }

/-- `Workflow.remove_orphaned_sources` (lines 593-600). -/
def Workflow.remove_orphaned_sources (w : Workflow) (orphanTag : Nat) : Workflow :=
  { w with node := w.node.remove_orphaned_sources orphanTag,
           steps := w.steps.map (fun s =>
             { s with node := s.node.remove_orphaned_sources orphanTag }) }

/-- Replace the first step whose tag is `tag` (Python
`self._steps[self._steps.index(old_step)] = new_step`). -/
def replaceFirstStep : List Step → Nat → Step → List Step
  | [], _, _ => []
  | s :: rest, tag, ns =>
    if s.node.tag = tag then ns :: rest else s :: replaceFirstStep rest tag ns

/-- `Workflow.add_step(new_step, can_exist)` (lines 540-562). -/
def Workflow.add_step (w : Workflow) (newStep : Step) (canExist : Bool) :
    Except WfError Workflow :=
  match dget w.stepsDict newStep.node.id with
  | some oldTag =>
    if !canExist then .error (.stepExists newStep.node.id)
    else
      let w1 : Workflow :=
        { w with steps := replaceFirstStep w.steps oldTag newStep,
                 stepsDict := dset w.stepsDict newStep.node.id newStep.node.tag }
      if oldTag ≠ newStep.node.tag then
        -- the step already existed: resolve source references again, then
        -- clear ports whose source still points at the old step
        match w1.update_sources with
        | .ok w2 => .ok (w2.remove_orphaned_sources oldTag)
        | .error e => .error e
      else .ok w1
  | none =>
    .ok { w with steps := w.steps ++ [newStep],
                 stepsDict := dset w.stepsDict newStep.node.id newStep.node.tag }

/-- `Workflow.__init__` (lines 469-473). -/
def Workflow.new (tag : Nat) (meta : OpMetaInfo) (nodeId : Option String) : Workflow :=
  ⟨NodeData.new tag (match nodeId with | some i => i | none => meta.qualified_name) meta,
    [], []⟩

/-- `Workflow.add_steps(*steps, can_exist)` (lines 536-538). -/
def Workflow.add_steps (w : Workflow) (steps : List Step) (canExist : Bool) :
    Except WfError Workflow :=
  steps.foldlM (fun acc s => acc.add_step s canExist) w

/-! ## Invocation of operation-based steps (claim C7)

`OpStep`, `ExpressionStep` and `SubProcessStep` share
`OpStepBase._invoke_impl` (lines 960-988): collect defined input values,
apply context-derived inputs, consult the context's value cache (only when
the operation's `can_cache` flag is set), call the operation on a miss and
store its result, and distribute the return value over the output ports. -/

/-- Python truthiness of the values of this model. -/
def pyTruthy : PyVal → Bool
  | .prim .vnone => false
  | .prim (.vbool b) => b
  | .prim (.vint n) => n ≠ 0
  | .prim (.vstr s) => s ≠ ""
  | .prim (.vobj _ _) => true
  | .vdict fields => fields ≠ []
  | .vcache _ => true
  | .vundef => true

/-- Dereference a resolved source pointer to the port it denotes. -/
def findPortByPtr (nodes : List NodeData) (ptr : PortPtr) : Option Port :=
  (findNodeByTag nodes ptr.tag).bind (fun n =>
    if ptr.isOutput then dget n.outputs ptr.name else dget n.inputs ptr.name)

/-- `NodePort.has_value` (lines 1278-1285): read through the source chain;
an unsourced port has a value iff it is not `UNDEFINED`.  `fuel` bounds the
chain length (Python recurses unboundedly; source chains in a resolved
acyclic workflow are finite). -/
def Port.has_value (nodes : List NodeData) : Nat → Port → Bool
  | 0, _ => false
  | fuel + 1, p =>
    match p.source with
    | some ptr =>
      match findPortByPtr nodes ptr with
      | some p' => Port.has_value nodes fuel p'
      | none => false
    | none => (p.pval ≠ .vundef)

/-- `NodePort.value` (lines 1291-1298): read through the source chain;
`UNDEFINED` reads as `None`. -/
def Port.value (nodes : List NodeData) : Nat → Port → PyVal
  | 0, _ => pynone
  | fuel + 1, p =>
    match p.source with
    | some ptr =>
      match findPortByPtr nodes ptr with
      | some p' => Port.value nodes fuel p'
      | none => pynone
    | none => if p.pval = .vundef then pynone else p.pval

/-- `OpMetaInfo.has_named_outputs` — modelled from the spec (§3): true iff
the outputs are not exactly the single `"return"` output. -/
def OpMetaInfo.has_named_outputs (m : OpMetaInfo) : Bool :=
  !(m.outputs.length = 1 && (dget m.outputs RETURN_NAME).isSome)

/-- `Node._set_context_values` (lines 331-348): for every input whose
properties carry a `context` key, overwrite the collected input value —
with the sandboxed evaluation of the expression when the key holds a string
(`ctxEval` models `safe_eval` over the context, already defaulting to
`None` on failure), or with the context object itself when the key is
truthy. -/
def setContextValues (meta : OpMetaInfo) (ctxEval : String → PyVal) (ctxObj : PyVal)
    (inputVals : List (String × PyVal)) : List (String × PyVal) :=
  meta.inputs.foldl (fun acc nv =>
    match (dget nv.2 "context" : Option PyVal) with
    | some (PyVal.prim (PyPrim.vstr e)) => dset acc nv.1 (ctxEval e)
    | some v => if pyTruthy v then dset acc nv.1 ctxObj else acc
    | none => acc) inputVals

/-- The input values `_invoke_impl` collects (lines 969-974). -/
def collectInputValues (nodes : List NodeData) (fuel : Nat) (step : Step)
    (ctxEval : String → PyVal) (ctxObj : PyVal) : List (String × PyVal) :=
  setContextValues step.node.meta ctxEval ctxObj
    (step.node.inputs.foldl (fun acc nv =>
      if Port.has_value nodes fuel nv.2 then acc ++ [(nv.1, Port.value nodes fuel nv.2)]
      else acc) [])

/-- `self.outputs[name].value = v` (raises when the output is absent). -/
def setOutputValue (outs : List (String × Port)) (nm : String) (v : PyVal) :
    Except WfError (List (String × Port)) :=
  match dget outs nm with
  | some p => .ok (dset outs nm (p.setValue v))
  | none => .error (.missingOutput nm)

/-- The observable outcome of `_invoke_impl`: the updated output ports, the
context's value cache afterwards, the return value used, and whether the
underlying operation was actually called. -/
structure InvokeResult where
  outs : List (String × Port)
  cache : Option ValueCache
  returnValue : PyVal
  opCalled : Bool
deriving DecidableEq, Repr

/-- Distributing the return value over the output ports (lines 984-988):
a named-outputs op must return a dictionary, whose items fill the
like-named output ports; otherwise the single value fills `"return"`. -/
def writeOutputs (meta : OpMetaInfo) (outs0 : List (String × Port)) (rv : PyVal) :
    Except WfError (List (String × Port)) :=
  if meta.has_named_outputs then
    match rv with
    | .vdict fields =>
      fields.foldlM (fun acc nv => setOutputValue acc nv.1 (.prim nv.2)) outs0
    | _ => .error .typeError
  else setOutputValue outs0 RETURN_NAME rv

/-- The cache-consultation core of `_invoke_impl` (lines 976-982): the
return value used, the context's value cache afterwards, and whether the
operation was called. -/
def invokeTriple (nodes : List NodeData) (fuel : Nat) (step : Step)
    (ctxCache : Option ValueCache) (ctxEval : String → PyVal) (ctxObj : PyVal)
    (opF : List (String × PyVal) → PyVal) : PyVal × Option ValueCache × Bool :=
  let inputVals := collectInputValues nodes fuel step ctxEval ctxObj
  -- `_get_value_cache`: only a caching-enabled op sees the context's cache
  let vc := if step.node.meta.can_cache then ctxCache else none
  let hit : Option PyVal :=
    match vc with
    | some c =>
      match dget c.entries step.node.id with
      | some v => if v ≠ .vundef then some v else none
      | none => none
    | none => none
  match hit with
  | some v => (v, ctxCache, false)
  | none =>
    let rv := opF inputVals
    match vc with
    | some c => (rv, some (c.setItem step.node.id rv), true)
    | none => (rv, ctxCache, true)

/-- `OpStepBase._invoke_impl(context, monitor)` (lines 960-988).
`ctxCache` is `context.get('value_cache')`; `opF` is the underlying
operation `self._op` as a function of the keyword input values. -/
def invokeImpl (nodes : List NodeData) (fuel : Nat) (step : Step)
    (ctxCache : Option ValueCache) (ctxEval : String → PyVal) (ctxObj : PyVal)
    (opF : List (String × PyVal) → PyVal) : Except WfError InvokeResult :=
  let rcc := invokeTriple nodes fuel step ctxCache ctxEval ctxObj opF
  match writeOutputs step.node.meta step.node.outputs rcc.1 with
  | .ok outs => .ok ⟨outs, rcc.2.1, rcc.1, rcc.2.2⟩
  | .error e => .error e

theorem invokeImpl_ok_components (nodes : List NodeData) (fuel : Nat) (step : Step)
    (ctxCache : Option ValueCache) (ctxEval : String → PyVal) (ctxObj : PyVal)
    (opF : List (String × PyVal) → PyVal) (res : InvokeResult)
    (h : invokeImpl nodes fuel step ctxCache ctxEval ctxObj opF = .ok res) :
    res.returnValue = (invokeTriple nodes fuel step ctxCache ctxEval ctxObj opF).1
    ∧ res.cache = (invokeTriple nodes fuel step ctxCache ctxEval ctxObj opF).2.1
    ∧ res.opCalled = (invokeTriple nodes fuel step ctxCache ctxEval ctxObj opF).2.2 := by
  have h' : (match writeOutputs step.node.meta step.node.outputs
      (invokeTriple nodes fuel step ctxCache ctxEval ctxObj opF).1 with
    | Except.ok outs => Except.ok (⟨outs,
        (invokeTriple nodes fuel step ctxCache ctxEval ctxObj opF).2.1,
        (invokeTriple nodes fuel step ctxCache ctxEval ctxObj opF).1,
        (invokeTriple nodes fuel step ctxCache ctxEval ctxObj opF).2.2⟩ : InvokeResult)
    | Except.error e => Except.error e) = Except.ok res := h
  rcases hw : writeOutputs step.node.meta step.node.outputs
      (invokeTriple nodes fuel step ctxCache ctxEval ctxObj opF).1 with e | outs <;>
    rw [hw] at h'
  · exact absurd h' (by simp)
  · injection h' with h'
    rw [← h']
    exact ⟨rfl, rfl, rfl⟩

/-- **C7.** When an `OpStep` (or expression / sub-process step) is invoked
in a context whose `value_cache` contains an entry under the step's id that
is not the `UNDEFINED` sentinel, the cached value is used as the return
value without calling the underlying operation; otherwise the operation is
called and its result is stored in the cache under the step's id; this
consultation and storing happen only when the operation's `can_cache` flag
is true — otherwise the cache is neither read nor written and the operation
is always called. -/
theorem opStep_value_cache_consultation (nodes : List NodeData) (fuel : Nat)
    (step : Step) (c : ValueCache) (ctxEval : String → PyVal) (ctxObj : PyVal)
    (opF : List (String × PyVal) → PyVal) :
    -- cache hit (can_cache, defined entry under the step's id)
    (step.node.meta.can_cache = true →
      ∀ v, dget c.entries step.node.id = some v → v ≠ .vundef →
        ∀ res, invokeImpl nodes fuel step (some c) ctxEval ctxObj opF = .ok res →
          res.returnValue = v ∧ res.opCalled = false ∧ res.cache = some c)
    ∧ -- cache miss (no entry, or the UNDEFINED sentinel): op runs, result stored
    (step.node.meta.can_cache = true →
      (dget c.entries step.node.id = none ∨ dget c.entries step.node.id = some .vundef) →
        ∀ res, invokeImpl nodes fuel step (some c) ctxEval ctxObj opF = .ok res →
          res.opCalled = true
          ∧ res.returnValue = opF (collectInputValues nodes fuel step ctxEval ctxObj)
          ∧ res.cache = some (c.setItem step.node.id
              (opF (collectInputValues nodes fuel step ctxEval ctxObj))))
    ∧ -- can_cache false: the cache is neither read nor written
    (step.node.meta.can_cache = false →
      ∀ ctxc res, invokeImpl nodes fuel step ctxc ctxEval ctxObj opF = .ok res →
        res.opCalled = true
        ∧ res.returnValue = opF (collectInputValues nodes fuel step ctxEval ctxObj)
        ∧ res.cache = ctxc) := by
  refine ⟨?_, ?_, ?_⟩
  · intro hcc v hv hvu res hres
    obtain ⟨h1, h2, h3⟩ := invokeImpl_ok_components _ _ _ _ _ _ _ _ hres
    have htr : invokeTriple nodes fuel step (some c) ctxEval ctxObj opF
        = (v, some c, false) := by
      unfold invokeTriple
      rw [hcc]
      simp only [if_true, hv, if_pos hvu]
    rw [htr] at h1 h2 h3
    exact ⟨h1, h3, h2⟩
  · intro hcc hmiss res hres
    obtain ⟨h1, h2, h3⟩ := invokeImpl_ok_components _ _ _ _ _ _ _ _ hres
    have htr : invokeTriple nodes fuel step (some c) ctxEval ctxObj opF
        = (opF (collectInputValues nodes fuel step ctxEval ctxObj),
            some (c.setItem step.node.id
              (opF (collectInputValues nodes fuel step ctxEval ctxObj))), true) := by
      unfold invokeTriple
      rw [hcc]
      rcases hmiss with hm | hm <;>
        (simp only [if_true, hm]; try simp)
    rw [htr] at h1 h2 h3
    exact ⟨h3, h1, h2⟩
  · intro hcc ctxc res hres
    obtain ⟨h1, h2, h3⟩ := invokeImpl_ok_components _ _ _ _ _ _ _ _ hres
    have htr : invokeTriple nodes fuel step ctxc ctxEval ctxObj opF
        = (opF (collectInputValues nodes fuel step ctxEval ctxObj), ctxc, true) := by
      unfold invokeTriple
      rw [hcc]
      simp
    rw [htr] at h1 h2 h3
    exact ⟨h3, h1, h2⟩

def c7Meta : OpMetaInfo := ⟨"pkg.g", [], [("x", [])], [(RETURN_NAME, [])], true⟩

def c7Node : NodeData :=
  { NodeData.new 3 "s" c7Meta with inputs := [("x", ⟨none, none, .prim (.vint 3)⟩)] }

def c7Step : Step := ⟨c7Node, .opStep "pkg.g", false⟩

def c7Cache : ValueCache := ValueCache.setItem ValueCache.init "s" (.prim (.vint 7))

def c7Op : List (String × PyVal) → PyVal := fun _ => .prim (.vint 99)

def c7StepNC : Step :=
  ⟨{ c7Node with meta := { c7Meta with can_cache := false } }, .opStep "pkg.g", false⟩

/-- Witness for C7: on a cache hit the cached `7` is returned without
calling the op (whose result would be `99`) and the cache is untouched; on
a miss the op runs and `99` is stored under the step id; with
`can_cache = False` the op runs and the hit entry is ignored and preserved. -/
theorem opStep_value_cache_consultation_witness :
    (∃ res, invokeImpl [] 1 c7Step (some c7Cache) (fun _ => pynone) pynone c7Op = .ok res
      ∧ res.returnValue = .prim (.vint 7) ∧ res.opCalled = false ∧ res.cache = some c7Cache)
    ∧ (∃ res, invokeImpl [] 1 c7Step (some ValueCache.init) (fun _ => pynone) pynone c7Op
        = .ok res
      ∧ res.opCalled = true ∧ res.returnValue = .prim (.vint 99)
      ∧ res.cache = some (ValueCache.setItem ValueCache.init "s" (.prim (.vint 99))))
    ∧ (∃ res, invokeImpl [] 1 c7StepNC (some c7Cache) (fun _ => pynone) pynone c7Op = .ok res
      ∧ res.opCalled = true ∧ res.returnValue = .prim (.vint 99)
      ∧ res.cache = some c7Cache) := by
  have hA := opStep_value_cache_consultation [] 1 c7Step c7Cache (fun _ => pynone) pynone c7Op
  have hB := opStep_value_cache_consultation [] 1 c7Step ValueCache.init
    (fun _ => pynone) pynone c7Op
  have hC := opStep_value_cache_consultation [] 1 c7StepNC c7Cache (fun _ => pynone) pynone c7Op
  refine ⟨?_, ?_, ?_⟩
  · have hrun : invokeImpl [] 1 c7Step (some c7Cache) (fun _ => pynone) pynone c7Op
        = .ok ⟨[(RETURN_NAME, ⟨none, none, .prim (.vint 7)⟩)], some c7Cache,
            .prim (.vint 7), false⟩ := by decide
    obtain ⟨h1, h2, h3⟩ := hA.1 (by decide) (.prim (.vint 7)) (by decide) (by decide) _ hrun
    exact ⟨_, hrun, h1, h2, h3⟩
  · have hrun : invokeImpl [] 1 c7Step (some ValueCache.init) (fun _ => pynone) pynone c7Op
        = .ok ⟨[(RETURN_NAME, ⟨none, none, .prim (.vint 99)⟩)],
            some (ValueCache.setItem ValueCache.init "s" (.prim (.vint 99))),
            .prim (.vint 99), true⟩ := by decide
    obtain ⟨h1, h2, h3⟩ := hB.2.1 (by decide) (Or.inl (by decide)) _ hrun
    exact ⟨_, hrun, h1, h2, h3⟩
  · have hrun : invokeImpl [] 1 c7StepNC (some c7Cache) (fun _ => pynone) pynone c7Op
        = .ok ⟨[(RETURN_NAME, ⟨none, none, .prim (.vint 99)⟩)], some c7Cache,
            .prim (.vint 99), true⟩ := by decide
    obtain ⟨h1, h2, h3⟩ := hC.2.2 (by decide) (some c7Cache) _ hrun
    exact ⟨_, hrun, h1, h2, h3⟩

/-! ## Port lookup direction during resolution (claims C6, C8)

Example data: a workflow `"wf"` that has **both** an input and an output
named `"x"`, containing one step `"s"` with one input `"in"` and one output
`"return"`. -/

def exWfMeta : OpMetaInfo := ⟨"wf", [], [("x", [])], [("x", [])], true⟩

def exWfNode : NodeData := NodeData.new 0 "wf" exWfMeta

def exStepMeta : OpMetaInfo := ⟨"pkg.f", [], [("in", [])], [(RETURN_NAME, [])], true⟩

def exStepNode : NodeData :=
  { NodeData.new 1 "s" exStepMeta with
    inputs := [("in", ⟨some ⟨some "wf", some "x"⟩, none, .vundef⟩)] }

def exWf : Workflow := ⟨exWfNode, [⟨exStepNode, .opStep "pkg.f", false⟩], [("s", 1)]⟩

/-- **C6** (divergence evaluated on the embedded code): when `update_source`
resolves the reference `"wf.x"` against the workflow `"wf"`, which has both
an input and an output named `"x"`, the port resolves to the workflow's
*output* `"x"` — `Node.find_port` searches outputs first and `Workflow`
does not override it — although the claim (and the `update_source`
docstring, workflow.py lines 1352-1353) prescribes that inputs be searched
first on workflows.  The error half of the claim is accurate: a name
missing from both namespaces raises the *UnknownPort* `ValueError`. -/
theorem update_source_workflow_outputs_first :
    (Port.update_source ⟨some ⟨some "wf", some "x"⟩, none, .vundef⟩ exWf
        ⟨1, false, "in"⟩ [exStepNode, exWfNode]
      = .ok ⟨some ⟨some "wf", some "x"⟩, some ⟨0, true, "x"⟩, .vundef⟩)
    ∧ ((dget exWfNode.inputs "x").isSome ∧ (dget exWfNode.outputs "x").isSome)
    ∧ (Port.update_source ⟨some ⟨some "wf", some "zz"⟩, none, .vundef⟩ exWf
        ⟨1, false, "in"⟩ [exStepNode, exWfNode]
      = .error (.unknownPort "wf" "zz")) := by
  refine ⟨rfl, by decide, rfl⟩

/-- **C8.** Resolving a source reference that consists of only a `node_id`
succeeds exactly when the referenced node exists and has exactly one output
port, which becomes the port's source; when the referenced node's number of
outputs differs from one, `update_source` raises the *AmbiguousNode*
`ValueError` (and a missing node raises the node-does-not-exist error).
The hypothesis `hself` rules out the degenerate self-binding case (a port
referencing its own node), where the `source` setter raises instead. -/
theorem update_source_single_output_shortcut
    (w : Workflow) (p : Port) (selfPtr : PortPtr) (scope : List NodeData) (nid : String)
    (hsref : p.sref = some ⟨some nid, none⟩)
    (hself : ∀ n nm pp,
      (if w.node.id = nid then some w.node else w.find_node nid) = some n →
      n.outputs.head? = some (nm, pp) → PortPtr.mk n.tag true nm ≠ selfPtr) :
    ((∃ p', Port.update_source p w selfPtr scope = .ok p')
        ↔ (∃ n, (if w.node.id = nid then some w.node else w.find_node nid) = some n
            ∧ n.outputs.length = 1))
    ∧ (∀ n, (if w.node.id = nid then some w.node else w.find_node nid) = some n →
        n.outputs.length ≠ 1 →
        Port.update_source p w selfPtr scope = .error (.ambiguousNode nid n.outputs.length))
    ∧ ((if w.node.id = nid then some w.node else w.find_node nid) = none →
        Port.update_source p w selfPtr scope = .error (.unknownNode nid))
    ∧ (∀ n nm pp, (if w.node.id = nid then some w.node else w.find_node nid) = some n →
        n.outputs.length = 1 → n.outputs.head? = some (nm, pp) →
        ∃ p', Port.update_source p w selfPtr scope = .ok p'
          ∧ p'.source = some ⟨n.tag, true, nm⟩ ∧ p'.pval = .vundef) := by
  have hupd : Port.update_source p w selfPtr scope =
      match (if w.node.id = nid then some w.node else w.find_node nid) with
      | some n =>
        if h : n.outputs.length = 1 then
          p.setSource w.allNodes selfPtr
            (some ⟨n.tag, true, (n.outputs.head (by
              intro hn; rw [hn] at h; exact absurd h (by simp))).1⟩)
        else .error (.ambiguousNode nid n.outputs.length)
      | none => .error (.unknownNode nid) := by
    unfold Port.update_source
    rw [hsref]
  rcases htgt : (if w.node.id = nid then some w.node else w.find_node nid) with _ | n
  · rw [htgt] at hupd hself
    have herr : Port.update_source p w selfPtr scope = .error (.unknownNode nid) := hupd
    refine ⟨?_, ?_, fun _ => herr, ?_⟩
    · constructor
      · intro ⟨p', hp'⟩
        rw [herr] at hp'
        exact absurd hp' (by simp)
      · intro ⟨n, hn, _⟩
        exact absurd hn (by simp)
    · intro n hn
      exact absurd hn (by simp)
    · intro n nm pp hn
      exact absurd hn (by simp)
  · rw [htgt] at hupd hself
    have hupd2 : Port.update_source p w selfPtr scope =
        (if h : n.outputs.length = 1 then
          p.setSource w.allNodes selfPtr
            (some ⟨n.tag, true, (n.outputs.head (by
              intro hn; rw [hn] at h; exact absurd h (by simp))).1⟩)
        else .error (.ambiguousNode nid n.outputs.length)) := hupd
    by_cases hlen : n.outputs.length = 1
    · have hne : n.outputs ≠ [] := by
        intro hn; rw [hn] at hlen; exact absurd hlen (by simp)
      have hhd : n.outputs.head? = some (n.outputs.head hne) :=
        List.head?_eq_head hne
      have hok : Port.update_source p w selfPtr scope =
          p.setSource w.allNodes selfPtr (some ⟨n.tag, true, (n.outputs.head hne).1⟩) := by
        rw [hupd2, dif_pos hlen]
      have hnotself : some (PortPtr.mk n.tag true (n.outputs.head hne).1) ≠ some selfPtr := by
        have hne2 := hself n (n.outputs.head hne).1 (n.outputs.head hne).2 rfl (by rw [hhd])
        exact fun hc => hne2 (Option.some.inj hc)
      have hset : p.setSource w.allNodes selfPtr (some ⟨n.tag, true, (n.outputs.head hne).1⟩)
          = .ok ⟨some ⟨some (((findNodeByTag w.allNodes n.tag).map (·.id)).getD ""),
                  some (n.outputs.head hne).1⟩,
                some ⟨n.tag, true, (n.outputs.head hne).1⟩, .vundef⟩ := by
        unfold Port.setSource
        rw [if_neg hnotself]
      refine ⟨?_, ?_, ?_, ?_⟩
      · constructor
        · intro _; exact ⟨n, rfl, hlen⟩
        · intro _
          exact ⟨_, by rw [hok, hset]⟩
      · intro n' hn' hlen'
        injection hn' with hn'
        subst hn'
        exact absurd hlen hlen'
      · intro hcon
        exact absurd hcon (by simp)
      · intro n' nm pp hn' _ hhd'
        injection hn' with hn'
        subst hn'
        rw [hhd] at hhd'
        injection hhd' with hhd'
        refine ⟨_, by rw [hok, hset], by rw [hhd'], rfl⟩
    · have herr : Port.update_source p w selfPtr scope
          = .error (.ambiguousNode nid n.outputs.length) := by
        rw [hupd2, dif_neg hlen]
      refine ⟨?_, ?_, ?_, ?_⟩
      · constructor
        · intro ⟨p', hp'⟩
          rw [herr] at hp'
          exact absurd hp' (by simp)
        · intro ⟨n', hn', hlen'⟩
          injection hn' with hn'
          subst hn'
          exact absurd hlen' hlen
      · intro n' hn' _
        injection hn' with hn'
        subst hn'
        exact herr
      · intro hcon
        exact absurd hcon (by simp)
      · intro n' nm pp hn' hlen' _
        injection hn' with hn'
        subst hn'
        exact absurd hlen' hlen

/-- Witness for C8 at the concrete workflow `exWf`: the reference `"s"`
(node-id only), written on the workflow's own output port, resolves to step
`"s"`'s single output `"return"`. -/
theorem update_source_single_output_shortcut_witness :
    (∃ p', Port.update_source ⟨some ⟨some "s", none⟩, none, .vundef⟩ exWf
        ⟨0, true, "x"⟩ [exWfNode] = .ok p'
      ∧ p'.source = some ⟨1, true, RETURN_NAME⟩ ∧ p'.pval = .vundef) := by
  have h := update_source_single_output_shortcut exWf
    ⟨some ⟨some "s", none⟩, none, .vundef⟩ ⟨0, true, "x"⟩ [exWfNode] "s" rfl
    (by
      intro n nm pp hn _
      rw [show (if exWf.node.id = "s" then some exWf.node else exWf.find_node "s")
            = some exStepNode from rfl] at hn
      injection hn with hn
      subst hn
      intro hc
      have : exStepNode.tag = (0 : Nat) := congrArg PortPtr.tag hc
      exact absurd this (by decide))
  exact h.2.2.2 exStepNode RETURN_NAME Port.fresh (by decide) (by decide) (by decide)

/-! ## Renaming a node (claim C3) -/

theorem mapME_ok_of_forall {α β : Type} (f : α → Except WfError β) (g : α → β) :
    ∀ l : List α, (∀ x ∈ l, f x = .ok (g x)) → mapME f l = .ok (l.map g)
  | [], _ => rfl
  | a :: rest, h => by
    unfold mapME
    rw [h a (by simp), mapME_ok_of_forall f g rest (fun x hx => h x (by simp [hx]))]
    rfl

/-- What `update_source_node_id` does to one port, stated locally: a source
reference naming `oldId` is reconnected to the like-named port of the
renamed node when the reference carries a port name that exists there
(outputs searched first), and *cleared* (reference, source and value all
reset) otherwise; other ports are untouched. -/
def renamedPort (nodes : List NodeData) (changed : NodeData) (oldId : String) (p : Port) :
    Port :=
  match p.sref with
  | some r =>
    if r.node_id = some oldId then
      match (match r.port_name with
             | some nm => changed.find_port nm
             | none => none) with
      | some ptr =>
        ⟨some ⟨some (((findNodeByTag nodes ptr.tag).map (·.id)).getD ""), some ptr.name⟩,
          some ptr, .vundef⟩
      | none => ⟨none, none, .vundef⟩
    else p
  | none => p

theorem update_source_node_id_ok (nodes : List NodeData) (selfPtr : PortPtr) (p : Port)
    (changed : NodeData) (oldId : String)
    (hns : ∀ r, p.sref = some r → r.node_id = some oldId →
      (match r.port_name with
       | some nm => changed.find_port nm
       | none => none) ≠ some selfPtr) :
    p.update_source_node_id nodes selfPtr changed oldId
      = .ok (renamedPort nodes changed oldId p) := by
  unfold Port.update_source_node_id renamedPort
  rcases hr : p.sref with _ | r
  · rfl
  · dsimp only
    by_cases hid : r.node_id = some oldId
    · rw [if_pos hid, if_pos hid]
      have hne := hns r hr hid
      rcases hf : (match r.port_name with
                   | some nm => changed.find_port nm
                   | none => none) with _ | ptr <;> rw [hf] at hne ⊢
      · rfl
      · unfold Port.setSource
        rw [if_neg hne]
    · rw [if_neg hid, if_neg hid]

theorem node_update_sources_node_id_ok (n : NodeData) (nodes : List NodeData)
    (changed : NodeData) (oldId : String)
    (hout : ∀ nv ∈ n.outputs, ∀ r, (nv.2 : Port).sref = some r → r.node_id = some oldId →
      (match r.port_name with
       | some nm => changed.find_port nm
       | none => none) ≠ some ⟨n.tag, true, nv.1⟩)
    (hin : ∀ nv ∈ n.inputs, ∀ r, (nv.2 : Port).sref = some r → r.node_id = some oldId →
      (match r.port_name with
       | some nm => changed.find_port nm
       | none => none) ≠ some ⟨n.tag, false, nv.1⟩) :
    n.update_sources_node_id nodes changed oldId
      = .ok { n with
          outputs := n.outputs.map (fun nv => (nv.1, renamedPort nodes changed oldId nv.2)),
          inputs := n.inputs.map (fun nv => (nv.1, renamedPort nodes changed oldId nv.2)) } := by
  unfold NodeData.update_sources_node_id
  rw [mapME_ok_of_forall _ (fun nv => (nv.1, renamedPort nodes changed oldId nv.2)) n.outputs
      (fun nv hnv => by
        rw [update_source_node_id_ok nodes _ nv.2 changed oldId (hout nv hnv)]
        rfl)]
  rw [mapME_ok_of_forall _ (fun nv => (nv.1, renamedPort nodes changed oldId nv.2)) n.inputs
      (fun nv hnv => by
        rw [update_source_node_id_ok nodes _ nv.2 changed oldId (hin nv hnv)]
        rfl)]
  rfl

/-- The per-node port transformation of a rename cascade. -/
def renamedNode (nodes : List NodeData) (changed : NodeData) (oldId : String)
    (n : NodeData) : NodeData :=
  { n with
    outputs := n.outputs.map (fun nv => (nv.1, renamedPort nodes changed oldId nv.2)),
    inputs := n.inputs.map (fun nv => (nv.1, renamedPort nodes changed oldId nv.2)) }

theorem wf_update_sources_node_id_ok (w : Workflow) (changed : NodeData) (oldId : String)
    (hall : ∀ n ∈ w.allNodes, ∀ (isOut : Bool) nv,
      nv ∈ (if isOut then n.outputs else n.inputs) →
      ∀ r, (nv.2 : Port).sref = some r → r.node_id = some oldId →
        (match r.port_name with
         | some nm => changed.find_port nm
         | none => none) ≠ some ⟨n.tag, isOut, nv.1⟩) :
    w.update_sources_node_id changed oldId
      = .ok { w with
          node := renamedNode w.allNodes changed oldId w.node,
          steps := w.steps.map (fun s =>
            { s with node := renamedNode w.allNodes changed oldId s.node }),
          stepsDict :=
            if (dget w.stepsDict oldId).isSome then
              dset (dpop w.stepsDict oldId) changed.id changed.tag
            else w.stepsDict } := by
  unfold Workflow.update_sources_node_id
  rw [node_update_sources_node_id_ok w.node w.allNodes changed oldId
    (fun nv hnv => hall w.node (by simp [Workflow.allNodes]) true nv hnv)
    (fun nv hnv => hall w.node (by simp [Workflow.allNodes]) false nv hnv)]
  rw [mapME_ok_of_forall _
    (fun s => { s with node := renamedNode w.allNodes changed oldId s.node }) w.steps
    (fun s hs => by
      rw [node_update_sources_node_id_ok s.node w.allNodes changed oldId
        (fun nv hnv => hall s.node (by
            simp only [Workflow.allNodes, List.mem_cons, List.mem_map]
            exact Or.inr ⟨s, hs, rfl⟩) true nv hnv)
        (fun nv hnv => hall s.node (by
            simp only [Workflow.allNodes, List.mem_cons, List.mem_map]
            exact Or.inr ⟨s, hs, rfl⟩) false nv hnv)]
      rfl)]
  rfl

theorem find_port_tag (n : NodeData) (nm : String) (ptr : PortPtr)
    (h : n.find_port nm = some ptr) : ptr.tag = n.tag ∧ ptr.name = nm := by
  unfold NodeData.find_port at h
  by_cases h1 : (dget n.outputs nm).isSome
  · rw [if_pos h1] at h
    injection h with h
    rw [← h]
    exact ⟨rfl, rfl⟩
  · rw [if_neg h1] at h
    by_cases h2 : (dget n.inputs nm).isSome
    · rw [if_pos h2] at h
      injection h with h
      rw [← h]
      exact ⟨rfl, rfl⟩
    · rw [if_neg h2] at h
      exact absurd h (by simp)

/-- The steps list after the bare rename of the step with tag `tag`. -/
def renameStepsList (steps : List Step) (tag : Nat) (newId : String) : List Step :=
  steps.map (fun s' =>
    if s'.node.tag = tag then { s' with node := { s'.node with id := newId } } else s')

/-- **C3** (amended).  For a step of a workflow, `set_id(new_id)` rejects an
empty id; is a no-op when `new_id` equals the current id; and otherwise
renames the step and cascades over every port of the tree: a port source
reference that pointed at the old id *and carries a port name that exists
on the renamed node* is rewritten to the like-named port (outputs searched
first) under the new id; a reference that pointed at the old id with *no*
port name (the node-id-only form) or with a name the renamed node lacks is
*cleared* — its reference, source and value are all reset; all other ports
are untouched; and the workflow's step lookup drops the old id and maps the
new id to the renamed step.  Hypotheses: the renamed step is found by tag,
tags are not shared with the root or another step, and no port of the
renamed node itself references the old id (which would trip the
self-binding guard of the `source` setter). -/
theorem set_id_rename_cascade (w : Workflow) (tag : Nat) (s : Step) (newId : String)
    (hs : w.steps.find? (fun s' => s'.node.tag = tag) = some s)
    (hrootTag : w.node.tag ≠ tag)
    (huniq : ∀ s' ∈ w.steps, s'.node.tag = tag → s' = s)
    (hnoself : ∀ (isOut : Bool) nv, nv ∈ (if isOut then s.node.outputs else s.node.inputs) →
        ∀ r, (nv.2 : Port).sref = some r → r.node_id ≠ some s.node.id)
    (hnew : newId ≠ "") (hdiff : newId ≠ s.node.id) :
    (Workflow.set_node_id w (.step tag) "" = .error .idMustBeGiven)
    ∧ (s.node.id ≠ "" → Workflow.set_node_id w (.step tag) s.node.id = .ok w)
    ∧ (Workflow.set_node_id w (.step tag) newId
        = .ok (let w1 : Workflow := { w with steps := renameStepsList w.steps tag newId }
               let changed : NodeData := { s.node with id := newId }
               { w1 with
                 node := renamedNode w1.allNodes changed s.node.id w1.node,
                 steps := w1.steps.map (fun s' =>
                   { s' with node := renamedNode w1.allNodes changed s.node.id s'.node }),
                 stepsDict :=
                   if (dget w.stepsDict s.node.id).isSome then
                     dset (dpop w.stepsDict s.node.id) newId s.node.tag
                   else w.stepsDict })) := by
  have hstag : s.node.tag = tag := by
    have := List.find?_some hs
    exact of_decide_eq_true this
  refine ⟨?_, ?_, ?_⟩
  · unfold Workflow.set_node_id
    rw [if_pos rfl]
  · intro hid
    unfold Workflow.set_node_id
    rw [if_neg hid]
    dsimp only
    rw [hs]
    dsimp only
    first
    | rfl
    | rw [if_pos rfl]
  · unfold Workflow.set_node_id
    rw [if_neg hnew]
    dsimp only
    rw [hs]
    dsimp only
    rw [if_neg hdiff]
    have hall : ∀ n ∈ ({ w with steps := renameStepsList w.steps tag newId } :
          Workflow).allNodes,
        ∀ (isOut : Bool) nv, nv ∈ (if isOut then n.outputs else n.inputs) →
        ∀ r, (nv.2 : Port).sref = some r → r.node_id = some s.node.id →
          (match r.port_name with
           | some nm => NodeData.find_port { s.node with id := newId } nm
           | none => none) ≠ some ⟨n.tag, isOut, nv.1⟩ := by
      intro n hn isOut nv hnv r hsref hrid hc
      have hptr : ∀ nm ptr, NodeData.find_port { s.node with id := newId } nm = some ptr →
          ptr.tag = s.node.tag := by
        intro nm ptr hfp
        exact (find_port_tag _ nm ptr hfp).1
      rcases hrn : r.port_name with _ | nm
      · rw [hrn] at hc
        exact absurd hc (by simp)
      · rw [hrn] at hc
        have htag : n.tag = s.node.tag := by
          have := hptr nm ⟨n.tag, isOut, nv.1⟩ hc
          exact this.symm ▸ rfl
        -- so `n` is the renamed step's node, contradicting `hnoself`
        simp only [Workflow.allNodes, List.mem_cons, List.mem_map] at hn
        rcases hn with hn | ⟨s', hs', hn⟩
        · rw [hn] at htag
          exact hrootTag (htag.trans hstag)
        · simp only [renameStepsList, List.mem_map] at hs'
          obtain ⟨s0, hs0, hmap⟩ := hs'
          by_cases h0 : s0.node.tag = tag
          · have hss : s0 = s := huniq s0 hs0 h0
            rw [← hmap, if_pos h0, hss] at hn
            have hports : (if isOut then n.outputs else n.inputs)
                = (if isOut then s.node.outputs else s.node.inputs) := by
              rw [← hn]
            rw [hports] at hnv
            exact hnoself isOut nv hnv r hsref hrid
          · rw [← hmap, if_neg h0] at hn
            rw [← hn] at htag
            exact h0 (htag.trans hstag)
    exact wf_update_sources_node_id_ok
      { w with steps := renameStepsList w.steps tag newId }
      { s.node with id := newId } s.node.id hall

def c3MetaA : OpMetaInfo := ⟨"pkg.a", [], [], [("out", [])], true⟩

def c3A : Step := ⟨NodeData.new 1 "a" c3MetaA, .opStep "pkg.a", false⟩

def c3MetaT : OpMetaInfo := ⟨"pkg.t", [], [("x", [])], [(RETURN_NAME, [])], true⟩

/-- Step `"t"` whose input `"x"` holds the *unresolved* node-id-only
reference `"a"` (the single-output shortcut form). -/
def c3T : Step :=
  ⟨{ NodeData.new 2 "t" c3MetaT with
      inputs := [("x", ⟨some ⟨some "a", none⟩, none, .vundef⟩)] }, .opStep "pkg.t", false⟩

def c3W : Workflow :=
  ⟨NodeData.new 0 "wf" ⟨"wf", [], [], [], true⟩, [c3A, c3T], [("a", 1), ("t", 2)]⟩

/-- **C3 counterexample.** Renaming step `"a"` to `"b"` while step `"t"`'s
input holds the unresolved node-id-only reference `"a"`: before the rename
the port references node `"a"` (whose single logical output is `"out"`);
after the rename the port holds *no* reference at all (`update_source_node_id`
calls `find_port(None)`, which returns `None`, and the `source` setter then
clears reference, source and value) — so the reference is not rewritten to
point at the same logical port under the new id `"b"`, contrary to the
claim's "rewrites every port source reference (unresolved or resolved)". -/
theorem set_id_counterexample :
    dget c3T.node.inputs "x" = some ⟨some ⟨some "a", none⟩, none, .vundef⟩
    ∧ (Workflow.set_node_id c3W (.step 1) "b").map (fun w' =>
          w'.steps.map (fun s' => (s'.node.id, s'.node.inputs)))
        = .ok [("b", []), ("t", [("x", ⟨none, none, .vundef⟩)])] := by
  constructor
  · decide
  · decide

/-- Witness for the amended C3 at a concrete workflow: step `"t"`'s input
`"x"` is *resolved* to `"a"`'s output `"out"`; renaming `"a"` to `"b"`
rewrites the port to the same port under `"b"`, and the step lookup maps
`"b"` to the renamed step. -/
theorem set_id_rename_cascade_witness :
    (Workflow.set_node_id c3W (.step 1) "" = .error .idMustBeGiven)
    ∧ (Workflow.set_node_id c3W (.step 1) "a" = .ok c3W)
    ∧ ((Workflow.set_node_id
          (⟨NodeData.new 0 "wf" ⟨"wf", [], [], [], true⟩,
            [c3A, ⟨{ NodeData.new 2 "t" c3MetaT with
              inputs := [("x", ⟨some ⟨some "a", some "out"⟩, some ⟨1, true, "out"⟩,
                .vundef⟩)] }, .opStep "pkg.t", false⟩], [("a", 1), ("t", 2)]⟩ : Workflow)
          (.step 1) "b").map (fun w' =>
            (w'.steps.map (fun s' => (s'.node.id, s'.node.inputs)), w'.stepsDict))
        = .ok ([("b", []),
                ("t", [("x", ⟨some ⟨some "b", some "out"⟩, some ⟨1, true, "out"⟩,
                  .vundef⟩)])], [("t", 2), ("b", 1)])) := by
  have h1 := set_id_rename_cascade c3W 1 c3A "b"
    (by decide) (by decide) (by decide) (by decide) (by decide) (by decide)
  have h2 := set_id_rename_cascade
    (⟨NodeData.new 0 "wf" ⟨"wf", [], [], [], true⟩,
      [c3A, ⟨{ NodeData.new 2 "t" c3MetaT with
        inputs := [("x", ⟨some ⟨some "a", some "out"⟩, some ⟨1, true, "out"⟩,
          .vundef⟩)] }, .opStep "pkg.t", false⟩], [("a", 1), ("t", 2)]⟩ : Workflow)
    1 c3A "b" (by decide) (by decide) (by decide) (by decide) (by decide) (by decide)
  refine ⟨h1.1, ?_, ?_⟩
  · have := h1.2.1 (by decide)
    exact this
  · rw [h2.2.2]
    decide

/-! ## Replacing a step with `add_step` (claim C5) -/

theorem remove_orphaned_source (p : Port) (tag : Nat) (ptr : PortPtr)
    (h : (p.remove_orphaned tag).source = some ptr) : ptr.tag ≠ tag := by
  unfold Port.remove_orphaned at h
  rcases hp : p.source with _ | ptr0 <;> rw [hp] at h <;> dsimp only at h
  · intro _
    exact absurd h (by simp [hp])
  · by_cases ht : ptr0.tag = tag
    · rw [if_pos ht] at h
      exact absurd h (by simp [Port.setValue])
    · rw [if_neg ht, hp] at h
      injection h with h
      rw [h] at ht
      exact ht

theorem remove_orphaned_sources_no_source (w : Workflow) (tag : Nat) :
    ∀ n ∈ (w.remove_orphaned_sources tag).allNodes, ∀ (isOut : Bool) nv,
      nv ∈ (if isOut then n.outputs else n.inputs) →
      ∀ ptr, (nv.2 : Port).source = some ptr → ptr.tag ≠ tag := by
  intro n hn isOut nv hnv ptr hsrc
  have hport : ∃ p0 : Port, nv.2 = p0.remove_orphaned tag := by
    simp only [Workflow.remove_orphaned_sources, Workflow.allNodes, List.mem_cons,
      List.mem_map] at hn
    rcases hn with hn | ⟨s', hs', hn⟩
    · rw [hn] at hnv
      simp only [NodeData.remove_orphaned_sources] at hnv
      cases isOut <;> simp only [List.mem_map, if_true, if_false, Bool.false_eq_true,
        eq_self_iff_true] at hnv <;>
        · obtain ⟨nv0, _, hnv0⟩ := hnv
          exact ⟨nv0.2, by rw [← hnv0]⟩
    · obtain ⟨s0, _, hmap⟩ := hs'
      rw [← hmap] at hn
      rw [← hn] at hnv
      simp only [NodeData.remove_orphaned_sources] at hnv
      cases isOut <;> simp only [List.mem_map, if_true, if_false, Bool.false_eq_true,
        eq_self_iff_true] at hnv <;>
        · obtain ⟨nv0, _, hnv0⟩ := hnv
          exact ⟨nv0.2, by rw [← hnv0]⟩
  obtain ⟨p0, hp0⟩ := hport
  rw [hp0] at hsrc
  exact remove_orphaned_source p0 tag ptr hsrc

/-- **C5** (amended).  When `add_step(new, can_exist=True)` replaces an
existing step (same id, a different object) and returns normally, no port
on the workflow or on any step of the result retains a resolved source
pointing at the replaced step object: all source references (resolved and
unresolved alike — both carry a `_source_ref`) are first re-resolved
against the tree that contains the replacement, so references naming the
replaced id re-bind to the like-named port on the new step rather than
becoming nil; any port whose source nevertheless still points at the
replaced object afterwards is reset by `remove_orphaned_sources` to the
literal value `None` — a *defined* literal, not an undefined port. -/
theorem add_step_replacement_cleanup (w : Workflow) (newStep : Step) (oldTag : Nat)
    (hold : dget w.stepsDict newStep.node.id = some oldTag)
    (hne : oldTag ≠ newStep.node.tag) :
    (∀ w', w.add_step newStep true = .ok w' →
      ∀ n ∈ w'.allNodes, ∀ (isOut : Bool) nv,
        nv ∈ (if isOut then n.outputs else n.inputs) →
        ∀ ptr, (nv.2 : Port).source = some ptr → ptr.tag ≠ oldTag)
    ∧ (∀ p : Port, ∀ ptr, p.source = some ptr → ptr.tag = oldTag →
        p.remove_orphaned oldTag = ⟨none, none, pynone⟩) := by
  constructor
  · intro w' hok
    unfold Workflow.add_step at hok
    rw [hold] at hok
    dsimp only at hok
    simp only [Bool.not_true, Bool.false_eq_true, if_false] at hok
    rw [if_pos hne] at hok
    rcases hu : Workflow.update_sources
        { w with steps := replaceFirstStep w.steps oldTag newStep,
                 stepsDict := dset w.stepsDict newStep.node.id newStep.node.tag }
      with e | w2 <;> rw [hu] at hok <;> dsimp only at hok
    · exact absurd hok (by simp)
    · injection hok with hok
      rw [← hok]
      exact remove_orphaned_sources_no_source w2 oldTag
  · intro p ptr hsrc htag
    unfold Port.remove_orphaned
    rw [hsrc]
    dsimp only
    rw [if_pos htag]
    rfl

def c5MetaS : OpMetaInfo := ⟨"pkg.s", [], [], [("out", [])], true⟩

def c5S : Step := ⟨NodeData.new 1 "s" c5MetaS, .opStep "pkg.s", false⟩

/-- The replacement step: same id `"s"`, a different object (tag 3). -/
def c5Snew : Step := ⟨NodeData.new 3 "s" c5MetaS, .opStep "pkg.s", false⟩

def c5MetaT : OpMetaInfo := ⟨"pkg.t", [], [("x", [])], [(RETURN_NAME, [])], true⟩

/-- Step `"t"` whose input `"x"` is *resolved* to old step `"s"`'s output. -/
def c5T : Step :=
  ⟨{ NodeData.new 2 "t" c5MetaT with
      inputs := [("x", ⟨some ⟨some "s", some "out"⟩, some ⟨1, true, "out"⟩, .vundef⟩)] },
    .opStep "pkg.t", false⟩

def c5W : Workflow :=
  ⟨NodeData.new 0 "wf" ⟨"wf", [], [], [], true⟩, [c5S, c5T], [("s", 1), ("t", 2)]⟩

/-- **C5 counterexample.** Replacing step `"s"` (tag 1) by a like-named step
(tag 3) while sibling `"t"`'s input is resolved to the old step's output:
after `add_step(new, can_exist=True)` the sibling port's source is *not*
nil — it is re-bound to the replacement step's like-named output (tag 3) —
and its value is still `UNDEFINED` rather than having "become nil";
this falsifies the claim's "every such port's source becomes nil and its
value undefined".  (The claim's invariant itself — no resolved source to
the replaced step remains — does hold: the new source has tag 3 ≠ 1.) -/
theorem add_step_replacement_counterexample :
    dget c5T.node.inputs "x"
      = some ⟨some ⟨some "s", some "out"⟩, some ⟨1, true, "out"⟩, .vundef⟩
    ∧ (Workflow.add_step c5W c5Snew true).map (fun w' =>
          w'.steps.map (fun s' => (s'.node.id, s'.node.inputs)))
        = .ok [("s", []),
               ("t", [("x", ⟨some ⟨some "s", some "out"⟩, some ⟨3, true, "out"⟩,
                 .vundef⟩)])] := by
  exact ⟨by decide, by decide⟩

/-- Witness for the amended C5 at the concrete replacement scenario: the
run succeeds and the amended theorem yields that no port of the result is
resolved to the replaced step (tag 1); the clearing lemma is exercised on a
port that does still point at tag 1. -/
theorem add_step_replacement_cleanup_witness :
    (∀ w', Workflow.add_step c5W c5Snew true = .ok w' →
      ∀ n ∈ w'.allNodes, ∀ (isOut : Bool) nv,
        nv ∈ (if isOut then n.outputs else n.inputs) →
        ∀ ptr, (nv.2 : Port).source = some ptr → ptr.tag ≠ 1)
    ∧ (Port.remove_orphaned ⟨some ⟨some "s", some "out"⟩, some ⟨1, true, "out"⟩, .vundef⟩ 1
        = ⟨none, none, pynone⟩)
    ∧ (∃ w', Workflow.add_step c5W c5Snew true = .ok w') := by
  have h := add_step_replacement_cleanup c5W c5Snew 1 (by decide) (by decide)
  refine ⟨h.1, ?_, ?_⟩
  · exact h.2 ⟨some ⟨some "s", some "out"⟩, some ⟨1, true, "out"⟩, .vundef⟩
      ⟨1, true, "out"⟩ rfl rfl
  · have hmap : (Workflow.add_step c5W c5Snew true).map (fun w' =>
        w'.steps.map (fun s' => (s'.node.id, s'.node.inputs)))
        = .ok [("s", []),
               ("t", [("x", ⟨some ⟨some "s", some "out"⟩, some ⟨3, true, "out"⟩,
                 .vundef⟩)])] := by decide
    rcases hres : Workflow.add_step c5W c5Snew true with e | w'
    · rw [hres] at hmap
      exact absurd hmap (by simp [Except.map])
    · exact ⟨w', rfl⟩

/-! ## Topological ordering of steps (claim C2) -/

/-- `Node.is_direct_source_for_port(other_port)` (lines 222-223).  The first
disjunct `other_port.source is self` compares a *port* with a *node* by
identity and is therefore always false; the effective test is the source
reference naming this node's id. -/
def NodeData.is_direct_source_for_port (n : NodeData) (p : Port) : Bool :=
  match p.sref with
  | some r => r.node_id = some n.id
  | none => false

/-- `Node.is_direct_source_of(other_node)` (lines 225-229). -/
def NodeData.is_direct_source_of (n target : NodeData) : Bool :=
  target.inputs.any (fun nv => n.is_direct_source_for_port nv.2)

/-- The candidate distance one loop iteration of `max_distance_to`
contributes for an input port: `distance + 1` when the port has a resolved
source whose node has positive distance (`distF`) to the target, else
nothing.  (`if d > 0 then max acc (d+1) else acc` is written as an optional
candidate merged with `max`.) -/
def distCand (nodes : List NodeData) (distF : NodeData → NodeData → Int)
    (other : NodeData) (nv : String × Port) : Option Int :=
  match (nv.2 : Port).source with
  | some ptr =>
    match findNodeByTag nodes ptr.tag with
    | some srcNode =>
      if distF srcNode other > 0 then some (distF srcNode other + 1) else none
    | none => none
  | none => none

/-- `Node.max_distance_to(other_node)` (lines 231-253): the longest chain of
resolved input sources from `self` to `other_node`; `0` for the node
itself, `-1` when unreachable.  `fuel` bounds the recursion depth (Python
recurses unboundedly; the workflow graph is acyclic). -/
def maxDistanceTo (nodes : List NodeData) : Nat → NodeData → NodeData → Int
  | 0, _, _ => -1
  | fuel + 1, selfN, other =>
    if selfN.tag = other.tag then 0
    else
      selfN.inputs.foldl (fun acc nv =>
        match distCand nodes (maxDistanceTo nodes fuel) other nv with
        | some v => max acc v
        | none => acc)
        (if other.is_direct_source_of selfN then 1 else -1)

/-- `Node.requires(other_node)` (lines 212-220). -/
def requiresB (nodes : List NodeData) (fuel : Nat) (a b : Step) : Bool :=
  maxDistanceTo nodes fuel a.node b.node > 0

/-- The candidate one iteration of `sort_steps`'s inner loop contributes
for the pair `(i2, steps[i2])`: the distance from step `i1`'s node when
`i2 ≠ i1` and the distance is positive, else nothing. -/
def keyCand (nodes : List NodeData) (fuel : Nat) (i : Nat) (s : Step)
    (js : Nat × Step) : Option Int :=
  if i = js.1 then none
  else if maxDistanceTo nodes fuel s.node js.2.node > 0
  then some (maxDistanceTo nodes fuel s.node js.2.node) else none

/-- The sort key `Workflow.sort_steps` computes for the step at index `i`:
the maximum positive distance to any *other* step of the list, `0` if
none. -/
def stepSortKey (nodes : List NodeData) (fuel : Nat) (steps : List Step) (i : Nat)
    (s : Step) : Int :=
  steps.enum.foldl (fun acc js =>
    match keyCand nodes fuel i s js with
    | some v => max acc v
    | none => acc) 0

/-- `Workflow.sort_steps(steps)` (lines 485-507): decorate each step with
its maximal distance to the other steps and sort by it ascending; `sorted`
is stable, modelled by insertion sort (the unique stable ascending sort). -/
def Workflow.sort_steps (nodes : List NodeData) (fuel : Nat) (steps : List Step) :
    List Step :=
  if steps.length < 2 then steps
  else
    (List.insertionSort (fun a b => a.1 ≤ b.1)
      (steps.enum.map (fun is => (stepSortKey nodes fuel steps is.1 is.2, is.2)))).map (·.2)

/-- `Workflow.sorted_steps` (lines 480-483); the fuel `allNodes.length`
suffices for every acyclic workflow. -/
def Workflow.sorted_steps (w : Workflow) : List Step :=
  Workflow.sort_steps w.allNodes w.allNodes.length w.steps

/-- Resolved sources carry matching references (the state `update_sources`
establishes): a resolved input port's reference names the source node's
current id and port, and conversely every referenced input port is
resolved. -/
def Consistent (nodes : List NodeData) : Prop :=
  ∀ n ∈ nodes, ∀ nv ∈ n.inputs,
    (∀ ptr, (nv.2 : Port).source = some ptr →
      ∃ m ∈ nodes, m.tag = ptr.tag ∧ (nv.2 : Port).sref = some ⟨some m.id, some ptr.name⟩)
    ∧ (∀ r, (nv.2 : Port).sref = some r → ∃ ptr, (nv.2 : Port).source = some ptr)

/-- Node object identity: distinct nodes have distinct tags. -/
def UniqueTags (nodes : List NodeData) : Prop :=
  ∀ m ∈ nodes, ∀ m' ∈ nodes, m.tag = m'.tag → m = m'

/-- Distinct nodes have distinct ids (the `_steps_dict` invariant). -/
def UniqueIds (nodes : List NodeData) : Prop :=
  ∀ m ∈ nodes, ∀ m' ∈ nodes, m.id = m'.id → m = m'

/-- Acyclicity, witnessed by a rank function strictly decreasing along
resolved input-source edges. -/
def RankedAcyclic (nodes : List NodeData) (rank : Nat → Nat) : Prop :=
  ∀ n ∈ nodes, ∀ nv ∈ n.inputs, ∀ ptr, (nv.2 : Port).source = some ptr →
    ∀ m ∈ nodes, m.tag = ptr.tag → rank m.tag < rank n.tag

/-! ### Generic lemmas about max-folds -/

theorem foldl_optmax_ge_init {α : Type} (g : α → Option Int) (l : List α) (init : Int) :
    init ≤ l.foldl (fun acc x => match g x with | some v => max acc v | none => acc) init := by
  induction l generalizing init with
  | nil => exact le_refl _
  | cons a rest ih =>
    rw [List.foldl_cons]
    refine le_trans ?_ (ih _)
    rcases g a with _ | v
    · exact le_refl _
    · exact le_max_left _ _

theorem foldl_optmax_ge_mem {α : Type} (g : α → Option Int) (l : List α) (init : Int)
    (x : α) (hx : x ∈ l) (v : Int) (hv : g x = some v) :
    v ≤ l.foldl (fun acc x => match g x with | some v => max acc v | none => acc) init := by
  induction l generalizing init with
  | nil => exact absurd hx (by simp)
  | cons a rest ih =>
    rw [List.foldl_cons]
    rcases List.mem_cons.mp hx with hx | hx
    · subst hx
      rw [hv]
      exact le_trans (le_max_right _ _) (foldl_optmax_ge_init g rest _)
    · exact ih _ hx

theorem foldl_optmax_cases {α : Type} (g : α → Option Int) (l : List α) (init : Int) :
    l.foldl (fun acc x => match g x with | some v => max acc v | none => acc) init = init
    ∨ ∃ x ∈ l, g x
        = some (l.foldl (fun acc x => match g x with | some v => max acc v | none => acc)
            init) := by
  induction l generalizing init with
  | nil => exact Or.inl rfl
  | cons a rest ih =>
    rw [List.foldl_cons]
    rcases hga : g a with _ | v
    · rcases ih init with h | ⟨x, hx, hgx⟩
      · exact Or.inl h
      · exact Or.inr ⟨x, by simp [hx], hgx⟩
    · rcases ih (max init v) with h | ⟨x, hx, hgx⟩
      · refine Or.elim (max_cases init v) (fun hm => ?_) (fun hm => ?_)
        · exact Or.inl (by exact h.trans hm.1)
        · refine Or.inr ⟨a, by simp, ?_⟩
          rw [hga]
          exact congrArg some (by exact (h.trans hm.1).symm)
      · exact Or.inr ⟨x, by simp [hx], hgx⟩

theorem maxDistanceTo_succ (nodes : List NodeData) (fuel : Nat) (selfN other : NodeData) :
    maxDistanceTo nodes (fuel + 1) selfN other =
      if selfN.tag = other.tag then 0
      else
        selfN.inputs.foldl (fun acc nv =>
          match distCand nodes (maxDistanceTo nodes fuel) other nv with
          | some v => max acc v
          | none => acc)
          (if other.is_direct_source_of selfN then 1 else -1) := by
  unfold maxDistanceTo
  rfl

/-! ### Structural facts about node lookup and distance -/

theorem findNodeByTag_mem {nodes : List NodeData} {t : Nat} {m : NodeData}
    (h : findNodeByTag nodes t = some m) : m ∈ nodes ∧ m.tag = t := by
  refine ⟨List.mem_of_find?_eq_some h, ?_⟩
  have := List.find?_some h
  exact of_decide_eq_true this

theorem findNodeByTag_of_mem {nodes : List NodeData} (hu : UniqueTags nodes)
    {m : NodeData} (hm : m ∈ nodes) : findNodeByTag nodes m.tag = some m := by
  rcases h : findNodeByTag nodes m.tag with _ | m'
  · have := List.find?_eq_none.mp h m hm
    exact absurd (by simp) this
  · rcases findNodeByTag_mem h with ⟨hmem, htag⟩
    exact congrArg some (hu m' hmem m hm htag)

theorem distCand_eq_some {nodes : List NodeData} {d : NodeData → NodeData → Int}
    {other : NodeData} {nv : String × Port} {v : Int}
    (h : distCand nodes d other nv = some v) :
    ∃ ptr src, (nv.2 : Port).source = some ptr
      ∧ findNodeByTag nodes ptr.tag = some src
      ∧ d src other > 0 ∧ v = d src other + 1 := by
  unfold distCand at h
  split at h
  · rename_i ptr heq
    split at h
    · rename_i src heq2
      split at h
      · exact ⟨ptr, src, heq, heq2, by assumption, (Option.some.inj h).symm⟩
      · exact absurd h (by simp)
    · exact absurd h (by simp)
  · exact absurd h (by simp)

theorem distCand_of_resolved {nodes : List NodeData} {d : NodeData → NodeData → Int}
    {other : NodeData} {nv : String × Port} {ptr : PortPtr} {src : NodeData}
    (hs : (nv.2 : Port).source = some ptr)
    (hf : findNodeByTag nodes ptr.tag = some src) (hd : d src other > 0) :
    distCand nodes d other nv = some (d src other + 1) := by
  unfold distCand
  rw [hs]
  dsimp only
  rw [hf]
  dsimp only
  rw [if_pos hd]

theorem distCand_congr {nodes : List NodeData} {d1 d2 : NodeData → NodeData → Int}
    {other : NodeData} {nv : String × Port}
    (h : ∀ ptr, (nv.2 : Port).source = some ptr →
      ∀ src, findNodeByTag nodes ptr.tag = some src → d1 src other = d2 src other) :
    distCand nodes d1 other nv = distCand nodes d2 other nv := by
  unfold distCand
  rcases hs : (nv.2 : Port).source with _ | ptr
  · rfl
  · dsimp only
    rcases hf : findNodeByTag nodes ptr.tag with _ | src
    · rfl
    · dsimp only
      rw [h ptr hs src hf]

theorem maxDistanceTo_self {nodes : List NodeData} {fuel : Nat} {n other : NodeData}
    (h : n.tag = other.tag) : maxDistanceTo nodes (fuel + 1) n other = 0 := by
  rw [maxDistanceTo_succ, if_pos h]

theorem maxDistanceTo_pos_ne {nodes : List NodeData} {fuel : Nat} {n other : NodeData}
    (h : maxDistanceTo nodes fuel n other > 0) : n.tag ≠ other.tag := by
  intro heq
  cases fuel with
  | zero => exact absurd h (by simp [maxDistanceTo])
  | succ f =>
    rw [maxDistanceTo_self heq] at h
    exact absurd h (by simp)

/-- Above the rank of the start node, the distance no longer depends on the
fuel: Python's unbounded recursion is totalised by any sufficient fuel. -/
theorem maxDistanceTo_stable_aux (nodes : List NodeData) (rank : Nat → Nat)
    (hacy : RankedAcyclic nodes rank) :
    ∀ k, ∀ n ∈ nodes, rank n.tag ≤ k → ∀ other f1 f2, k < f1 → k < f2 →
      maxDistanceTo nodes f1 n other = maxDistanceTo nodes f2 n other := by
  intro k
  induction k with
  | zero =>
    intro n hn hr other f1 f2 h1 h2
    obtain ⟨g1, rfl⟩ : ∃ g, f1 = g + 1 := ⟨f1 - 1, by omega⟩
    obtain ⟨g2, rfl⟩ : ∃ g, f2 = g + 1 := ⟨f2 - 1, by omega⟩
    rw [maxDistanceTo_succ, maxDistanceTo_succ]
    by_cases ht : n.tag = other.tag
    · rw [if_pos ht, if_pos ht]
    · rw [if_neg ht, if_neg ht]
      refine List.foldl_ext _ _ _ (fun acc nv hnv => ?_)
      have hc : distCand nodes (maxDistanceTo nodes g1) other nv
          = distCand nodes (maxDistanceTo nodes g2) other nv := by
        refine distCand_congr (fun ptr hptr src hsrc => ?_)
        rcases findNodeByTag_mem hsrc with ⟨hsm, hst⟩
        have := hacy n hn nv hnv ptr hptr src hsm hst
        omega
      rw [hc]
  | succ k ih =>
    intro n hn hr other f1 f2 h1 h2
    obtain ⟨g1, rfl⟩ : ∃ g, f1 = g + 1 := ⟨f1 - 1, by omega⟩
    obtain ⟨g2, rfl⟩ : ∃ g, f2 = g + 1 := ⟨f2 - 1, by omega⟩
    rw [maxDistanceTo_succ, maxDistanceTo_succ]
    by_cases ht : n.tag = other.tag
    · rw [if_pos ht, if_pos ht]
    · rw [if_neg ht, if_neg ht]
      refine List.foldl_ext _ _ _ (fun acc nv hnv => ?_)
      have hc : distCand nodes (maxDistanceTo nodes g1) other nv
          = distCand nodes (maxDistanceTo nodes g2) other nv := by
        refine distCand_congr (fun ptr hptr src hsrc => ?_)
        rcases findNodeByTag_mem hsrc with ⟨hsm, hst⟩
        have hlt := hacy n hn nv hnv ptr hptr src hsm hst
        exact ih src hsm (by omega) other g1 g2 (by omega) (by omega)
      rw [hc]

theorem maxDistanceTo_stable {nodes : List NodeData} {rank : Nat → Nat}
    (hacy : RankedAcyclic nodes rank) {n : NodeData} (hn : n ∈ nodes)
    {f1 f2 : Nat} (h1 : rank n.tag < f1) (h2 : rank n.tag < f2) (other : NodeData) :
    maxDistanceTo nodes f1 n other = maxDistanceTo nodes f2 n other :=
  maxDistanceTo_stable_aux nodes rank hacy (rank n.tag) n hn (le_refl _) other f1 f2 h1 h2

/-- Under consistency and unique ids, `other.is_direct_source_of(n)` means
some input port of `n` is resolved to a port of `other`. -/
theorem direct_source_edge {nodes : List NodeData} (hcons : Consistent nodes)
    (hids : UniqueIds nodes) {n other : NodeData} (hn : n ∈ nodes)
    (hother : other ∈ nodes) (h : other.is_direct_source_of n = true) :
    ∃ nv ∈ n.inputs, ∃ ptr, (nv.2 : Port).source = some ptr ∧ ptr.tag = other.tag := by
  unfold NodeData.is_direct_source_of at h
  rcases List.any_eq_true.mp h with ⟨nv, hnv, hp⟩
  unfold NodeData.is_direct_source_for_port at hp
  rcases hr : (nv.2 : Port).sref with _ | r
  · rw [hr] at hp
    exact absurd hp (by simp)
  · rw [hr] at hp
    dsimp only at hp
    have hpid : r.node_id = some other.id := of_decide_eq_true hp
    rcases (hcons n hn nv hnv).2 r hr with ⟨ptr, hptr⟩
    rcases (hcons n hn nv hnv).1 ptr hptr with ⟨m, hm, hmt, hsref⟩
    rw [hr] at hsref
    have hreq : r = ⟨some m.id, some ptr.name⟩ := Option.some.inj hsref
    have hid : m.id = other.id := by
      rw [hreq] at hpid
      exact Option.some.inj hpid
    have hmo : m = other := hids m hm other hother hid
    refine ⟨nv, hnv, ptr, hptr, ?_⟩
    rw [← hmo]
    exact hmt.symm

/-- A positive distance is either `1` from a direct edge or the successor
of a positive distance from a resolved input's source node. -/
theorem maxDistanceTo_pos_decomp {nodes : List NodeData} (hcons : Consistent nodes)
    (hids : UniqueIds nodes) {F : Nat} {n other : NodeData} (hn : n ∈ nodes)
    (ho : other ∈ nodes) (h : maxDistanceTo nodes (F + 1) n other > 0) :
    (maxDistanceTo nodes (F + 1) n other = 1
      ∧ ∃ nv ∈ n.inputs, ∃ ptr, (nv.2 : Port).source = some ptr ∧ ptr.tag = other.tag)
    ∨ (∃ nv ∈ n.inputs, ∃ ptr src, (nv.2 : Port).source = some ptr
        ∧ findNodeByTag nodes ptr.tag = some src
        ∧ maxDistanceTo nodes F src other > 0
        ∧ maxDistanceTo nodes (F + 1) n other = maxDistanceTo nodes F src other + 1) := by
  have hne : n.tag ≠ other.tag := maxDistanceTo_pos_ne h
  have hval : maxDistanceTo nodes (F + 1) n other
      = n.inputs.foldl (fun acc nv =>
          match distCand nodes (maxDistanceTo nodes F) other nv with
          | some v => max acc v
          | none => acc)
          (if other.is_direct_source_of n then 1 else -1) := by
    rw [maxDistanceTo_succ, if_neg hne]
  rcases foldl_optmax_cases (distCand nodes (maxDistanceTo nodes F) other) n.inputs
      (if other.is_direct_source_of n then 1 else -1) with hcase | ⟨nv, hnv, hg⟩
  · rw [hcase] at hval
    by_cases hd : other.is_direct_source_of n
    · rw [if_pos hd] at hval
      rcases direct_source_edge hcons hids hn ho hd with ⟨nv, hnv, ptr, hptr, htag⟩
      exact Or.inl ⟨hval, nv, hnv, ptr, hptr, htag⟩
    · rw [if_neg hd] at hval
      rw [hval] at h
      exact absurd h (by simp)
  · rw [← hval] at hg
    rcases distCand_eq_some hg with ⟨ptr, src, hs, hf, hpos, hv⟩
    exact Or.inr ⟨nv, hnv, ptr, src, hs, hf, hpos, hv⟩

/-- A positive distance strictly decreases the rank of the target below the
rank of the start: the dependency relation respects the acyclicity
witness. -/
theorem maxDistanceTo_pos_rank {nodes : List NodeData} {rank : Nat → Nat}
    (hcons : Consistent nodes) (hids : UniqueIds nodes)
    (hacy : RankedAcyclic nodes rank) :
    ∀ fuel, ∀ n ∈ nodes, ∀ other ∈ nodes,
      maxDistanceTo nodes fuel n other > 0 → rank other.tag < rank n.tag := by
  intro fuel
  induction fuel with
  | zero =>
    intro n hn other ho h
    exact absurd h (by simp [maxDistanceTo])
  | succ F ih =>
    intro n hn other ho h
    rcases maxDistanceTo_pos_decomp hcons hids hn ho h with
      ⟨_, nv, hnv, ptr, hptr, htag⟩ | ⟨nv, hnv, ptr, src, hptr, hfind, hpos, _⟩
    · exact hacy n hn nv hnv ptr hptr other ho htag.symm
    · rcases findNodeByTag_mem hfind with ⟨hsm, hst⟩
      have h1 := ih src hsm other ho hpos
      have h2 := hacy n hn nv hnv ptr hptr src hsm hst
      omega

/-- Distances compose: a positive distance through an intermediate node is
at least the sum of the two legs (with fuel exceeding every rank). -/
theorem maxDistanceTo_comp {nodes : List NodeData} {rank : Nat → Nat}
    (hcons : Consistent nodes) (hu : UniqueTags nodes) (hids : UniqueIds nodes)
    (hacy : RankedAcyclic nodes rank) {F : Nat} (hF : ∀ m ∈ nodes, rank m.tag < F) :
    ∀ k, ∀ n ∈ nodes, rank n.tag ≤ k → ∀ mid ∈ nodes, ∀ other ∈ nodes,
      maxDistanceTo nodes F n mid > 0 → maxDistanceTo nodes F mid other > 0 →
      maxDistanceTo nodes F n other
        ≥ maxDistanceTo nodes F n mid + maxDistanceTo nodes F mid other := by
  intro k
  induction k with
  | zero =>
    intro n hn hr mid hmid other hother hnm hmo
    have h1 := maxDistanceTo_pos_rank hcons hids hacy F n hn mid hmid hnm
    omega
  | succ k ih =>
    intro n hn hr mid hmid other hother hnm hmo
    have hrmid : rank mid.tag < rank n.tag :=
      maxDistanceTo_pos_rank hcons hids hacy F n hn mid hmid hnm
    have hroth : rank other.tag < rank mid.tag :=
      maxDistanceTo_pos_rank hcons hids hacy F mid hmid other hother hmo
    have hne_no : n.tag ≠ other.tag := by
      intro heq
      rw [heq] at hrmid
      omega
    have hFn := hF n hn
    obtain ⟨G, rfl⟩ : ∃ G, F = G + 1 := ⟨F - 1, by omega⟩
    have hGn : rank n.tag ≤ G := by omega
    rcases maxDistanceTo_pos_decomp hcons hids hn hmid hnm with
      ⟨hone, nv, hnv, ptr, hptr, htag⟩ | ⟨nv, hnv, ptr, src, hptr, hfind, hpos, heq⟩
    · -- direct edge to `mid`: the input port itself provides the candidate
      have hfind : findNodeByTag nodes ptr.tag = some mid := by
        rw [htag]
        exact findNodeByTag_of_mem hu hmid
      have hstab : maxDistanceTo nodes G mid other
          = maxDistanceTo nodes (G + 1) mid other :=
        maxDistanceTo_stable hacy hmid (by omega) (by omega) other
      have hdg : maxDistanceTo nodes G mid other > 0 := by omega
      have hcand := @distCand_of_resolved nodes (maxDistanceTo nodes G) other nv ptr mid
        hptr hfind hdg
      have hge := foldl_optmax_ge_mem (distCand nodes (maxDistanceTo nodes G) other)
        n.inputs (if other.is_direct_source_of n then 1 else -1) nv hnv _ hcand
      rw [maxDistanceTo_succ, if_neg hne_no]
      omega
    · rcases findNodeByTag_mem hfind with ⟨hsm, hst⟩
      have hrsrc : rank src.tag < rank n.tag := hacy n hn nv hnv ptr hptr src hsm hst
      have hstab1 : maxDistanceTo nodes G src mid
          = maxDistanceTo nodes (G + 1) src mid :=
        maxDistanceTo_stable hacy hsm (by omega) (by omega) mid
      have hih := ih src hsm (by omega) mid hmid other hother (by omega) hmo
      have hso_pos : maxDistanceTo nodes (G + 1) src other > 0 := by omega
      have hstab2 : maxDistanceTo nodes G src other
          = maxDistanceTo nodes (G + 1) src other :=
        maxDistanceTo_stable hacy hsm (by omega) (by omega) other
      have hcand := @distCand_of_resolved nodes (maxDistanceTo nodes G) other nv ptr src
        hptr hfind (by omega)
      have hge := foldl_optmax_ge_mem (distCand nodes (maxDistanceTo nodes G) other)
        n.inputs (if other.is_direct_source_of n then 1 else -1) nv hnv _ hcand
      rw [maxDistanceTo_succ, if_neg hne_no]
      omega

/-! ### The sort key of `sort_steps` -/

theorem enum_mem_snd {α : Type} {l : List α} {p : Nat × α} (h : p ∈ l.enum) : p.2 ∈ l := by
  have := List.mem_map_of_mem Prod.snd h
  rwa [List.enum_map_snd] at this

theorem enum_index_unique {α : Type} {l : List α} {i : Nat} {x y : α}
    (hx : (i, x) ∈ l.enum) (hy : (i, y) ∈ l.enum) : x = y := by
  have hx' := List.mk_mem_enum_iff_getElem?.mp hx
  have hy' := List.mk_mem_enum_iff_getElem?.mp hy
  rw [hx'] at hy'
  exact Option.some.inj hy'

theorem stepSortKey_nonneg (nodes : List NodeData) (fuel : Nat) (steps : List Step)
    (i : Nat) (s : Step) : 0 ≤ stepSortKey nodes fuel steps i s :=
  foldl_optmax_ge_init (keyCand nodes fuel i s) steps.enum 0

theorem stepSortKey_ge (nodes : List NodeData) (fuel : Nat) (steps : List Step)
    {i : Nat} {s : Step} {js : Nat × Step} (hjs : js ∈ steps.enum) (hne : i ≠ js.1)
    (hd : maxDistanceTo nodes fuel s.node js.2.node > 0) :
    maxDistanceTo nodes fuel s.node js.2.node ≤ stepSortKey nodes fuel steps i s := by
  have hc : keyCand nodes fuel i s js
      = some (maxDistanceTo nodes fuel s.node js.2.node) := by
    unfold keyCand
    rw [if_neg hne, if_pos hd]
  exact foldl_optmax_ge_mem (keyCand nodes fuel i s) steps.enum 0 js hjs _ hc

theorem stepSortKey_cases (nodes : List NodeData) (fuel : Nat) (steps : List Step)
    (i : Nat) (s : Step) :
    stepSortKey nodes fuel steps i s = 0
    ∨ ∃ js ∈ steps.enum, i ≠ js.1
        ∧ stepSortKey nodes fuel steps i s = maxDistanceTo nodes fuel s.node js.2.node
        ∧ stepSortKey nodes fuel steps i s > 0 := by
  rcases foldl_optmax_cases (keyCand nodes fuel i s) steps.enum 0 with h | ⟨js, hjs, hg⟩
  · exact Or.inl h
  · have hg' : keyCand nodes fuel i s js = some (stepSortKey nodes fuel steps i s) := hg
    unfold keyCand at hg'
    by_cases hne : i = js.1
    · rw [if_pos hne] at hg'
      exact absurd hg' (by simp)
    · rw [if_neg hne] at hg'
      by_cases hd : maxDistanceTo nodes fuel s.node js.2.node > 0
      · rw [if_pos hd] at hg'
        have hval := Option.some.inj hg'
        refine Or.inr ⟨js, hjs, hne, hval.symm, ?_⟩
        rw [← hval]
        exact hd
      · rw [if_neg hd] at hg'
        exact absurd hg' (by simp)

/-- The crux of `sort_steps`'s correctness: when step `a` requires step `b`,
`a`'s sort key strictly exceeds `b`'s. -/
theorem stepSortKey_lt {nodes : List NodeData} {rank : Nat → Nat}
    (hcons : Consistent nodes) (hu : UniqueTags nodes) (hids : UniqueIds nodes)
    (hacy : RankedAcyclic nodes rank) {F : Nat} (hF : ∀ m ∈ nodes, rank m.tag < F)
    {steps : List Step} (hsn : ∀ s ∈ steps, s.node ∈ nodes)
    {ia ib : Nat} {a b : Step} (ha : (ia, a) ∈ steps.enum) (hb : (ib, b) ∈ steps.enum)
    (hreq : maxDistanceTo nodes F a.node b.node > 0) :
    stepSortKey nodes F steps ib b < stepSortKey nodes F steps ia a := by
  have han : a.node ∈ nodes := hsn a (enum_mem_snd ha)
  have hbn : b.node ∈ nodes := hsn b (enum_mem_snd hb)
  have hne_tag : a.node.tag ≠ b.node.tag := maxDistanceTo_pos_ne hreq
  have hia_ib : ia ≠ ib := by
    intro h
    subst h
    exact hne_tag (by rw [enum_index_unique ha hb])
  rcases stepSortKey_cases nodes F steps ib b with hzero | ⟨js, hjs, hjne, hkey, hpos⟩
  · have hge : maxDistanceTo nodes F a.node b.node ≤ stepSortKey nodes F steps ia a :=
      stepSortKey_ge nodes F steps hb hia_ib hreq
    rw [hzero]
    omega
  · have hcn : js.2.node ∈ nodes := hsn js.2 (enum_mem_snd hjs)
    have hr1 : rank b.node.tag < rank a.node.tag :=
      maxDistanceTo_pos_rank hcons hids hacy F a.node han b.node hbn hreq
    have hd_bc : maxDistanceTo nodes F b.node js.2.node > 0 := by
      rw [← hkey]
      exact hpos
    have hr2 : rank js.2.node.tag < rank b.node.tag :=
      maxDistanceTo_pos_rank hcons hids hacy F b.node hbn js.2.node hcn hd_bc
    have hcomp := maxDistanceTo_comp hcons hu hids hacy hF (rank a.node.tag)
      a.node han (le_refl _) b.node hbn js.2.node hcn hreq hd_bc
    have hac : a.node.tag ≠ js.2.node.tag := by
      intro h
      have := congrArg rank h
      omega
    have hjc_ia : ia ≠ js.1 := by
      intro h
      have ha' : (js.1, a) ∈ steps.enum := by
        rw [← h]
        exact ha
      have hjs' : (js.1, js.2) ∈ steps.enum := by
        rw [Prod.mk.eta]
        exact hjs
      have hc2 : a = js.2 := enum_index_unique ha' hjs'
      exact hac (by rw [hc2])
    have hda_c : maxDistanceTo nodes F a.node js.2.node > 0 := by omega
    have hge := stepSortKey_ge nodes F steps hjs hjc_ia hda_c
    omega

/-! ### Stable sorting by the first component -/

instance {α : Type} : IsTotal (Int × α) (fun x y => x.1 ≤ y.1) :=
  ⟨fun x y => le_total x.1 y.1⟩

instance {α : Type} : IsTrans (Int × α) (fun x y => x.1 ≤ y.1) :=
  ⟨fun _ _ _ hxy hyz => le_trans hxy hyz⟩

theorem pair_get_sublist {α : Type} :
    ∀ (l : List α) (i j : Nat) (hij : i < j) (hj : j < l.length),
      List.Sublist [l.get ⟨i, Nat.lt_trans hij hj⟩, l.get ⟨j, hj⟩] l := by
  intro l
  induction l with
  | nil =>
    intro i j hij hj
    exact absurd hj (by simp)
  | cons a rest ih =>
    intro i j hij hj
    cases i with
    | zero =>
      cases j with
      | zero => exact absurd hij (by simp)
      | succ j2 =>
        have hj2 : j2 < rest.length := by simpa using hj
        simp only [List.get_eq_getElem, List.getElem_cons_zero, List.getElem_cons_succ]
        refine List.Sublist.cons₂ a (List.singleton_sublist.mpr ?_)
        exact List.get_mem rest j2 hj2
    | succ i2 =>
      cases j with
      | zero => exact absurd hij (by simp)
      | succ j2 =>
        have hj2 : j2 < rest.length := by simpa using hj
        simp only [List.get_eq_getElem, List.getElem_cons_succ]
        have h2 := ih i2 j2 (by omega) hj2
        simp only [List.get_eq_getElem] at h2
        exact List.Sublist.cons a h2

theorem indexOf_lt_of_pair_sublist {α : Type} [DecidableEq α] :
    ∀ {l : List α} {x y : α}, List.Sublist [x, y] l → l.Nodup →
      l.indexOf x < l.indexOf y := by
  intro l
  induction l with
  | nil =>
    intro x y h _
    exact absurd h (by simp)
  | cons a rest ih =>
    intro x y h hnd
    rcases List.nodup_cons.mp hnd with ⟨hna, hndr⟩
    cases h with
    | cons _ h2 =>
      have hx : x ∈ rest := h2.subset (by simp)
      have hy : y ∈ rest := h2.subset (by simp)
      have hxa : x ≠ a := fun he => hna (he ▸ hx)
      have hya : y ≠ a := fun he => hna (he ▸ hy)
      rw [List.indexOf_cons_ne _ hxa.symm, List.indexOf_cons_ne _ hya.symm]
      have := ih h2 hndr
      omega
    | cons₂ _ h2 =>
      have hy : y ∈ rest := List.singleton_sublist.mp h2
      have hya : y ≠ a := fun he => hna (he ▸ hy)
      rw [List.indexOf_cons_self, List.indexOf_cons_ne _ hya.symm]
      omega

/-- In a list sorted ascending by first component and projected to second
components, an element all of whose keyed occurrences have strictly larger
keys than all keyed occurrences of another element comes strictly after
it. -/
theorem sorted_map_indexOf_lt {α : Type} [DecidableEq α] (K : List (Int × α)) {a b : α}
    (ha : a ∈ K.map (fun p => p.2)) (hb : b ∈ K.map (fun p => p.2))
    (hkey : ∀ p ∈ K, ∀ q ∈ K, p.2 = a → q.2 = b → q.1 < p.1) :
    ((List.insertionSort (fun x y : Int × α => x.1 ≤ y.1) K).map (fun p => p.2)).indexOf b
      < ((List.insertionSort (fun x y : Int × α => x.1 ≤ y.1) K).map
          (fun p => p.2)).indexOf a := by
  obtain ⟨S, hS, hsort, hperm⟩ :
      ∃ S, List.insertionSort (fun x y : Int × α => x.1 ≤ y.1) K = S
        ∧ S.Sorted (fun x y : Int × α => x.1 ≤ y.1) ∧ S.Perm K :=
    ⟨_, rfl, List.sorted_insertionSort _ _, List.perm_insertionSort _ _⟩
  rw [hS]
  have hpermm : (S.map (fun p : Int × α => p.2)).Perm (K.map (fun p : Int × α => p.2)) :=
    hperm.map _
  have hain : a ∈ S.map (fun p : Int × α => p.2) := hpermm.mem_iff.mpr ha
  have hbin : b ∈ S.map (fun p : Int × α => p.2) := hpermm.mem_iff.mpr hb
  have hpa := List.indexOf_lt_length.mpr hain
  have hpb := List.indexOf_lt_length.mpr hbin
  have hgeta := List.getElem_indexOf hpa
  have hgetb := List.getElem_indexOf hpb
  have hlenm : (S.map (fun p : Int × α => p.2)).length = S.length := List.length_map _ _
  have hpaS : (S.map (fun p : Int × α => p.2)).indexOf a < S.length := by omega
  have hpbS : (S.map (fun p : Int × α => p.2)).indexOf b < S.length := by omega
  have hSa : (S.get ⟨(S.map (fun p : Int × α => p.2)).indexOf a, hpaS⟩).2 = a := by
    have h2 : (S.map (fun p : Int × α => p.2))[(S.map (fun p : Int × α => p.2)).indexOf a]
        = (S.get ⟨(S.map (fun p : Int × α => p.2)).indexOf a, hpaS⟩).2 := by
      rw [List.get_eq_getElem, List.getElem_map]
    rw [← h2]
    exact hgeta
  have hSb : (S.get ⟨(S.map (fun p : Int × α => p.2)).indexOf b, hpbS⟩).2 = b := by
    have h2 : (S.map (fun p : Int × α => p.2))[(S.map (fun p : Int × α => p.2)).indexOf b]
        = (S.get ⟨(S.map (fun p : Int × α => p.2)).indexOf b, hpbS⟩).2 := by
      rw [List.get_eq_getElem, List.getElem_map]
    rw [← h2]
    exact hgetb
  have hkeylt : (S.get ⟨(S.map (fun p : Int × α => p.2)).indexOf b, hpbS⟩).1
      < (S.get ⟨(S.map (fun p : Int × α => p.2)).indexOf a, hpaS⟩).1 := by
    refine hkey _ ?_ _ ?_ hSa hSb
    · exact hperm.subset (List.get_mem S _ hpaS)
    · exact hperm.subset (List.get_mem S _ hpbS)
  rcases Nat.lt_trichotomy ((S.map (fun p : Int × α => p.2)).indexOf a)
      ((S.map (fun p : Int × α => p.2)).indexOf b) with hlt | heq | hgt
  · have hrel := hsort.rel_get_of_lt
      (show (⟨(S.map (fun p : Int × α => p.2)).indexOf a, hpaS⟩ : Fin S.length)
          < ⟨(S.map (fun p : Int × α => p.2)).indexOf b, hpbS⟩ from Fin.mk_lt_mk.mpr hlt)
    omega
  · exfalso
    have hfin : (⟨(S.map (fun p : Int × α => p.2)).indexOf a, hpaS⟩ : Fin S.length)
        = ⟨(S.map (fun p : Int × α => p.2)).indexOf b, hpbS⟩ := Fin.mk_eq_mk.mpr heq
    rw [hfin] at hkeylt
    omega
  · exact hgt

/-- Stability: two keyed entries in order of equal-or-ascending keys keep
their relative order through the sort, provided the projected list has no
duplicates. -/
theorem sorted_map_stable {α : Type} [DecidableEq α] (K : List (Int × α)) {i j : Nat}
    (hi : i < K.length) (hj : j < K.length) (hij : i < j)
    (hkey : (K.get ⟨i, hi⟩).1 ≤ (K.get ⟨j, hj⟩).1)
    (hnd : (K.map (fun p => p.2)).Nodup) :
    ((List.insertionSort (fun x y : Int × α => x.1 ≤ y.1) K).map (fun p => p.2)).indexOf
        (K.get ⟨i, hi⟩).2
      < ((List.insertionSort (fun x y : Int × α => x.1 ≤ y.1) K).map (fun p => p.2)).indexOf
          (K.get ⟨j, hj⟩).2 := by
  have hsub := pair_get_sublist K i j hij hj
  have hpair : List.Sublist [K.get ⟨i, hi⟩, K.get ⟨j, hj⟩]
      (List.insertionSort (fun x y : Int × α => x.1 ≤ y.1) K) :=
    List.pair_sublist_insertionSort hkey hsub
  have hmap := hpair.map (fun p : Int × α => p.2)
  simp only [List.map_cons, List.map_nil] at hmap
  have hndr : ((List.insertionSort (fun x y : Int × α => x.1 ≤ y.1) K).map
      (fun p : Int × α => p.2)).Nodup :=
    (((List.perm_insertionSort _ _).map _).nodup_iff).mpr hnd
  exact indexOf_lt_of_pair_sublist hmap hndr

/-! ### `sort_steps` assembled -/

/-- The decorated list `dist_and_step_list` that `sort_steps` builds. -/
def sortKeyed (nodes : List NodeData) (F : Nat) (steps : List Step) :
    List (Int × Step) :=
  steps.enum.map (fun is => (stepSortKey nodes F steps is.1 is.2, is.2))

theorem sort_steps_eq (nodes : List NodeData) (F : Nat) (steps : List Step)
    (h : ¬ steps.length < 2) :
    Workflow.sort_steps nodes F steps
      = (List.insertionSort (fun x y : Int × Step => x.1 ≤ y.1)
          (sortKeyed nodes F steps)).map (fun p => p.2) := by
  unfold Workflow.sort_steps sortKeyed
  rw [if_neg h]

theorem sortKeyed_length (nodes : List NodeData) (F : Nat) (steps : List Step) :
    (sortKeyed nodes F steps).length = steps.length := by
  unfold sortKeyed
  rw [List.length_map, List.enum_length]

theorem sortKeyed_map_snd (nodes : List NodeData) (F : Nat) (steps : List Step) :
    (sortKeyed nodes F steps).map (fun p : Int × Step => p.2) = steps := by
  unfold sortKeyed
  rw [List.map_map]
  have hcomp : ((fun p : Int × Step => p.2) ∘ (fun is : Nat × Step =>
      (stepSortKey nodes F steps is.1 is.2, is.2))) = Prod.snd := by
    funext is
    rfl
  rw [hcomp, List.enum_map_snd]

theorem sortKeyed_mem {nodes : List NodeData} {F : Nat} {steps : List Step}
    {p : Int × Step} (hp : p ∈ sortKeyed nodes F steps) :
    ∃ i, (i, p.2) ∈ steps.enum ∧ p.1 = stepSortKey nodes F steps i p.2 := by
  rcases List.mem_map.mp hp with ⟨is, his, heq⟩
  refine ⟨is.1, ?_, ?_⟩
  · rw [← heq]
    dsimp only
    rw [Prod.mk.eta]
    exact his
  · rw [← heq]

theorem sortKeyed_get (nodes : List NodeData) (F : Nat) (steps : List Step)
    {i : Nat} (hi : i < steps.length) (hiK : i < (sortKeyed nodes F steps).length) :
    (sortKeyed nodes F steps).get ⟨i, hiK⟩
      = (stepSortKey nodes F steps i (steps.get ⟨i, hi⟩), steps.get ⟨i, hi⟩) := by
  unfold sortKeyed
  simp only [List.get_eq_getElem, List.getElem_map, List.getElem_enum]

theorem eq_of_len_lt_two {α : Type} {l : List α} (h : l.length < 2) {a b : α}
    (ha : a ∈ l) (hb : b ∈ l) : a = b := by
  cases l with
  | nil => exact absurd ha (by simp)
  | cons x rest =>
    cases rest with
    | nil =>
      rw [List.mem_singleton.mp ha, List.mem_singleton.mp hb]
    | cons y r2 =>
      rw [List.length_cons, List.length_cons] at h
      omega

theorem sort_steps_perm (nodes : List NodeData) (F : Nat) (steps : List Step) :
    (Workflow.sort_steps nodes F steps).Perm steps := by
  by_cases h : steps.length < 2
  · unfold Workflow.sort_steps
    rw [if_pos h]
  · rw [sort_steps_eq nodes F steps h]
    refine ((List.perm_insertionSort _ _).map _).trans ?_
    rw [sortKeyed_map_snd]

theorem sort_steps_topo {nodes : List NodeData} {rank : Nat → Nat}
    (hcons : Consistent nodes) (hu : UniqueTags nodes) (hids : UniqueIds nodes)
    (hacy : RankedAcyclic nodes rank) {F : Nat} (hF : ∀ m ∈ nodes, rank m.tag < F)
    {steps : List Step} (hsn : ∀ s ∈ steps, s.node ∈ nodes)
    {a b : Step} (ha : a ∈ steps) (hb : b ∈ steps)
    (hreq : maxDistanceTo nodes F a.node b.node > 0) :
    (Workflow.sort_steps nodes F steps).indexOf b
      < (Workflow.sort_steps nodes F steps).indexOf a := by
  have hne_tag : a.node.tag ≠ b.node.tag := maxDistanceTo_pos_ne hreq
  have hab : a ≠ b := fun h => hne_tag (by rw [h])
  by_cases hlen : steps.length < 2
  · exact absurd (eq_of_len_lt_two hlen ha hb) hab
  · rw [sort_steps_eq nodes F steps hlen]
    refine sorted_map_indexOf_lt (sortKeyed nodes F steps) ?_ ?_ ?_
    · rw [sortKeyed_map_snd]
      exact ha
    · rw [sortKeyed_map_snd]
      exact hb
    · intro p hp q hq hpa hqb
      rcases sortKeyed_mem hp with ⟨ip, hipmem, hipkey⟩
      rcases sortKeyed_mem hq with ⟨iq, hiqmem, hiqkey⟩
      rw [hpa] at hipmem hipkey
      rw [hqb] at hiqmem hiqkey
      rw [hipkey, hiqkey]
      exact stepSortKey_lt hcons hu hids hacy hF hsn hipmem hiqmem hreq

theorem sort_steps_stable (nodes : List NodeData) (F : Nat) (steps : List Step)
    (hnd : steps.Nodup) {i j : Nat} (hi : i < steps.length) (hj : j < steps.length)
    (hij : i < j)
    (hkey : stepSortKey nodes F steps i (steps.get ⟨i, hi⟩)
      = stepSortKey nodes F steps j (steps.get ⟨j, hj⟩)) :
    (Workflow.sort_steps nodes F steps).indexOf (steps.get ⟨i, hi⟩)
      < (Workflow.sort_steps nodes F steps).indexOf (steps.get ⟨j, hj⟩) := by
  by_cases hlen : steps.length < 2
  · exact absurd hij (by omega)
  · rw [sort_steps_eq nodes F steps hlen]
    have hiK : i < (sortKeyed nodes F steps).length := by
      rw [sortKeyed_length]
      exact lt_trans hij hj
    have hjK : j < (sortKeyed nodes F steps).length := by
      rw [sortKeyed_length]
      exact hj
    have hkle : ((sortKeyed nodes F steps).get ⟨i, hiK⟩).1
        ≤ ((sortKeyed nodes F steps).get ⟨j, hjK⟩).1 := by
      rw [sortKeyed_get nodes F steps hi hiK, sortKeyed_get nodes F steps hj hjK]
      exact le_of_eq hkey
    have hndm : ((sortKeyed nodes F steps).map (fun p : Int × Step => p.2)).Nodup := by
      rw [sortKeyed_map_snd]
      exact hnd
    have h1 := sorted_map_stable (sortKeyed nodes F steps) hiK hjK hij hkle hndm
    rw [sortKeyed_get nodes F steps hi hiK, sortKeyed_get nodes F steps hj hjK] at h1
    exact h1

/-- **C2.** For every workflow whose port wiring is consistent, whose nodes
have distinct identities and ids, and whose dependency graph is acyclic
(witnessed by a rank function bounded by the node count), `sorted_steps`
returns a permutation of the steps that is a topological order of the
dependency graph — whenever `a.requires(b)` holds, `b` precedes `a` — and
steps with equal maximal dependency distances keep their insertion
order. -/
theorem sorted_steps_topological_order (w : Workflow) (rank : Nat → Nat)
    (hcons : Consistent w.allNodes) (hu : UniqueTags w.allNodes)
    (hids : UniqueIds w.allNodes) (hacy : RankedAcyclic w.allNodes rank)
    (hbound : ∀ m ∈ w.allNodes, rank m.tag < w.allNodes.length)
    (htags : (w.steps.map (fun s => s.node.tag)).Nodup) :
    w.sorted_steps.Perm w.steps
    ∧ (∀ a ∈ w.steps, ∀ b ∈ w.steps,
        requiresB w.allNodes w.allNodes.length a b = true →
        w.sorted_steps.indexOf b < w.sorted_steps.indexOf a)
    ∧ (∀ i j : Nat, ∀ hi : i < w.steps.length, ∀ hj : j < w.steps.length, i < j →
        stepSortKey w.allNodes w.allNodes.length w.steps i (w.steps.get ⟨i, hi⟩)
          = stepSortKey w.allNodes w.allNodes.length w.steps j (w.steps.get ⟨j, hj⟩) →
        w.sorted_steps.indexOf (w.steps.get ⟨i, hi⟩)
          < w.sorted_steps.indexOf (w.steps.get ⟨j, hj⟩)) := by
  have hsn : ∀ s ∈ w.steps, s.node ∈ w.allNodes := fun s hs =>
    List.mem_cons_of_mem _ (List.mem_map_of_mem _ hs)
  refine ⟨sort_steps_perm _ _ _, ?_, ?_⟩
  · intro a ha b hb hreq
    unfold requiresB at hreq
    exact sort_steps_topo hcons hu hids hacy hbound hsn ha hb (of_decide_eq_true hreq)
  · intro i j hi hj hij hkey
    exact sort_steps_stable w.allNodes w.allNodes.length w.steps
      (List.Nodup.of_map _ htags) hi hj hij hkey

/-! ### Executable checkers for the C2 side conditions -/

/-- Boolean check of `Consistent` (the predicate quantifies over all
pointer values and is not directly decidable). -/
def consistentB (nodes : List NodeData) : Bool :=
  nodes.all (fun n => n.inputs.all (fun nv =>
    (match (nv.2 : Port).source with
     | some ptr => nodes.any (fun m =>
         m.tag = ptr.tag ∧ (nv.2 : Port).sref = some ⟨some m.id, some ptr.name⟩)
     | none => true)
    && (match (nv.2 : Port).sref with
        | some _ => (nv.2 : Port).source.isSome
        | none => true)))

theorem consistent_of_b {nodes : List NodeData} (h : consistentB nodes = true) :
    Consistent nodes := by
  intro n hn nv hnv
  have h1 := List.all_eq_true.mp h n hn
  have h2 := List.all_eq_true.mp h1 nv hnv
  rcases (Bool.and_eq_true _ _).mp h2 with ⟨ha, hb⟩
  constructor
  · intro ptr hptr
    rw [hptr] at ha
    dsimp only at ha
    rcases List.any_eq_true.mp ha with ⟨m, hm, hmp⟩
    rcases of_decide_eq_true hmp with ⟨htag, hsref⟩
    exact ⟨m, hm, htag, hsref⟩
  · intro r hr
    rw [hr] at hb
    dsimp only at hb
    exact Option.isSome_iff_exists.mp hb

/-- Boolean check of `RankedAcyclic`. -/
def rankedAcyclicB (nodes : List NodeData) (rank : Nat → Nat) : Bool :=
  nodes.all (fun n => n.inputs.all (fun nv =>
    match (nv.2 : Port).source with
    | some ptr => nodes.all (fun m => !(m.tag = ptr.tag) || rank m.tag < rank n.tag)
    | none => true))

theorem rankedAcyclic_of_b {nodes : List NodeData} {rank : Nat → Nat}
    (h : rankedAcyclicB nodes rank = true) : RankedAcyclic nodes rank := by
  intro n hn nv hnv ptr hptr m hm htag
  have h1 := List.all_eq_true.mp h n hn
  have h2 := List.all_eq_true.mp h1 nv hnv
  rw [hptr] at h2
  dsimp only at h2
  have h3 := List.all_eq_true.mp h2 m hm
  rw [decide_eq_true htag] at h3
  simp only [Bool.not_true, Bool.false_or] at h3
  exact of_decide_eq_true h3

/-! ### A concrete two-step workflow exercising C2 -/

def c2MetaA : OpMetaInfo := ⟨"pkg.a2", [], [], [("out", [])], true⟩

def c2A : Step := ⟨NodeData.new 1 "a2" c2MetaA, .opStep "pkg.a2", false⟩

def c2MetaB : OpMetaInfo := ⟨"pkg.b2", [], [("x", [])], [("out", [])], true⟩

/-- Step `"b2"` whose input `"x"` is resolved to `"a2"`'s output, so `"b2"`
requires `"a2"`; the steps are stored in the order `[b2, a2]`. -/
def c2B : Step :=
  ⟨{ NodeData.new 2 "b2" c2MetaB with
      inputs := [("x", ⟨some ⟨some "a2", some "out"⟩, some ⟨1, true, "out"⟩, .vundef⟩)] },
    .opStep "pkg.b2", false⟩

def c2W : Workflow :=
  ⟨NodeData.new 0 "wf2" ⟨"wf2", [], [], [], true⟩, [c2B, c2A], [("b2", 2), ("a2", 1)]⟩

/-- Witness for C2: on the concrete workflow storing `[b2, a2]` with `b2`
requiring `a2`, `sorted_steps` is the permutation `[a2, b2]` and places
`a2` strictly before `b2`. -/
theorem sorted_steps_topological_order_witness :
    c2W.sorted_steps = [c2A, c2B]
    ∧ c2W.sorted_steps.Perm c2W.steps
    ∧ c2W.sorted_steps.indexOf c2A < c2W.sorted_steps.indexOf c2B := by
  have h := sorted_steps_topological_order c2W (fun t => t)
    (consistent_of_b (by decide))
    (by unfold UniqueTags; decide)
    (by unfold UniqueIds; decide)
    (rankedAcyclic_of_b (by decide))
    (by decide) (by decide)
  refine ⟨by decide, h.1, ?_⟩
  exact h.2.1 c2B (by decide) c2A (by decide) (by decide)

/-! ## Port JSON (de)serialization (claims C9, C1)

A serialized port is either a plain string (a source reference) or a JSON
object, modelled as a property dictionary that may carry `"source"`,
`"value"` and metadata keys. -/

inductive PortJson where
  | src (s : String)
  | obj (d : Props)
deriving DecidableEq, Repr

/-- `s.rsplit('.', maxsplit=1)`: split at the *last* dot, if any. -/
def rsplitDot (s : String) : List String :=
  if s.toList.contains '.' then
    let rev := s.toList.reverse
    let suf := rev.takeWhile (fun c => c ≠ '.')
    let pre := rev.drop (suf.length + 1)
    [String.mk pre.reverse, String.mk suf.reverse]
  else [s]

/-- Parsing a source-reference string (lines 1430-1441). -/
def parseSourceString (s : String) : Except WfError SRef :=
  match rsplitDot s with
  | [a] => if a ≠ "" then .ok ⟨some a, none⟩ else .error .badSourceFormat
  | [a, b] =>
    if b = "" then .error .badSourceFormat
    else .ok ⟨if a = "" then none else some a, some b⟩
  | _ => .error .badSourceFormat

/-- `NodePort.from_json(port_json)` (lines 1404-1441): reset the port, then
populate an unresolved source reference or a literal value; `source` and
`value` together are rejected.  (`_from_json_value` applies `data_type`
conversions, which this model does not represent: values are stored as
given, the behaviour for ports without a declared `data_type`.) -/
def Port.from_json (_p : Port) (pj : Option PortJson) : Except WfError Port :=
  match pj with
  | none => .ok Port.fresh
  | some pj =>
    match pj with
    | .src s => (parseSourceString s).map (fun r => ⟨some r, none, .vundef⟩)
    | .obj d =>
      match dget d "source", dget d "value" with
      | some _, some _ => .error .sourceAndValue
      | some sv, none =>
        (match sv with
         | .prim (.vstr s) => (parseSourceString s).map (fun r => ⟨some r, none, .vundef⟩)
         | _ => .error .badSourceFormat)
      | none, some v => .ok (Port.fresh.setValue v)
      | none, none => .ok Port.fresh

/-- One iteration of the `inputs`/`outputs` loops of `Step.from_json_dict`
(lines 807-825): an entry whose name has no port yet gets a meta-info entry
(kept if already declared, else empty) and a fresh appended port; the port
is then populated from the entry's port JSON. -/
def populateOne (metaNs : List (String × Props)) (ports : List (String × Port))
    (nm : String) (pj : PortJson) :
    Except WfError (List (String × Props) × List (String × Port)) :=
  match dget ports nm with
  | some p => (p.from_json (some pj)).map (fun p' => (metaNs, dset ports nm p'))
  | none =>
    let metaNs' := dset metaNs nm ((dget metaNs nm).getD [])
    (Port.fresh.from_json (some pj)).map (fun p' => (metaNs', ports ++ [(nm, p')]))

/-- The full `inputs` (resp. `outputs`) loop of `Step.from_json_dict`. -/
def populatePorts (metaNs : List (String × Props)) (ports : List (String × Port))
    (entries : List (String × PortJson)) :
    Except WfError (List (String × Props) × List (String × Port)) :=
  entries.foldlM (fun acc nv => populateOne acc.1 acc.2 nv.1 nv.2) (metaNs, ports)

/-- **C9.** Deserializing a step via `Step.from_json_dict` with an entry in
its `inputs` or `outputs` JSON map whose name is not declared in the step's
operation meta-info does not fail on account of the unknown name: a (new,
empty, unless already declared meta-only) meta-info entry and a new port of
that name are created on the step, and the port is then populated from the
given port JSON exactly as `NodePort.from_json` prescribes (an error arises
only if the port JSON itself is malformed, in which case it is
`from_json`'s error). -/
theorem step_from_json_unknown_port (metaNs : List (String × Props))
    (ports : List (String × Port)) (nm : String) (pj : PortJson)
    (hnew : dget ports nm = none) :
    (∀ p', Port.fresh.from_json (some pj) = .ok p' →
      populateOne metaNs ports nm pj
        = .ok (dset metaNs nm ((dget metaNs nm).getD []), ports ++ [(nm, p')])
      ∧ populatePorts metaNs ports [(nm, pj)]
        = .ok (dset metaNs nm ((dget metaNs nm).getD []), ports ++ [(nm, p')])
      ∧ dget (dset metaNs nm ((dget metaNs nm).getD [])) nm
          = some ((dget metaNs nm).getD [])
      ∧ (dget metaNs nm = none →
          dget (dset metaNs nm ((dget metaNs nm).getD [])) nm = some [])
      ∧ dget (ports ++ [(nm, p')]) nm = some p')
    ∧ (∀ e, Port.fresh.from_json (some pj) = .error e →
        populateOne metaNs ports nm pj = .error e) := by
  constructor
  · intro p' hok
    have hpop : populateOne metaNs ports nm pj
        = .ok (dset metaNs nm ((dget metaNs nm).getD []), ports ++ [(nm, p')]) := by
      unfold populateOne
      rw [hnew, hok]
      rfl
    refine ⟨hpop, ?_, ?_, ?_, ?_⟩
    · unfold populatePorts
      simp only [List.foldlM, hpop]
      rfl
    · rw [dget_dset]; simp
    · intro h0; rw [dget_dset]; simp [h0]
    · exact dget_append_single ports nm p' hnew
  · intro e herr
    unfold populateOne
    rw [hnew, herr]
    rfl

/-- Witness for C9: populating a step that declares only input `"a"` with a
JSON entry for the undeclared name `"b"` holding the literal `5`. -/
theorem step_from_json_unknown_port_witness :
    populateOne [("a", [])] [("a", Port.fresh)] "b" (.obj [("value", .prim (.vint 5))])
      = .ok ([("a", []), ("b", [])],
          [("a", Port.fresh), ("b", ⟨none, none, .prim (.vint 5)⟩)]) := by
  have h := (step_from_json_unknown_port [("a", [])] [("a", Port.fresh)] "b"
    (.obj [("value", .prim (.vint 5))]) (by decide)).1
    ⟨none, none, .prim (.vint 5)⟩ (by decide)
  exact h.1


/-! ## Workflow (de)serialization (claims C1)

`Workflow.to_json_dict` (lines 713-755) and `Workflow.from_json_dict`
(lines 667-711), with `Step.to_json_dict`/`Step.from_json_dict` (lines
799-857) and the per-kind hooks.  A step's JSON dictionary is modelled as a
record of its possible keys (an absent key is `none`; for the `inputs` /
`outputs` keys an absent key and an empty dictionary are indistinguishable
to `from_json_dict`, which defaults to `{}`, so both are the empty list).
The registry (`OP_REGISTRY`, in `cate/core/op.py`, not part of the
sources) is modelled from the spec as a name-to-meta-info map, and
`Workflow.load` (which reads a resource file and then applies
`from_json_dict`) as a resource-to-loaded-workflow environment. -/

structure StepJson where
  id : Option String
  persistent : Option Bool
  op : Option String
  workflow : Option String
  expression : Option String
  no_op : Option Bool
  command : Option String
  run_python : Option Bool
  cwd : Option String
  env : Option (List (String × String))
  shell : Option Bool
  started_re : Option String
  progress_re : Option String
  done_re : Option String
  inputs : List (String × PortJson)
  outputs : List (String × PortJson)
deriving DecidableEq, Repr

/-- A workflow's JSON dictionary.  Each root port entry is the port's
forced-dict JSON merged with the declared property map of the same name
(lines 722-737); `OpMetaInfo.object_dict_to_json_dict` /
`json_dict_to_object_dict` only convert `data_type` entries (not part of
the sources) and are modelled as the identity. -/
structure WorkflowJson where
  qualified_name : Option String
  header : Props
  inputs : List (String × Props)
  outputs : List (String × Props)
  steps : List StepJson
deriving DecidableEq, Repr

/-- `NodePort.__str__` (lines 1495-1501): `<node-id>` for the `"return"`
port, else `<node-id>.<name>`; applied to a resolved source pointer by
dereferencing its owning node. -/
def strOfPtr (nodes : List NodeData) (ptr : PortPtr) : String :=
  let nid := ((findNodeByTag nodes ptr.tag).map (·.id)).getD ""
  if ptr.name = RETURN_NAME then nid else nid ++ "." ++ ptr.name

/-- `NodePort.to_json(force_dict)` (lines 1443-1462).  `_to_json_value`
applies `data_type` conversions (modelled as the identity, the behaviour of
ports without a declared `data_type`).  `metaOuts` is the owning node's
declared outputs, consulted for the `is_output` check. -/
def Port.to_json (nodes : List NodeData) (metaOuts : List (String × Props))
    (nm : String) (p : Port) (forceDict : Bool) : PortJson :=
  match p.source with
  | some ptr =>
    if forceDict then .obj [("source", .prim (.vstr (strOfPtr nodes ptr)))]
    else .src (strOfPtr nodes ptr)
  | none =>
    if p.pval = .vundef then .obj []
    else if (dget metaOuts nm).isSome then .obj []
    else .obj [("value", p.pval)]

/-- `NodePort.is_value` (lines 1288-1290). -/
def Port.is_value (p : Port) : Bool :=
  p.source.isNone && (p.pval ≠ .vundef)

/-- Python truthiness of a port's JSON form (`if input_json_dict:`). -/
def portJsonTruthy : PortJson → Bool
  | .src s => s ≠ ""
  | .obj d => d ≠ []

/-- One iteration of `OpStep.get_inputs_json_dict` (lines 1036-1050): a
truthy literal-value entry is dropped when the value equals the declared
`default_value` (a missing default is the `UNDEFINED` sentinel, never
equal to a defined value); a falsy entry (an empty dictionary) is dropped
as well. -/
def opStepInputEntry (nodes : List NodeData) (n : NodeData) (nv : String × Port) :
    Option (String × PortJson) :=
  let pj := Port.to_json nodes n.meta.outputs nv.1 nv.2 false
  let keep : Bool :=
    if portJsonTruthy pj && (nv.2 : Port).is_value then
      match dget n.meta.inputs nv.1 with
      | some props =>
        if props = [] then true
        else decide ((nv.2 : Port).pval ≠ (dget props "default_value").getD .vundef)
      | none => true
    else true
  if keep && portJsonTruthy pj then some (nv.1, pj) else none

/-- `OpStep.get_inputs_json_dict` (lines 1036-1050). -/
def opStepInputsJson (nodes : List NodeData) (n : NodeData) :
    List (String × PortJson) :=
  n.inputs.filterMap (opStepInputEntry nodes n)

/-- `Step.get_inputs_json_dict` (line 859), the unfiltered base version. -/
def baseInputsJson (nodes : List NodeData) (n : NodeData) :
    List (String × PortJson) :=
  n.inputs.map (fun nv => (nv.1, Port.to_json nodes n.meta.outputs nv.1 nv.2 false))

/-- `Step.get_outputs_json_dict` (line 862). -/
def baseOutputsJson (nodes : List NodeData) (n : NodeData) :
    List (String × PortJson) :=
  n.outputs.map (fun nv => (nv.1, Port.to_json nodes n.meta.outputs nv.1 nv.2 false))

/-- An option-valued field that Python only stores when truthy
(`SubProcessStep.enhance_json_dict`, lines 1185-1201). -/
def truthyStr : Option String → Option String
  | some s => if s = "" then none else some s
  | none => none

def truthyEnv : Option (List (String × String)) → Option (List (String × String))
  | some e => if e = [] then none else some e
  | none => none

/-- `Step.to_json_dict` (lines 835-857) with the kind-specific
`enhance_json_dict` / `get_inputs_json_dict` / `get_outputs_json_dict`
overrides (`OpStep` writes its meta-info's qualified name as `op`, filters
its inputs and omits its outputs entirely). -/
def Step.to_json_dict (nodes : List NodeData) (s : Step) : StepJson :=
  { id := some s.node.id
    persistent := if s.persistent then some true else none
    op := match s.kind with
      | .opStep _ => some s.node.meta.qualified_name
      | _ => none
    workflow := match s.kind with
      | .workflowStep r => some r
      | _ => none
    expression := match s.kind with
      | .exprStep e => some e
      | _ => none
    no_op := match s.kind with
      | .noOpStep => some true
      | _ => none
    command := match s.kind with
      | .subProcessStep c _ _ _ _ _ _ _ => some c
      | _ => none
    run_python := match s.kind with
      | .subProcessStep _ rp _ _ _ _ _ _ => if rp then some true else none
      | _ => none
    cwd := match s.kind with
      | .subProcessStep _ _ c _ _ _ _ _ => truthyStr c
      | _ => none
    env := match s.kind with
      | .subProcessStep _ _ _ e _ _ _ _ => truthyEnv e
      | _ => none
    shell := match s.kind with
      | .subProcessStep _ _ _ _ sh _ _ _ => if sh then some true else none
      | _ => none
    started_re := match s.kind with
      | .subProcessStep _ _ _ _ _ sr _ _ => truthyStr sr
      | _ => none
    progress_re := match s.kind with
      | .subProcessStep _ _ _ _ _ _ pr _ => truthyStr pr
      | _ => none
    done_re := match s.kind with
      | .subProcessStep _ _ _ _ _ _ _ dr => truthyStr dr
      | _ => none
    inputs := match s.kind with
      | .opStep _ => opStepInputsJson nodes s.node
      | _ => baseInputsJson nodes s.node
    outputs := match s.kind with
      | .opStep _ => []
      | _ => baseOutputsJson nodes s.node }

/-- `Workflow.to_json_dict` (lines 713-755).  The schema-version entry
carries no state and is not represented. -/
def Workflow.to_json_dict (w : Workflow) : WorkflowJson :=
  { qualified_name := some w.node.meta.qualified_name
    header := w.node.meta.header
    inputs := w.node.inputs.map (fun nv =>
      let d := match Port.to_json w.allNodes w.node.meta.outputs nv.1 nv.2 true with
        | .obj d => d
        | .src s => [("source", .prim (.vstr s))]
      (nv.1, match dget w.node.meta.inputs nv.1 with
        | some props => dupdate d props
        | none => d))
    outputs := w.node.outputs.map (fun nv =>
      let d := match Port.to_json w.allNodes w.node.meta.outputs nv.1 nv.2 true with
        | .obj d => d
        | .src s => [("source", .prim (.vstr s))]
      (nv.1, match dget w.node.meta.outputs nv.1 with
        | some props => dupdate d props
        | none => d))
    steps := w.steps.map (Step.to_json_dict w.allNodes) }

/-- Modelled from the spec: the `can_cache` header flag of `OpMetaInfo`
(true unless the header disables it). -/
def canCacheOfHeader (h : Props) : Bool :=
  match dget h "can_cache" with
  | some v => pyTruthy v
  | none => true

/-- A generated node id (`Node.gen_id`, line 168, derives a fresh name from
the object identity; the model derives it from the fresh tag). -/
def autoId (tag : Nat) : String := "node_" ++ toString tag

/-- Modelled from the spec: `new_expression_op` (in `cate/core/op.py`, not
part of the sources) wraps an expression as an operation over the given
meta-info, providing the default `"return"` output when none is
declared. -/
def expressionMeta (idStr : String) : OpMetaInfo :=
  ⟨idStr, [], [], [(RETURN_NAME, [])], canCacheOfHeader []⟩

/-- `NoOpStep.__init__` (lines 1220-1224): meta-info named after the node
id with a guaranteed `"return"` output. -/
def noOpMeta (idStr : String) : OpMetaInfo :=
  ⟨idStr, [], [], [(RETURN_NAME, [])], canCacheOfHeader []⟩

/-- `SubProcessStep.__init__` (lines 1125-1160): meta-info named after the
node id; absent outputs default to a sole `"return"` output. -/
def subProcessMeta (idStr : String) : OpMetaInfo :=
  ⟨idStr, [], [], [(RETURN_NAME, [])], canCacheOfHeader []⟩

/-- The shared tail of `Step.from_json_dict` (lines 799-827): build the
node from the freshly created step's meta-info, then populate `persistent`
and the two port namespaces from the JSON entries. -/
def stepFromKind (tag : Nat) (idStr : String) (meta : OpMetaInfo) (kind : StepKind)
    (sj : StepJson) : Except WfError Step :=
  let n := NodeData.new tag idStr meta
  match populatePorts n.meta.inputs n.inputs sj.inputs with
  | .error e => .error e
  | .ok (insMeta, ins) =>
    match populatePorts n.meta.outputs n.outputs sj.outputs with
    | .error e => .error e
    | .ok (outsMeta, outs) =>
      .ok ⟨{ n with
              meta := { n.meta with inputs := insMeta, outputs := outsMeta },
              inputs := ins, outputs := outs },
           kind, sj.persistent.getD false⟩

/-- `Step.from_json_dict` with the `new_step_from_json_dict` dispatch of
`Workflow.from_json_dict` (lines 694-699): the step classes are tried in
the order `OpStep`, `WorkflowStep`, `ExpressionStep`, `NoOpStep`,
`SubProcessStep`, each recognising its tag key; `.ok none` means no class
recognised the dictionary.  Constructor guards (`operation`/`expression`/
`command` must be truthy) are the classes' `ValueError`s. -/
def Step.from_json_dict (registry : List (String × OpMetaInfo))
    (resourceEnv : List (String × Workflow)) (tag : Nat) (sj : StepJson) :
    Except WfError (Option Step) :=
  match sj.op with
  | some opName =>
    if opName = "" then .error (.opNotFound opName)
    else
      match dget registry opName with
      | none => .error (.opNotFound opName)
      | some meta =>
        (stepFromKind tag (sj.id.getD (autoId tag)) meta (.opStep opName) sj).map some
  | none =>
  match sj.workflow with
  | some resource =>
    (match dget resourceEnv resource with
     | none => .error (.resourceNotFound resource)
     | some wf =>
       (stepFromKind tag (sj.id.getD (autoId tag)) wf.node.meta
         (.workflowStep resource) sj).map some)
  | none =>
  match sj.expression with
  | some expr =>
    if expr = "" then .error .typeError
    else
      let idStr := sj.id.getD (autoId tag)
      (stepFromKind tag idStr (expressionMeta idStr) (.exprStep expr) sj).map some
  | none =>
  match sj.no_op with
  | some _ =>
    let idStr := sj.id.getD (autoId tag)
    (stepFromKind tag idStr (noOpMeta idStr) .noOpStep sj).map some
  | none =>
  match sj.command with
  | some cmd =>
    if cmd = "" then .error .typeError
    else
      let idStr := sj.id.getD (autoId tag)
      (stepFromKind tag idStr (subProcessMeta idStr)
        (.subProcessStep cmd (sj.run_python.getD false) sj.cwd sj.env
          (sj.shell.getD false) sj.started_re sj.progress_re sj.done_re) sj).map some
  | none => .ok none

/-- The step-parsing loop of `Workflow.from_json_dict` (lines 688-701),
threading fresh node tags and the 1-based step counter of the error
message. -/
def stepsFromJson (registry : List (String × OpMetaInfo))
    (resourceEnv : List (String × Workflow)) :
    Nat → Nat → List StepJson → Except WfError (List Step)
  | _, _, [] => .ok []
  | tag, idx, sj :: rest =>
    match Step.from_json_dict registry resourceEnv tag sj with
    | .error e => .error e
    | .ok none => .error (.unknownStepType idx)
    | .ok (some st) =>
      match stepsFromJson registry resourceEnv (tag + 1) (idx + 1) rest with
      | .error e => .error e
      | .ok sts => .ok (st :: sts)

/-- The root-port population loop of `Workflow.from_json_dict` (lines
705-708): each of the workflow's own ports is populated from the JSON
entry of its name (absent entries reset the port). -/
def rootPortsFromJson (w : Workflow) (wj : WorkflowJson) : Except WfError Workflow :=
  match mapME (fun nv => ((nv.2 : Port).from_json ((dget wj.inputs nv.1).map .obj)).map
      (fun p => (nv.1, p))) w.node.inputs with
  | .error e => .error e
  | .ok ins =>
    match mapME (fun nv => ((nv.2 : Port).from_json ((dget wj.outputs nv.1).map .obj)).map
        (fun p => (nv.1, p))) w.node.outputs with
    | .error e => .error e
    | .ok outs =>
      .ok { w with node := { w.node with inputs := ins, outputs := outs } }

/-- `Workflow.from_json_dict` (lines 667-711): a missing `qualified_name`
is rejected; the root meta-info is built from the JSON (its `can_cache`
flag derived from the header); the steps are parsed and added with
`add_steps`; the root ports are populated; finally `update_sources`
resolves every source reference.  `tag0` is the identity of the freshly
constructed workflow object, the steps receiving the successive
identities. -/
def Workflow.from_json_dict (registry : List (String × OpMetaInfo))
    (resourceEnv : List (String × Workflow)) (tag0 : Nat) (wj : WorkflowJson) :
    Except WfError Workflow :=
  match wj.qualified_name with
  | none => .error .missingQualifiedName
  | some qn =>
    let meta : OpMetaInfo := ⟨qn, wj.header, wj.inputs, wj.outputs,
      canCacheOfHeader wj.header⟩
    match stepsFromJson registry resourceEnv (tag0 + 1) 1 wj.steps with
    | .error e => .error e
    | .ok steps =>
      match (Workflow.new tag0 meta none).add_steps steps false with
      | .error e => .error e
      | .ok w1 =>
        match rootPortsFromJson w1 wj with
        | .error e => .error e
        | .ok w2 => w2.update_sources


/-! ### C1 counterexample data: a literal input equal to the declared default -/

def c1MetaF : OpMetaInfo :=
  ⟨"pkg.f", [], [("x", [("default_value", .prim (.vint 7))])], [(RETURN_NAME, [])], true⟩

def c1Reg : List (String × OpMetaInfo) := [("pkg.f", c1MetaF)]

/-- A step whose input `"x"` literally holds `7`, the operation's declared
default value. -/
def c1S : Step :=
  ⟨{ NodeData.new 1 "s" c1MetaF with
      inputs := [("x", ⟨none, none, .prim (.vint 7)⟩)] }, .opStep "pkg.f", false⟩

def c1W : Workflow := ⟨NodeData.new 0 "wf" ⟨"wf", [], [], [], true⟩, [c1S], [("s", 1)]⟩

/-- **C1 counterexample.** Storing and re-loading a workflow whose `OpStep`
input `"x"` holds the literal `7` — equal to the operation's declared
`default_value` — does not reproduce the workflow: `OpStep.
get_inputs_json_dict` (lines 1036-1050) silently omits the entry, and the
re-loaded step's port is `UNDEFINED` instead of holding `7`; the literal
input values are not preserved, contradicting the claimed structural
identity. -/
theorem workflow_roundtrip_counterexample :
    dget c1S.node.inputs "x" = some ⟨none, none, .prim (.vint 7)⟩
    ∧ (Workflow.from_json_dict c1Reg [] 10 (Workflow.to_json_dict c1W)).map
        (fun w => w.steps.map (fun st => (st.node.id, st.node.inputs)))
      = .ok [("s", [("x", ⟨none, none, .vundef⟩)])] :=
  ⟨by decide, by decide⟩


/-! ### Inverting the source-reference string format -/

/-- No `'.'` occurs in `s` (so `rsplit('.')` cannot cut it). -/
def strNoDot (s : String) : Bool := !(s.toList.contains '.')

/-- A usable node id or port name: nonempty and dot-free. -/
def goodName (s : String) : Bool := s ≠ "" && strNoDot s

theorem takeWhile_prefix_append {α : Type} (p : α → Bool) :
    ∀ (xs : List α) (y : α) (ys : List α), (∀ x ∈ xs, p x = true) → p y = false →
      (xs ++ y :: ys).takeWhile p = xs := by
  intro xs
  induction xs with
  | nil =>
    intro y ys _ hy
    simp [List.takeWhile, hy]
  | cons a rest ih =>
    intro y ys hall hy
    have ha : p a = true := hall a (by simp)
    rw [List.cons_append, List.takeWhile_cons_of_pos ha,
      ih y ys (fun x hx => hall x (by simp [hx])) hy]

theorem drop_prefix_append {α : Type} :
    ∀ (xs : List α) (y : α) (ys : List α), (xs ++ y :: ys).drop (xs.length + 1) = ys := by
  intro xs
  induction xs with
  | nil =>
    intro y ys
    simp
  | cons a rest ih =>
    intro y ys
    simp only [List.cons_append, List.length_cons, List.drop_succ_cons]
    exact ih y ys

theorem mem_of_strNoDot {nm : String} (h : strNoDot nm = true) : '.' ∉ nm.toList := by
  intro hm
  unfold strNoDot List.contains at h
  rw [List.elem_iff.mpr hm] at h
  exact absurd h (by simp)

theorem toList_dot_append (nid nm : String) :
    (nid ++ "." ++ nm).toList = nid.toList ++ '.' :: nm.toList := by
  simp

theorem rsplitDot_long (nid nm : String) (h2 : strNoDot nm = true) :
    rsplitDot (nid ++ "." ++ nm) = [nid, nm] := by
  have hnm : '.' ∉ nm.toList := mem_of_strNoDot h2
  have hcont : (nid ++ "." ++ nm).toList.contains '.' = true := by
    rw [toList_dot_append]
    show List.elem '.' (nid.toList ++ '.' :: nm.toList) = true
    exact List.elem_iff.mpr (by simp)
  unfold rsplitDot
  rw [if_pos hcont]
  dsimp only
  rw [toList_dot_append]
  have hrev : (nid.toList ++ '.' :: nm.toList).reverse
      = nm.toList.reverse ++ '.' :: nid.toList.reverse := by
    simp
  rw [hrev]
  have htake : (nm.toList.reverse ++ '.' :: nid.toList.reverse).takeWhile
      (fun c => c ≠ '.') = nm.toList.reverse := by
    refine takeWhile_prefix_append _ _ _ _ (fun x hx => ?_) (by simp)
    have hxne : x ≠ '.' := by
      intro he
      exact hnm (by rw [← he]; exact (List.mem_reverse).mp hx)
    simp [hxne]
  rw [htake]
  rw [drop_prefix_append]
  simp

theorem rsplitDot_short (nid : String) (h2 : strNoDot nid = true) :
    rsplitDot nid = [nid] := by
  unfold rsplitDot
  rw [if_neg]
  intro hc
  unfold strNoDot at h2
  rw [hc] at h2
  exact absurd h2 (by simp)

theorem parse_portRef_long (nid nm : String) (h1 : nid ≠ "") (h2 : strNoDot nm = true)
    (h3 : nm ≠ "") :
    parseSourceString (nid ++ "." ++ nm) = .ok ⟨some nid, some nm⟩ := by
  unfold parseSourceString
  rw [rsplitDot_long nid nm h2]
  dsimp only
  rw [if_neg h3, if_neg h1]

theorem parse_portRef_short (nid : String) (h1 : nid ≠ "") (h2 : strNoDot nid = true) :
    parseSourceString nid = .ok ⟨some nid, none⟩ := by
  unfold parseSourceString
  rw [rsplitDot_short nid h2]
  dsimp only
  rw [if_pos h1]


/-! ### Port-level round trip -/

theorem goodName_split {s : String} (h : goodName s = true) :
    s ≠ "" ∧ strNoDot s = true := by
  unfold goodName at h
  rcases (Bool.and_eq_true _ _).mp h with ⟨h1, h2⟩
  exact ⟨of_decide_eq_true h1, h2⟩

/-- The source reference a re-loaded port carries before `update_sources`
runs: parsed back from the serialized reference string. -/
def srefOfPtr (nodes : List NodeData) (ptr : PortPtr) : SRef :=
  let nid := ((findNodeByTag nodes ptr.tag).map (·.id)).getD ""
  if ptr.name = RETURN_NAME then ⟨some nid, none⟩ else ⟨some nid, some ptr.name⟩

/-- The state of a step port after `Step.from_json_dict` and before
`update_sources`: a resolved source becomes its parsed reference string, a
defined non-output value survives, anything else resets to fresh. -/
def portAfterLoad (nodes : List NodeData) (metaOuts : List (String × Props))
    (nm : String) (p : Port) : Port :=
  match p.source with
  | some ptr => ⟨some (srefOfPtr nodes ptr), none, .vundef⟩
  | none =>
    if p.pval = .vundef then Port.fresh
    else if (dget metaOuts nm).isSome then Port.fresh
    else ⟨none, none, p.pval⟩

theorem port_from_to (nodes : List NodeData) (metaOuts : List (String × Props))
    (nm : String) (p : Port)
    (hgood : ∀ ptr, p.source = some ptr →
      goodName (((findNodeByTag nodes ptr.tag).map (·.id)).getD "") = true
      ∧ goodName ptr.name = true) (q : Port) :
    Port.from_json q (some (Port.to_json nodes metaOuts nm p false))
      = .ok (portAfterLoad nodes metaOuts nm p) := by
  unfold Port.to_json portAfterLoad
  rcases hsrc : p.source with _ | ptr
  · dsimp only
    by_cases hv : p.pval = .vundef
    · simp only [if_pos hv]
      rfl
    · simp only [if_neg hv]
      by_cases ho : (dget metaOuts nm).isSome
      · simp only [if_pos ho]
        rfl
      · simp only [if_neg ho]
        rfl
  · dsimp only
    simp only [Bool.false_eq_true, if_false]
    rcases goodName_split (hgood ptr hsrc).1 with ⟨hn1, hn2⟩
    rcases goodName_split (hgood ptr hsrc).2 with ⟨hm1, hm2⟩
    unfold Port.from_json strOfPtr srefOfPtr
    by_cases hr : ptr.name = RETURN_NAME
    · simp only [if_pos hr]
      rw [parse_portRef_short _ hn1 hn2]
      rfl
    · simp only [if_neg hr]
      rw [parse_portRef_long _ _ hn1 hm2 hm1]
      rfl

theorem dget_append {α : Type} (d e : List (String × α)) (k : String) :
    dget (d ++ e) k = match dget d k with | some v => some v | none => dget e k := by
  induction d with
  | nil => rfl
  | cons a rest ih =>
    rcases a with ⟨k2, v2⟩
    by_cases h : k2 = k
    · simp [dget, h]
    · simp only [List.cons_append, dget, if_neg h]
      exact ih

/-- Merging clean (source- and value-free) metadata properties into a
port's JSON dictionary does not change how `from_json` reads it. -/
theorem from_json_obj_append (q : Port) (d props : Props)
    (hs : dget props "source" = none) (hv : dget props "value" = none) :
    Port.from_json q (some (.obj (d ++ props))) = Port.from_json q (some (.obj d)) := by
  unfold Port.from_json
  dsimp only
  rw [dget_append, dget_append]
  rcases hds : dget d "source" with _ | sv <;> rcases hdv : dget d "value" with _ | vv <;>
    simp [hds, hdv, hs, hv]


/-! ### The port-population loops on serialized entries -/

theorem dget_isSome_iff_mem {α : Type} :
    ∀ (d : List (String × α)) (k : String), (dget d k).isSome ↔ k ∈ d.map (·.1) := by
  intro d
  induction d with
  | nil => intro k; simp
  | cons kv rest ih =>
    intro k
    rcases kv with ⟨k1, v1⟩
    by_cases h : k1 = k
    · simp [dget, h]
    · simp only [dget, if_neg h, List.map_cons, List.mem_cons]
      rw [ih]
      constructor
      · exact Or.inr
      · intro hc
        rcases hc with hc | hc
        · exact absurd hc.symm h
        · exact hc

theorem dget_none_of_not_mem {α : Type} {d : List (String × α)} {k : String}
    (h : k ∉ d.map (·.1)) : dget d k = none := by
  rcases hd : dget d k with _ | v
  · rfl
  · exact absurd ((dget_isSome_iff_mem d k).mp (by rw [hd]; rfl)) h

theorem map_if_eq_self {α : Type} (k : String) (v : α) :
    ∀ (d : List (String × α)), (∀ nv ∈ d, nv.1 ≠ k) →
      d.map (fun nv => if nv.1 = k then (k, v) else nv) = d := by
  intro d
  induction d with
  | nil => intro _; rfl
  | cons a rest ih =>
    intro hall
    simp only [List.map_cons, if_neg (hall a (by simp))]
    rw [ih (fun nv hnv => hall nv (by simp [hnv]))]

theorem dset_eq_map {α : Type} :
    ∀ (d : List (String × α)) (k : String) (v : α), (d.map (·.1)).Nodup →
      k ∈ d.map (·.1) →
      dset d k v = d.map (fun nv => if nv.1 = k then (k, v) else nv) := by
  intro d
  induction d with
  | nil =>
    intro k v _ hk
    exact absurd hk (by simp)
  | cons a rest ih =>
    intro k v hnd hk
    rcases a with ⟨k1, v1⟩
    rcases List.nodup_cons.mp hnd with ⟨hk1, hndr⟩
    by_cases h : k1 = k
    · subst h
      have hrest := map_if_eq_self k1 v rest (fun nv hnv he =>
        hk1 (he ▸ List.mem_map_of_mem (fun x => x.1) hnv))
      simp [dset, hrest]
    · have hk2 : k ∈ rest.map (·.1) := by
        rcases List.mem_cons.mp hk with hc | hc
        · exact absurd hc.symm h
        · exact hc
      simp only [dset, if_neg h, List.map_cons, if_neg h]
      rw [ih k v hndr hk2]

theorem dset_keys_of_mem {α : Type} :
    ∀ (d : List (String × α)) (k : String) (v : α), k ∈ d.map (·.1) →
      (dset d k v).map (·.1) = d.map (·.1) := by
  intro d
  induction d with
  | nil =>
    intro k v hk
    exact absurd hk (by simp)
  | cons a rest ih =>
    intro k v hk
    rcases a with ⟨k1, v1⟩
    by_cases h : k1 = k
    · simp [dset, h]
    · have hk2 : k ∈ rest.map (·.1) := by
        rcases List.mem_cons.mp hk with hc | hc
        · exact absurd hc.symm h
        · exact hc
      simp only [dset, if_neg h, List.map_cons]
      rw [ih k v hk2]

theorem dset_append_missing {α : Type} :
    ∀ (d : List (String × α)) (k : String) (v : α), k ∉ d.map (·.1) →
      dset d k v = d ++ [(k, v)] := by
  intro d
  induction d with
  | nil => intro k v _; rfl
  | cons a rest ih =>
    intro k v hk
    rcases a with ⟨k1, v1⟩
    have h : k1 ≠ k := by
      intro he
      exact hk (by simp [he])
    simp only [dset, if_neg h, List.cons_append]
    rw [ih k v (fun hc => hk (by simp [hc]))]

theorem from_json_receiver (a b : Port) (pj : Option PortJson) :
    Port.from_json a pj = Port.from_json b pj := rfl

theorem populatePorts_nil (metaNs : List (String × Props)) (P : List (String × Port)) :
    populatePorts metaNs P [] = .ok (metaNs, P) := rfl

theorem populatePorts_cons (metaNs : List (String × Props)) (P : List (String × Port))
    (e : String × PortJson) (rest : List (String × PortJson)) :
    populatePorts metaNs P (e :: rest)
      = match populateOne metaNs P e.1 e.2 with
        | .error er => .error er
        | .ok acc => populatePorts acc.1 acc.2 rest := by
  unfold populatePorts
  rw [List.foldlM_cons]
  rcases h : populateOne metaNs P e.1 e.2 with er | acc <;> rfl

/-- Populating declared ports: every entry replaces the like-named port in
place, leaving the meta namespaces untouched; the result is the pointwise
update of the port list. -/
theorem populate_keyed (f : String → PortJson → Port) :
    ∀ (entries : List (String × PortJson)) (metaNs : List (String × Props))
      (P : List (String × Port)),
      (P.map (·.1)).Nodup →
      (entries.map (·.1)).Nodup →
      (∀ e ∈ entries, e.1 ∈ P.map (·.1)) →
      (∀ e ∈ entries, Port.fresh.from_json (some e.2) = .ok (f e.1 e.2)) →
      populatePorts metaNs P entries
        = .ok (metaNs, P.map (fun nv =>
            match dget entries nv.1 with
            | some pj => (nv.1, f nv.1 pj)
            | none => nv)) := by
  intro entries
  induction entries with
  | nil =>
    intro metaNs P _ _ _ _
    rw [populatePorts_nil]
    have hmap : P.map (fun nv : String × Port =>
        match dget ([] : List (String × PortJson)) nv.1 with
        | some pj => (nv.1, f nv.1 pj)
        | none => nv) = P :=
      (List.map_congr_left (fun nv _ => rfl)).trans (List.map_id P)
    rw [hmap]
  | cons e rest ih =>
    intro metaNs P hndP hndE hmem hok
    rcases List.nodup_cons.mp hndE with ⟨he1, hndr⟩
    have hmemP : e.1 ∈ P.map (·.1) := hmem e (by simp)
    obtain ⟨p, hp⟩ : ∃ p, dget P e.1 = some p := by
      rcases hd : dget P e.1 with _ | p
      · exact absurd ((dget_isSome_iff_mem P e.1).mpr hmemP) (by rw [hd]; simp)
      · exact ⟨p, rfl⟩
    have hone : populateOne metaNs P e.1 e.2
        = .ok (metaNs, dset P e.1 (f e.1 e.2)) := by
      unfold populateOne
      rw [hp]
      dsimp only
      rw [from_json_receiver p Port.fresh, hok e (by simp)]
      rfl
    rw [populatePorts_cons, hone]
    dsimp only
    have hkeys : (dset P e.1 (f e.1 e.2)).map (·.1) = P.map (·.1) :=
      dset_keys_of_mem P e.1 _ hmemP
    rw [ih metaNs (dset P e.1 (f e.1 e.2)) (by rw [hkeys]; exact hndP) hndr
      (fun x hx => by rw [hkeys]; exact hmem x (by simp [hx]))
      (fun x hx => hok x (by simp [hx]))]
    rw [dset_eq_map P e.1 _ hndP hmemP, List.map_map]
    have hpt : ∀ nv ∈ P,
        ((fun nv : String × Port =>
            match dget rest nv.1 with
            | some pj => (nv.1, f nv.1 pj)
            | none => nv) ∘ (fun nv : String × Port =>
            if nv.1 = e.1 then (e.1, f e.1 e.2) else nv)) nv
        = (fun nv : String × Port =>
            match dget (e :: rest) nv.1 with
            | some pj => (nv.1, f nv.1 pj)
            | none => nv) nv := by
      intro nv _
      by_cases hx : nv.1 = e.1
      · have hrest : dget rest e.1 = none := dget_none_of_not_mem he1
        rcases e with ⟨nm, pj⟩
        simp [Function.comp, hx, dget, hrest]
      · rcases e with ⟨nm, pj⟩
        have hne : nm ≠ nv.1 := fun he => hx (by rw [he])
        simp [Function.comp, hx, dget, if_neg hne]
    rw [List.map_congr_left hpt]

/-- Populating undeclared ports: every entry appends a fresh meta entry and
a new port, in entry order. -/
theorem populate_append (f : String → PortJson → Port) :
    ∀ (entries : List (String × PortJson)) (metaNs : List (String × Props))
      (P : List (String × Port)),
      (entries.map (·.1)).Nodup →
      (∀ e ∈ entries, e.1 ∉ P.map (·.1)) →
      (∀ e ∈ entries, e.1 ∉ metaNs.map (·.1)) →
      (∀ e ∈ entries, Port.fresh.from_json (some e.2) = .ok (f e.1 e.2)) →
      populatePorts metaNs P entries
        = .ok (metaNs ++ entries.map (fun e => (e.1, ([] : Props))),
               P ++ entries.map (fun e => (e.1, f e.1 e.2))) := by
  intro entries
  induction entries with
  | nil =>
    intro metaNs P _ _ _ _
    rw [populatePorts_nil]
    simp
  | cons e rest ih =>
    intro metaNs P hndE hmemP hmemM hok
    rcases List.nodup_cons.mp hndE with ⟨he1, hndr⟩
    have hgP : dget P e.1 = none := dget_none_of_not_mem (hmemP e (by simp))
    have hgM : dget metaNs e.1 = none := dget_none_of_not_mem (hmemM e (by simp))
    have hone : populateOne metaNs P e.1 e.2
        = .ok (metaNs ++ [(e.1, ([] : Props))], P ++ [(e.1, f e.1 e.2)]) := by
      unfold populateOne
      rw [hgP]
      dsimp only
      rw [hgM, hok e (by simp)]
      rw [dset_append_missing metaNs e.1 _ (hmemM e (by simp))]
      rfl
    rw [populatePorts_cons, hone]
    dsimp only
    rw [ih (metaNs ++ [(e.1, [])]) (P ++ [(e.1, f e.1 e.2)]) hndr
      (fun x hx hc => by
        rw [List.map_append, List.mem_append] at hc
        rcases hc with hc | hc
        · exact hmemP x (by simp [hx]) hc
        · have hxe : x.1 = e.1 := by simpa using hc
          exact he1 (show e.1 ∈ List.map (fun x => x.1) rest from
            hxe ▸ List.mem_map_of_mem (fun x => x.1) hx))
      (fun x hx hc => by
        rw [List.map_append, List.mem_append] at hc
        rcases hc with hc | hc
        · exact hmemM x (by simp [hx]) hc
        · have hxe : x.1 = e.1 := by simpa using hc
          exact he1 (show e.1 ∈ List.map (fun x => x.1) rest from
            hxe ▸ List.mem_map_of_mem (fun x => x.1) hx))
      (fun x hx => hok x (by simp [hx]))]
    simp


/-! ### Loading the serialized ports of a step -/

/-- The port `NodePort.from_json` produces (its receiver is irrelevant);
`Port.fresh` on a decoding error, a case excluded where this is used. -/
def fromJsonD (pj : PortJson) : Port :=
  match Port.fresh.from_json (some pj) with
  | .ok p => p
  | .error _ => Port.fresh

theorem dget_filterMap_self {β : Type} (g : (String × Port) → Option (String × β))
    (hg : ∀ nv e, g nv = some e → e.1 = nv.1) :
    ∀ (P : List (String × Port)), (P.map (·.1)).Nodup → ∀ nv ∈ P,
      dget (P.filterMap g) nv.1 = (g nv).map (·.2) := by
  intro P
  induction P with
  | nil =>
    intro _ nv hnv
    exact absurd hnv (by simp)
  | cons a rest ih =>
    intro hnd nv hnv
    rcases List.nodup_cons.mp hnd with ⟨ha1, hndr⟩
    rcases List.mem_cons.mp hnv with hv | hv
    · subst hv
      rcases hga : g nv with _ | e
      · rw [List.filterMap_cons_none hga]
        have hnot : nv.1 ∉ (rest.filterMap g).map (·.1) := by
          intro hc
          rcases List.mem_map.mp hc with ⟨e2, he2, hee⟩
          rcases List.mem_filterMap.mp he2 with ⟨nv2, hnv2, hg2⟩
          have h1 : nv2.1 ∈ List.map (fun x => x.1) rest := List.mem_map_of_mem _ hnv2
          have h2 : nv.1 = nv2.1 := by
            rw [← hee, hg nv2 e2 hg2]
          exact ha1 (show nv.1 ∈ List.map (fun x => x.1) rest from by rw [h2]; exact h1)
        rw [dget_none_of_not_mem hnot]
        rfl
      · rw [List.filterMap_cons_some hga]
        have he1 : e.1 = nv.1 := hg nv e hga
        rcases e with ⟨k2, b2⟩
        rw [show dget ((k2, b2) :: rest.filterMap g) nv.1 = some b2 from by
          rw [dget_cons, if_pos he1]]
        rfl
    · rcases hga : g a with _ | e
      · rw [List.filterMap_cons_none hga]
        exact ih hndr nv hv
      · rw [List.filterMap_cons_some hga]
        have hne : e.1 ≠ nv.1 := by
          rw [hg a e hga]
          intro hc
          exact ha1 (show a.1 ∈ List.map (fun x => x.1) rest from by
            rw [hc]; exact List.mem_map_of_mem (fun x => x.1) hv)
        rcases e with ⟨k2, b2⟩
        rw [show dget ((k2, b2) :: rest.filterMap g) nv.1
            = dget (rest.filterMap g) nv.1 from by rw [dget_cons, if_neg hne]]
        exact ih hndr nv hv

theorem filterMap_keys_sublist {β : Type} (g : (String × Port) → Option (String × β))
    (hg : ∀ nv e, g nv = some e → e.1 = nv.1) :
    ∀ (P : List (String × Port)),
      List.Sublist ((P.filterMap g).map (·.1)) (P.map (·.1)) := by
  intro P
  induction P with
  | nil => simp
  | cons a rest ih =>
    rcases hga : g a with _ | e
    · rw [List.filterMap_cons_none hga, List.map_cons]
      exact List.Sublist.cons _ ih
    · rw [List.filterMap_cons_some hga, List.map_cons, List.map_cons, hg a e hga]
      exact List.Sublist.cons₂ _ ih

theorem persist_getD (b : Bool) : ((if b then some true else none).getD false) = b := by
  cases b <;> rfl

/-- Serialize-then-populate over a node's declared port list: each selected
port's serialized form re-loads to `portAfterLoad`, an unselected port
stays fresh; the meta namespaces are untouched. -/
theorem populate_entries_of_ports (nodes : List NodeData)
    (metaOuts : List (String × Props)) (metaNs : List (String × Props))
    (ports : List (String × Port)) (sel : (String × Port) → Bool)
    (hnd : (ports.map (·.1)).Nodup)
    (hsrc : ∀ nv ∈ ports, ∀ ptr, (nv.2 : Port).source = some ptr →
      goodName (((findNodeByTag nodes ptr.tag).map (·.id)).getD "") = true
      ∧ goodName ptr.name = true) :
    populatePorts metaNs (ports.map (fun nv => (nv.1, Port.fresh)))
        (ports.filterMap (fun nv =>
          if sel nv then some (nv.1, Port.to_json nodes metaOuts nv.1 nv.2 false)
          else none))
      = .ok (metaNs, ports.map (fun nv => (nv.1,
          if sel nv then portAfterLoad nodes metaOuts nv.1 nv.2 else Port.fresh))) := by
  have hg : ∀ nv e, (if sel nv
      then some (nv.1, Port.to_json nodes metaOuts nv.1 nv.2 false) else none) = some e
      → e.1 = nv.1 := by
    intro nv e he
    by_cases hs : sel nv
    · rw [if_pos hs] at he
      rw [← Option.some.inj he]
    · rw [if_neg hs] at he
      exact absurd he (by simp)
  have hkeys : (ports.map (fun nv => (nv.1, Port.fresh))).map (·.1) = ports.map (·.1) := by
    rw [List.map_map]
    rfl
  have hmain := populate_keyed (fun _ pj => fromJsonD pj)
    (ports.filterMap (fun nv =>
      if sel nv then some (nv.1, Port.to_json nodes metaOuts nv.1 nv.2 false) else none))
    metaNs (ports.map (fun nv => (nv.1, Port.fresh)))
    (by rw [hkeys]; exact hnd)
    ((filterMap_keys_sublist _ hg ports).nodup hnd)
    (by
      intro e he
      rcases List.mem_filterMap.mp he with ⟨nv, hnv, hgnv⟩
      rw [hkeys, hg nv e hgnv]
      exact List.mem_map_of_mem _ hnv)
    (by
      intro e he
      rcases List.mem_filterMap.mp he with ⟨nv, hnv, hgnv⟩
      by_cases hs : sel nv
      · rw [if_pos hs] at hgnv
        have he2 : e.2 = Port.to_json nodes metaOuts nv.1 nv.2 false := by
          rw [← Option.some.inj hgnv]
        have hokp := port_from_to nodes metaOuts nv.1 nv.2 (hsrc nv hnv) Port.fresh
        have hfd : fromJsonD (Port.to_json nodes metaOuts nv.1 nv.2 false)
            = portAfterLoad nodes metaOuts nv.1 nv.2 := by
          unfold fromJsonD
          rw [hokp]
        rw [he2]
        show Port.fresh.from_json (some (Port.to_json nodes metaOuts nv.1 nv.2 false))
          = Except.ok (fromJsonD (Port.to_json nodes metaOuts nv.1 nv.2 false))
        rw [hokp, hfd]
      · rw [if_neg hs] at hgnv
        exact absurd hgnv (by simp))
  rw [hmain]
  rw [List.map_map]
  refine congrArg (fun l => Except.ok (metaNs, l)) ?_
  refine List.map_congr_left (fun nv hnv => ?_)
  have hget := dget_filterMap_self _ hg ports hnd nv hnv
  dsimp only [Function.comp]
  rw [hget]
  by_cases hs : sel nv
  · rw [if_pos hs, if_pos hs]
    dsimp only [Option.map]
    have hokp := port_from_to nodes metaOuts nv.1 nv.2 (hsrc nv hnv) Port.fresh
    have hfd : fromJsonD (Port.to_json nodes metaOuts nv.1 nv.2 false)
        = portAfterLoad nodes metaOuts nv.1 nv.2 := by
      unfold fromJsonD
      rw [hokp]
    show (nv.1, fromJsonD (Port.to_json nodes metaOuts nv.1 nv.2 false))
      = (nv.1, portAfterLoad nodes metaOuts nv.1 nv.2)
    rw [hfd]
  · rw [if_neg hs, if_neg hs]
    rfl


/-! ### Step-level round trips -/

/-- The keep-condition of `OpStep.get_inputs_json_dict` as a predicate. -/
def opKeepB (nodes : List NodeData) (n : NodeData) (nv : String × Port) : Bool :=
  (if portJsonTruthy (Port.to_json nodes n.meta.outputs nv.1 nv.2 false)
      && (nv.2 : Port).is_value then
    match dget n.meta.inputs nv.1 with
    | some props =>
      if props = [] then true
      else decide ((nv.2 : Port).pval ≠ (dget props "default_value").getD .vundef)
    | none => true
  else true) && portJsonTruthy (Port.to_json nodes n.meta.outputs nv.1 nv.2 false)

theorem opStepInputsJson_eq (nodes : List NodeData) (n : NodeData) :
    opStepInputsJson nodes n = n.inputs.filterMap (fun nv =>
      if opKeepB nodes n nv
      then some (nv.1, Port.to_json nodes n.meta.outputs nv.1 nv.2 false)
      else none) := rfl

/-- A port list after re-loading a step: selected ports re-load, the rest
stay fresh. -/
def loadedPorts (nodes : List NodeData) (metaOuts : List (String × Props))
    (sel : (String × Port) → Bool) (ports : List (String × Port)) :
    List (String × Port) :=
  ports.map (fun nv => (nv.1,
    if sel nv then portAfterLoad nodes metaOuts nv.1 nv.2 else Port.fresh))

theorem freshPorts_of_names {metaNs : List (String × Props)}
    {ports : List (String × Port)} (h : ports.map (·.1) = metaNs.map (·.1)) :
    metaNs.map (fun mv => (mv.1, Port.fresh)) = ports.map (fun nv => (nv.1, Port.fresh)) := by
  have h1 : metaNs.map (fun mv => (mv.1, Port.fresh))
      = (metaNs.map (·.1)).map (fun nm => (nm, Port.fresh)) := by
    rw [List.map_map]
    rfl
  have h2 : ports.map (fun nv => (nv.1, Port.fresh))
      = (ports.map (·.1)).map (fun nm => (nm, Port.fresh)) := by
    rw [List.map_map]
    rfl
  rw [h1, h2, h]

/-- Round trip of a single `OpStep` through its JSON dictionary: the
dispatch recognises the `op` key, the registry returns the identical
meta-info, and the persisted entries re-populate the like-named ports. -/
theorem opStep_from_to (registry : List (String × OpMetaInfo))
    (resourceEnv : List (String × Workflow)) (nodes : List NodeData)
    (n : NodeData) (opName : String) (pers : Bool) (tag : Nat)
    (hreg : dget registry n.meta.qualified_name = some n.meta)
    (hqn : n.meta.qualified_name ≠ "")
    (hnames : n.inputs.map (·.1) = n.meta.inputs.map (·.1))
    (hnd : (n.inputs.map (·.1)).Nodup)
    (hsrc : ∀ nv ∈ n.inputs, ∀ ptr, (nv.2 : Port).source = some ptr →
      goodName (((findNodeByTag nodes ptr.tag).map (·.id)).getD "") = true
      ∧ goodName ptr.name = true) :
    Step.from_json_dict registry resourceEnv tag
        (Step.to_json_dict nodes ⟨n, .opStep opName, pers⟩)
      = .ok (some ⟨⟨tag, n.id, n.meta,
          loadedPorts nodes n.meta.outputs (opKeepB nodes n) n.inputs,
          n.meta.outputs.map (fun mv => (mv.1, Port.fresh))⟩,
        .opStep n.meta.qualified_name, pers⟩) := by
  unfold Step.from_json_dict
  dsimp only [Step.to_json_dict]
  rw [if_neg hqn, hreg]
  unfold stepFromKind
  dsimp only [NodeData.new, Option.getD]
  rw [freshPorts_of_names hnames]
  rw [opStepInputsJson_eq]
  rw [populate_entries_of_ports nodes n.meta.outputs n.meta.inputs n.inputs
    (opKeepB nodes n) hnd hsrc]
  dsimp only
  rw [populatePorts_nil]
  dsimp only
  cases pers <;> rfl


theorem filterMap_iftrue {β : Type} (f : (String × Port) → String × β) :
    ∀ l : List (String × Port),
      (l.filterMap (fun nv => if (fun _ => true) nv then some (f nv) else none)) = l.map f := by
  intro l
  have h : (fun nv : String × Port => if (fun _ => true) nv then some (f nv) else none)
      = (fun nv => some (f nv)) := by
    funext nv
    rfl
  rw [h]
  induction l with
  | nil => rfl
  | cons a rest ih =>
    rw [List.filterMap_cons]
    dsimp only
    rw [ih, List.map_cons]

def loadedAllPorts (nodes : List NodeData) (metaOuts : List (String × Props))
    (ports : List (String × Port)) : List (String × Port) :=
  ports.map (fun nv => (nv.1, portAfterLoad nodes metaOuts nv.1 nv.2))

theorem populate_entries_map (nodes : List NodeData)
    (metaOuts : List (String × Props)) (metaNs : List (String × Props))
    (ports : List (String × Port))
    (hnd : (ports.map (·.1)).Nodup)
    (hsrc : ∀ nv ∈ ports, ∀ ptr, (nv.2 : Port).source = some ptr →
      goodName (((findNodeByTag nodes ptr.tag).map (·.id)).getD "") = true
      ∧ goodName ptr.name = true) :
    populatePorts metaNs (ports.map (fun nv => (nv.1, Port.fresh)))
        (ports.map (fun nv => (nv.1, Port.to_json nodes metaOuts nv.1 nv.2 false)))
      = .ok (metaNs, loadedAllPorts nodes metaOuts ports) := by
  have h := populate_entries_of_ports nodes metaOuts metaNs ports (fun _ => true) hnd hsrc
  rw [filterMap_iftrue] at h
  exact h

/-- Round trip of a single `WorkflowStep`: the dispatch recognises the
`workflow` key, the resource loads to a workflow with the step's meta-info,
and every port entry re-populates its port. -/
theorem workflowStep_from_to (registry : List (String × OpMetaInfo))
    (resourceEnv : List (String × Workflow)) (nodes : List NodeData)
    (n : NodeData) (resource : String) (pers : Bool) (tag : Nat)
    (wfI : Workflow) (henv : dget resourceEnv resource = some wfI)
    (hmeta : wfI.node.meta = n.meta)
    (hnames_in : n.inputs.map (·.1) = n.meta.inputs.map (·.1))
    (hnames_out : n.outputs.map (·.1) = n.meta.outputs.map (·.1))
    (hnd_in : (n.inputs.map (·.1)).Nodup)
    (hnd_out : (n.outputs.map (·.1)).Nodup)
    (hsrc_in : ∀ nv ∈ n.inputs, ∀ ptr, (nv.2 : Port).source = some ptr →
      goodName (((findNodeByTag nodes ptr.tag).map (·.id)).getD "") = true
      ∧ goodName ptr.name = true)
    (hsrc_out : ∀ nv ∈ n.outputs, ∀ ptr, (nv.2 : Port).source = some ptr →
      goodName (((findNodeByTag nodes ptr.tag).map (·.id)).getD "") = true
      ∧ goodName ptr.name = true) :
    Step.from_json_dict registry resourceEnv tag
        (Step.to_json_dict nodes ⟨n, .workflowStep resource, pers⟩)
      = .ok (some ⟨⟨tag, n.id, n.meta,
          loadedAllPorts nodes n.meta.outputs n.inputs,
          loadedAllPorts nodes n.meta.outputs n.outputs⟩,
        .workflowStep resource, pers⟩) := by
  unfold Step.from_json_dict
  dsimp only [Step.to_json_dict]
  rw [henv]
  dsimp only
  unfold stepFromKind
  rw [hmeta]
  dsimp only [NodeData.new, Option.getD]
  rw [freshPorts_of_names hnames_in]
  rw [show baseInputsJson nodes n
      = n.inputs.map (fun nv => (nv.1, Port.to_json nodes n.meta.outputs nv.1 nv.2 false))
    from rfl]
  rw [populate_entries_map nodes n.meta.outputs n.meta.inputs n.inputs hnd_in hsrc_in]
  dsimp only
  rw [freshPorts_of_names hnames_out]
  rw [show baseOutputsJson nodes n
      = n.outputs.map (fun nv => (nv.1, Port.to_json nodes n.meta.outputs nv.1 nv.2 false))
    from rfl]
  rw [populate_entries_map nodes n.meta.outputs n.meta.outputs n.outputs hnd_out hsrc_out]
  dsimp only
  cases pers <;> rfl


theorem map_const_snd_eq {α β γ : Type} (c : γ) {l1 : List (String × α)}
    {l2 : List (String × β)} (h : l1.map (·.1) = l2.map (·.1)) :
    l1.map (fun nv => (nv.1, c)) = l2.map (fun nv => (nv.1, c)) := by
  have h1 : l1.map (fun nv => (nv.1, c)) = (l1.map (·.1)).map (fun nm => (nm, c)) := by
    rw [List.map_map]
    rfl
  have h2 : l2.map (fun nv => (nv.1, c)) = (l2.map (·.1)).map (fun nm => (nm, c)) := by
    rw [List.map_map]
    rfl
  rw [h1, h2, h]

theorem map_props_nil_eq {metaNs : List (String × Props)} {ports : List (String × Port)}
    (hnames : ports.map (·.1) = metaNs.map (·.1))
    (hprops : ∀ mv ∈ metaNs, mv.2 = ([] : Props)) :
    ports.map (fun nv => (nv.1, ([] : Props))) = metaNs := by
  have h1 : metaNs.map (fun mv => (mv.1, ([] : Props))) = metaNs :=
    (List.map_congr_left (fun mv hmv => by
      rw [← hprops mv hmv]
      rfl)).trans (List.map_id metaNs)
  rw [map_const_snd_eq ([] : Props) hnames, h1]

theorem entries_keys (nodes : List NodeData) (metaOuts : List (String × Props))
    (ports : List (String × Port)) :
    (ports.map (fun nv => (nv.1, Port.to_json nodes metaOuts nv.1 nv.2 false))).map (·.1)
      = ports.map (·.1) := by
  rw [List.map_map]
  rfl

theorem entries_props_nil (nodes : List NodeData) (metaOuts : List (String × Props))
    (ports : List (String × Port)) :
    (ports.map (fun nv => (nv.1, Port.to_json nodes metaOuts nv.1 nv.2 false))).map
        (fun e => (e.1, ([] : Props)))
      = ports.map (fun nv => (nv.1, ([] : Props))) := by
  rw [List.map_map]
  rfl

theorem entries_loaded (nodes : List NodeData) (metaOuts : List (String × Props))
    (ports : List (String × Port))
    (hsrc : ∀ nv ∈ ports, ∀ ptr, (nv.2 : Port).source = some ptr →
      goodName (((findNodeByTag nodes ptr.tag).map (·.id)).getD "") = true
      ∧ goodName ptr.name = true) :
    (ports.map (fun nv => (nv.1, Port.to_json nodes metaOuts nv.1 nv.2 false))).map
        (fun e => (e.1, fromJsonD e.2))
      = loadedAllPorts nodes metaOuts ports := by
  rw [List.map_map]
  unfold loadedAllPorts
  refine List.map_congr_left (fun nv hnv => ?_)
  dsimp only [Function.comp]
  have hokp := port_from_to nodes metaOuts nv.1 nv.2 (hsrc nv hnv) Port.fresh
  have hfd : fromJsonD (Port.to_json nodes metaOuts nv.1 nv.2 false)
      = portAfterLoad nodes metaOuts nv.1 nv.2 := by
    unfold fromJsonD
    rw [hokp]
  rw [hfd]

theorem entries_from_ok (nodes : List NodeData) (metaOuts : List (String × Props))
    (ports : List (String × Port))
    (hsrc : ∀ nv ∈ ports, ∀ ptr, (nv.2 : Port).source = some ptr →
      goodName (((findNodeByTag nodes ptr.tag).map (·.id)).getD "") = true
      ∧ goodName ptr.name = true) :
    ∀ e ∈ ports.map (fun nv => (nv.1, Port.to_json nodes metaOuts nv.1 nv.2 false)),
      Port.fresh.from_json (some e.2) = .ok (fromJsonD e.2) := by
  intro e he
  rcases List.mem_map.mp he with ⟨nv, hnv, heq⟩
  have hokp := port_from_to nodes metaOuts nv.1 nv.2 (hsrc nv hnv) Port.fresh
  have hfd : fromJsonD (Port.to_json nodes metaOuts nv.1 nv.2 false)
      = portAfterLoad nodes metaOuts nv.1 nv.2 := by
    unfold fromJsonD
    rw [hokp]
  rw [← heq]
  dsimp only
  rw [hokp, hfd]


/-- Round trip of the port-population phase for the step classes that
reconstruct their meta-info from the node id (`ExpressionStep`, `NoOpStep`,
`SubProcessStep`): the constructed meta-info declares no inputs and a sole
`"return"` output, so the input entries re-create every port (with empty
property maps) and the output entries re-populate `"return"` and re-create
the rest. -/
theorem stepFromKind_constructed (nodes : List NodeData) (n : NodeData) (idStr : String)
    (kind : StepKind) (sj : StepJson)
    (hin : sj.inputs = baseInputsJson nodes n)
    (hout : sj.outputs = baseOutputsJson nodes n)
    (hnames_in : n.inputs.map (·.1) = n.meta.inputs.map (·.1))
    (hnames_out : n.outputs.map (·.1) = n.meta.outputs.map (·.1))
    (hnd_in : (n.inputs.map (·.1)).Nodup)
    (hnd_out : (n.outputs.map (·.1)).Nodup)
    (hsrc_in : ∀ nv ∈ n.inputs, ∀ ptr, (nv.2 : Port).source = some ptr →
      goodName (((findNodeByTag nodes ptr.tag).map (·.id)).getD "") = true
      ∧ goodName ptr.name = true)
    (hsrc_out : ∀ nv ∈ n.outputs, ∀ ptr, (nv.2 : Port).source = some ptr →
      goodName (((findNodeByTag nodes ptr.tag).map (·.id)).getD "") = true
      ∧ goodName ptr.name = true)
    (hins_props : ∀ mv ∈ n.meta.inputs, mv.2 = ([] : Props))
    (houts_props : ∀ mv ∈ n.meta.outputs, mv.2 = ([] : Props))
    (hhead : (n.meta.outputs.map (·.1)).head? = some RETURN_NAME)
    (tag : Nat) :
    stepFromKind tag idStr (expressionMeta idStr) kind sj
      = .ok ⟨⟨tag, idStr, ⟨idStr, [], n.meta.inputs, n.meta.outputs, true⟩,
          loadedAllPorts nodes n.meta.outputs n.inputs,
          loadedAllPorts nodes n.meta.outputs n.outputs⟩,
        kind, sj.persistent.getD false⟩ := by
  obtain ⟨restM, hmO⟩ : ∃ restM, n.meta.outputs = (RETURN_NAME, ([] : Props)) :: restM := by
    rcases hM : n.meta.outputs with _ | ⟨⟨m0, pr0⟩, restM⟩
    · rw [hM] at hhead
      exact absurd hhead (by simp)
    · have h0 : m0 = RETURN_NAME := by
        rw [hM] at hhead
        simpa using hhead
      have h1 : pr0 = [] := houts_props (m0, pr0) (by rw [hM]; simp)
      exact ⟨restM, by rw [h0, h1]⟩
  obtain ⟨p0, restP, hpO⟩ : ∃ p0 restP, n.outputs = (RETURN_NAME, p0) :: restP := by
    rcases hP : n.outputs with _ | ⟨⟨q0, p0⟩, restP⟩
    · rw [hP, hmO] at hnames_out
      exact absurd hnames_out (by simp)
    · have h2 := hnames_out
      rw [hP, hmO] at h2
      simp at h2
      exact ⟨p0, restP, by rw [h2.1]⟩
  have hndr : RETURN_NAME ∉ restP.map (·.1) ∧ (restP.map (·.1)).Nodup := by
    rw [hpO] at hnd_out
    exact List.nodup_cons.mp hnd_out
  unfold stepFromKind
  dsimp only [expressionMeta, NodeData.new, List.map]
  rw [hin]
  rw [show baseInputsJson nodes n
      = n.inputs.map (fun nv => (nv.1, Port.to_json nodes n.meta.outputs nv.1 nv.2 false))
    from rfl]
  rw [populate_append (fun _ pj => fromJsonD pj) _ [] []
    (by rw [entries_keys]; exact hnd_in)
    (by intro e _; simp)
    (by intro e _; simp)
    (entries_from_ok nodes n.meta.outputs n.inputs hsrc_in)]
  dsimp only
  rw [entries_props_nil, entries_loaded nodes n.meta.outputs n.inputs hsrc_in]
  rw [List.nil_append, List.nil_append]
  rw [map_props_nil_eq hnames_in hins_props]
  rw [hout]
  rw [show baseOutputsJson nodes n
      = n.outputs.map (fun nv => (nv.1, Port.to_json nodes n.meta.outputs nv.1 nv.2 false))
    from rfl]
  rw [hpO, List.map_cons]
  rw [populatePorts_cons]
  have hone : populateOne [(RETURN_NAME, ([] : Props))] [(RETURN_NAME, Port.fresh)]
      ((RETURN_NAME, Port.to_json nodes n.meta.outputs RETURN_NAME p0 false) : String × PortJson).1
      ((RETURN_NAME, Port.to_json nodes n.meta.outputs RETURN_NAME p0 false) : String × PortJson).2
      = .ok ([(RETURN_NAME, ([] : Props))],
          [(RETURN_NAME, portAfterLoad nodes n.meta.outputs RETURN_NAME p0)]) := by
    unfold populateOne
    dsimp only
    rw [show dget [(RETURN_NAME, Port.fresh)] RETURN_NAME = some Port.fresh from rfl]
    dsimp only
    have hokp := port_from_to nodes n.meta.outputs RETURN_NAME p0
      (hsrc_out (RETURN_NAME, p0) (by rw [hpO]; simp)) Port.fresh
    rw [from_json_receiver Port.fresh Port.fresh, hokp]
    rfl
  rw [hone]
  dsimp only
  rw [populate_append (fun _ pj => fromJsonD pj) _ _ _
    (by rw [entries_keys]; exact hndr.2)
    (by
      intro e he hc
      rcases List.mem_map.mp he with ⟨nv, hnv, heq⟩
      have he1 : e.1 = nv.1 := by rw [← heq]
      have hmem : nv.1 ∈ restP.map (·.1) := List.mem_map_of_mem _ hnv
      have : e.1 = RETURN_NAME := by simpa using hc
      exact hndr.1 (by rw [← he1, this] at hmem; exact hmem)
    )
    (by
      intro e he hc
      rcases List.mem_map.mp he with ⟨nv, hnv, heq⟩
      have he1 : e.1 = nv.1 := by rw [← heq]
      have hmem : nv.1 ∈ restP.map (·.1) := List.mem_map_of_mem _ hnv
      have : e.1 = RETURN_NAME := by simpa using hc
      exact hndr.1 (by rw [← he1, this] at hmem; exact hmem)
    )
    (entries_from_ok nodes n.meta.outputs restP
      (fun nv hnv => hsrc_out nv (by rw [hpO]; exact List.mem_cons_of_mem _ hnv)))]
  dsimp only
  rw [entries_props_nil, entries_loaded nodes n.meta.outputs restP
    (fun nv hnv => hsrc_out nv (by rw [hpO]; exact List.mem_cons_of_mem _ hnv))]
  rw [show ([(RETURN_NAME, ([] : Props))] : List (String × Props))
        ++ restP.map (fun nv => (nv.1, ([] : Props)))
      = (RETURN_NAME, ([] : Props)) :: restP.map (fun nv => (nv.1, ([] : Props))) from rfl]
  have hrestM : restP.map (fun nv => (nv.1, ([] : Props))) = restM := by
    refine map_props_nil_eq ?_ (fun mv hmv => houts_props mv (by rw [hmO]; simp [hmv]))
    have h2 := hnames_out
    rw [hpO, hmO] at h2
    simp at h2
    exact h2
  rw [hrestM, ← hmO]
  have hload : ([(RETURN_NAME, portAfterLoad nodes n.meta.outputs RETURN_NAME p0)]
        : List (String × Port)) ++ loadedAllPorts nodes n.meta.outputs restP
      = loadedAllPorts nodes n.meta.outputs n.outputs := by
    rw [hpO]
    rfl
  rw [hload]
  rw [hpO]
  rfl


theorem truthyStr_eq {c : Option String} (h : c ≠ some "") : truthyStr c = c := by
  rcases c with _ | s
  · rfl
  · unfold truthyStr
    dsimp only
    rw [if_neg (fun he => h (congrArg some he))]

theorem truthyEnv_eq {c : Option (List (String × String))} (h : c ≠ some []) :
    truthyEnv c = c := by
  rcases c with _ | s
  · rfl
  · unfold truthyEnv
    dsimp only
    rw [if_neg (fun he => h (congrArg some he))]

/-- Round trip of a single `ExpressionStep` through its JSON dictionary. -/
theorem exprStep_from_to (registry : List (String × OpMetaInfo))
    (resourceEnv : List (String × Workflow)) (nodes : List NodeData)
    (n : NodeData) (e : String) (pers : Bool) (tag : Nat)
    (he : e ≠ "")
    (hnames_in : n.inputs.map (·.1) = n.meta.inputs.map (·.1))
    (hnames_out : n.outputs.map (·.1) = n.meta.outputs.map (·.1))
    (hnd_in : (n.inputs.map (·.1)).Nodup)
    (hnd_out : (n.outputs.map (·.1)).Nodup)
    (hsrc_in : ∀ nv ∈ n.inputs, ∀ ptr, (nv.2 : Port).source = some ptr →
      goodName (((findNodeByTag nodes ptr.tag).map (·.id)).getD "") = true
      ∧ goodName ptr.name = true)
    (hsrc_out : ∀ nv ∈ n.outputs, ∀ ptr, (nv.2 : Port).source = some ptr →
      goodName (((findNodeByTag nodes ptr.tag).map (·.id)).getD "") = true
      ∧ goodName ptr.name = true)
    (hins_props : ∀ mv ∈ n.meta.inputs, mv.2 = ([] : Props))
    (houts_props : ∀ mv ∈ n.meta.outputs, mv.2 = ([] : Props))
    (hhead : (n.meta.outputs.map (·.1)).head? = some RETURN_NAME) :
    Step.from_json_dict registry resourceEnv tag
        (Step.to_json_dict nodes ⟨n, .exprStep e, pers⟩)
      = .ok (some ⟨⟨tag, n.id, ⟨n.id, [], n.meta.inputs, n.meta.outputs, true⟩,
          loadedAllPorts nodes n.meta.outputs n.inputs,
          loadedAllPorts nodes n.meta.outputs n.outputs⟩,
        .exprStep e, pers⟩) := by
  unfold Step.from_json_dict
  dsimp only [Step.to_json_dict]
  rw [if_neg he]
  dsimp only [Option.getD]
  rw [stepFromKind_constructed nodes n n.id (.exprStep e) _ rfl rfl hnames_in hnames_out
    hnd_in hnd_out hsrc_in hsrc_out hins_props houts_props hhead tag]
  cases pers <;> rfl

/-- Round trip of a single `NoOpStep` through its JSON dictionary. -/
theorem noOpStep_from_to (registry : List (String × OpMetaInfo))
    (resourceEnv : List (String × Workflow)) (nodes : List NodeData)
    (n : NodeData) (pers : Bool) (tag : Nat)
    (hnames_in : n.inputs.map (·.1) = n.meta.inputs.map (·.1))
    (hnames_out : n.outputs.map (·.1) = n.meta.outputs.map (·.1))
    (hnd_in : (n.inputs.map (·.1)).Nodup)
    (hnd_out : (n.outputs.map (·.1)).Nodup)
    (hsrc_in : ∀ nv ∈ n.inputs, ∀ ptr, (nv.2 : Port).source = some ptr →
      goodName (((findNodeByTag nodes ptr.tag).map (·.id)).getD "") = true
      ∧ goodName ptr.name = true)
    (hsrc_out : ∀ nv ∈ n.outputs, ∀ ptr, (nv.2 : Port).source = some ptr →
      goodName (((findNodeByTag nodes ptr.tag).map (·.id)).getD "") = true
      ∧ goodName ptr.name = true)
    (hins_props : ∀ mv ∈ n.meta.inputs, mv.2 = ([] : Props))
    (houts_props : ∀ mv ∈ n.meta.outputs, mv.2 = ([] : Props))
    (hhead : (n.meta.outputs.map (·.1)).head? = some RETURN_NAME) :
    Step.from_json_dict registry resourceEnv tag
        (Step.to_json_dict nodes ⟨n, .noOpStep, pers⟩)
      = .ok (some ⟨⟨tag, n.id, ⟨n.id, [], n.meta.inputs, n.meta.outputs, true⟩,
          loadedAllPorts nodes n.meta.outputs n.inputs,
          loadedAllPorts nodes n.meta.outputs n.outputs⟩,
        .noOpStep, pers⟩) := by
  unfold Step.from_json_dict
  dsimp only [Step.to_json_dict]
  dsimp only [Option.getD]
  rw [show noOpMeta n.id = expressionMeta n.id from rfl]
  rw [stepFromKind_constructed nodes n n.id .noOpStep _ rfl rfl hnames_in hnames_out
    hnd_in hnd_out hsrc_in hsrc_out hins_props houts_props hhead tag]
  cases pers <;> rfl

/-- Round trip of a single `SubProcessStep` through its JSON dictionary. -/
theorem subProcessStep_from_to (registry : List (String × OpMetaInfo))
    (resourceEnv : List (String × Workflow)) (nodes : List NodeData)
    (n : NodeData) (cmd : String) (rp : Bool) (cwd : Option String)
    (env : Option (List (String × String))) (sh : Bool)
    (sre pre dre : Option String) (pers : Bool) (tag : Nat)
    (hc : cmd ≠ "") (hcwd : cwd ≠ some "") (henv : env ≠ some [])
    (hsre : sre ≠ some "") (hpre : pre ≠ some "") (hdre : dre ≠ some "")
    (hnames_in : n.inputs.map (·.1) = n.meta.inputs.map (·.1))
    (hnames_out : n.outputs.map (·.1) = n.meta.outputs.map (·.1))
    (hnd_in : (n.inputs.map (·.1)).Nodup)
    (hnd_out : (n.outputs.map (·.1)).Nodup)
    (hsrc_in : ∀ nv ∈ n.inputs, ∀ ptr, (nv.2 : Port).source = some ptr →
      goodName (((findNodeByTag nodes ptr.tag).map (·.id)).getD "") = true
      ∧ goodName ptr.name = true)
    (hsrc_out : ∀ nv ∈ n.outputs, ∀ ptr, (nv.2 : Port).source = some ptr →
      goodName (((findNodeByTag nodes ptr.tag).map (·.id)).getD "") = true
      ∧ goodName ptr.name = true)
    (hins_props : ∀ mv ∈ n.meta.inputs, mv.2 = ([] : Props))
    (houts_props : ∀ mv ∈ n.meta.outputs, mv.2 = ([] : Props))
    (hhead : (n.meta.outputs.map (·.1)).head? = some RETURN_NAME) :
    Step.from_json_dict registry resourceEnv tag
        (Step.to_json_dict nodes
          ⟨n, .subProcessStep cmd rp cwd env sh sre pre dre, pers⟩)
      = .ok (some ⟨⟨tag, n.id, ⟨n.id, [], n.meta.inputs, n.meta.outputs, true⟩,
          loadedAllPorts nodes n.meta.outputs n.inputs,
          loadedAllPorts nodes n.meta.outputs n.outputs⟩,
        .subProcessStep cmd rp cwd env sh sre pre dre, pers⟩) := by
  unfold Step.from_json_dict
  dsimp only [Step.to_json_dict]
  rw [if_neg hc]
  rw [show ((some n.id).getD (autoId tag) : String) = n.id from rfl]
  rw [show subProcessMeta n.id = expressionMeta n.id from rfl]
  rw [truthyStr_eq hcwd, truthyEnv_eq henv, truthyStr_eq hsre, truthyStr_eq hpre,
    truthyStr_eq hdre]
  rw [stepFromKind_constructed nodes n n.id
    (.subProcessStep cmd ((if rp then some true else none).getD false) cwd env
      ((if sh then some true else none).getD false) sre pre dre)
    _ rfl rfl hnames_in hnames_out hnd_in hnd_out hsrc_in hsrc_out hins_props
    houts_props hhead tag]
  cases pers <;> cases rp <;> cases sh <;> rfl


/-! ### All steps through the JSON loop -/

/-- The conditions under which a step's JSON dictionary re-loads cleanly
for the meta-constructing step classes. -/
def ConstructedOk (s : Step) : Prop :=
  (∀ mv ∈ s.node.meta.inputs, mv.2 = ([] : Props))
  ∧ (∀ mv ∈ s.node.meta.outputs, mv.2 = ([] : Props))
  ∧ (s.node.meta.outputs.map (·.1)).head? = some RETURN_NAME
  ∧ s.node.meta.qualified_name = s.node.id
  ∧ s.node.meta.header = []
  ∧ s.node.meta.can_cache = true

/-- Per-step serializability: well-formed port namespaces, decodable source
references, and the kind-specific reconstruction conditions. -/
def StepOk (registry : List (String × OpMetaInfo))
    (resourceEnv : List (String × Workflow)) (nodes : List NodeData) (s : Step) : Prop :=
  (s.node.inputs.map (·.1) = s.node.meta.inputs.map (·.1))
  ∧ (s.node.outputs.map (·.1) = s.node.meta.outputs.map (·.1))
  ∧ (s.node.inputs.map (·.1)).Nodup
  ∧ (s.node.outputs.map (·.1)).Nodup
  ∧ (∀ nv ∈ s.node.inputs, ∀ ptr, (nv.2 : Port).source = some ptr →
      goodName (((findNodeByTag nodes ptr.tag).map (·.id)).getD "") = true
      ∧ goodName ptr.name = true)
  ∧ (∀ nv ∈ s.node.outputs, ∀ ptr, (nv.2 : Port).source = some ptr →
      goodName (((findNodeByTag nodes ptr.tag).map (·.id)).getD "") = true
      ∧ goodName ptr.name = true)
  ∧ (match s.kind with
    | .opStep opName => dget registry s.node.meta.qualified_name = some s.node.meta
        ∧ s.node.meta.qualified_name ≠ "" ∧ opName = s.node.meta.qualified_name
    | .workflowStep r => ∃ wfI, dget resourceEnv r = some wfI ∧ wfI.node.meta = s.node.meta
    | .exprStep e => e ≠ "" ∧ ConstructedOk s
    | .noOpStep => ConstructedOk s
    | .subProcessStep c _ cwd env _ sre pre dre => c ≠ "" ∧ cwd ≠ some ""
        ∧ env ≠ some [] ∧ sre ≠ some "" ∧ pre ≠ some "" ∧ dre ≠ some ""
        ∧ ConstructedOk s)

/-- The step `Step.from_json_dict` reconstructs from a serialized step: the
same id, kind and persistence on a fresh node whose ports are re-loaded
(and, for the meta-constructing classes, whose meta-info is rebuilt from
the node id). -/
def stepLoaded (nodes : List NodeData) (tag : Nat) (s : Step) : Step :=
  match s.kind with
  | .opStep _ =>
    ⟨⟨tag, s.node.id, s.node.meta,
      loadedPorts nodes s.node.meta.outputs (opKeepB nodes s.node) s.node.inputs,
      s.node.meta.outputs.map (fun mv => (mv.1, Port.fresh))⟩,
     .opStep s.node.meta.qualified_name, s.persistent⟩
  | .workflowStep r =>
    ⟨⟨tag, s.node.id, s.node.meta,
      loadedAllPorts nodes s.node.meta.outputs s.node.inputs,
      loadedAllPorts nodes s.node.meta.outputs s.node.outputs⟩,
     .workflowStep r, s.persistent⟩
  | k =>
    ⟨⟨tag, s.node.id, ⟨s.node.id, [], s.node.meta.inputs, s.node.meta.outputs, true⟩,
      loadedAllPorts nodes s.node.meta.outputs s.node.inputs,
      loadedAllPorts nodes s.node.meta.outputs s.node.outputs⟩,
     k, s.persistent⟩

theorem stepLoaded_id (nodes : List NodeData) (tag : Nat) (s : Step) :
    (stepLoaded nodes tag s).node.id = s.node.id := by
  rcases s with ⟨n, kind, pers⟩
  rcases kind <;> rfl

theorem stepLoaded_tag (nodes : List NodeData) (tag : Nat) (s : Step) :
    (stepLoaded nodes tag s).node.tag = tag := by
  rcases s with ⟨n, kind, pers⟩
  rcases kind <;> rfl

theorem step_from_to (registry : List (String × OpMetaInfo))
    (resourceEnv : List (String × Workflow)) (nodes : List NodeData)
    (s : Step) (tag : Nat) (hok : StepOk registry resourceEnv nodes s) :
    Step.from_json_dict registry resourceEnv tag (Step.to_json_dict nodes s)
      = .ok (some (stepLoaded nodes tag s)) := by
  obtain ⟨h1, h2, h3, h4, h5, h6, hk⟩ := hok
  rcases s with ⟨n, kind, pers⟩
  rcases kind with opName | r | e | _ | ⟨c, rp, cwd, env, sh, sre, pre, dre⟩
  · obtain ⟨hreg, hqn, _⟩ := hk
    exact opStep_from_to registry resourceEnv nodes n opName pers tag hreg hqn h1 h3 h5
  · obtain ⟨wfI, henv, hmeta⟩ := hk
    exact workflowStep_from_to registry resourceEnv nodes n r pers tag wfI henv hmeta
      h1 h2 h3 h4 h5 h6
  · obtain ⟨he, hip, hop, hhd, hqn, hh, hc⟩ := hk
    have h := exprStep_from_to registry resourceEnv nodes n e pers tag he h1 h2 h3 h4
      h5 h6 hip hop hhd
    rw [h]
    unfold stepLoaded
    rw [hqn]
  · obtain ⟨hip, hop, hhd, hqn, hh, hc⟩ := hk
    have h := noOpStep_from_to registry resourceEnv nodes n pers tag h1 h2 h3 h4
      h5 h6 hip hop hhd
    rw [h]
    unfold stepLoaded
    rw [hqn]
  · obtain ⟨hcm, hcwd, henv2, hsre, hpre, hdre, hip, hop, hhd, hqn, hh, hc⟩ := hk
    have h := subProcessStep_from_to registry resourceEnv nodes n c rp cwd env sh
      sre pre dre pers tag hcm hcwd henv2 hsre hpre hdre h1 h2 h3 h4 h5 h6 hip hop hhd
    rw [h]
    unfold stepLoaded
    rw [hqn]

/-- The loaded step list: fresh identities assigned in order. -/
def stepsLoaded (nodes : List NodeData) : Nat → List Step → List Step
  | _, [] => []
  | tag, s :: rest => stepLoaded nodes tag s :: stepsLoaded nodes (tag + 1) rest

theorem steps_from_to (registry : List (String × OpMetaInfo))
    (resourceEnv : List (String × Workflow)) (nodes : List NodeData) :
    ∀ (steps : List Step) (tag idx : Nat),
      (∀ s ∈ steps, StepOk registry resourceEnv nodes s) →
      stepsFromJson registry resourceEnv tag idx (steps.map (Step.to_json_dict nodes))
        = .ok (stepsLoaded nodes tag steps) := by
  intro steps
  induction steps with
  | nil =>
    intro tag idx _
    rfl
  | cons s rest ih =>
    intro tag idx hok
    rw [List.map_cons]
    unfold stepsFromJson
    rw [step_from_to registry resourceEnv nodes s tag (hok s (by simp))]
    rw [ih (tag + 1) (idx + 1) (fun x hx => hok x (by simp [hx]))]
    rfl


/-- Adding steps with fresh distinct ids appends them and extends the step
dictionary in order. -/
theorem add_steps_fresh :
    ∀ (steps : List Step) (w : Workflow),
      (∀ s ∈ steps, s.node.id ∉ w.stepsDict.map (·.1)) →
      ((steps.map (fun s => s.node.id)).Nodup) →
      Workflow.add_steps w steps false
        = .ok { w with
                steps := w.steps ++ steps,
                stepsDict := w.stepsDict ++ steps.map (fun s => (s.node.id, s.node.tag)) } := by
  intro steps
  induction steps with
  | nil =>
    intro w _ _
    show Except.ok w = _
    simp
  | cons st rest ih =>
    intro w hmem hnd
    rcases List.nodup_cons.mp hnd with ⟨hid1, hndr⟩
    unfold Workflow.add_steps
    rw [List.foldlM_cons]
    have hstep : Workflow.add_step w st false
        = .ok { w with
                steps := w.steps ++ [st],
                stepsDict := w.stepsDict ++ [(st.node.id, st.node.tag)] } := by
      unfold Workflow.add_step
      rw [dget_none_of_not_mem (hmem st (by simp))]
      dsimp only
      rw [dset_append_missing w.stepsDict st.node.id st.node.tag (hmem st (by simp))]
    rw [hstep]
    have hih := ih { w with
                     steps := w.steps ++ [st],
                     stepsDict := w.stepsDict ++ [(st.node.id, st.node.tag)] }
      (by
        intro s hs hc
        rw [List.map_append, List.mem_append] at hc
        rcases hc with hc | hc
        · exact hmem s (by simp [hs]) hc
        · have hse : s.node.id = st.node.id := by simpa using hc
          exact absurd (List.mem_map.mpr ⟨s, hs, hse⟩) hid1)
      hndr
    show Workflow.add_steps { w with
                              steps := w.steps ++ [st],
                              stepsDict := w.stepsDict ++ [(st.node.id, st.node.tag)] }
        rest false = _
    rw [hih]
    simp

/-! ### Loading the workflow's own ports from the serialized root entries -/

theorem dget_mem {α : Type} :
    ∀ {d : List (String × α)} {k : String} {v : α}, dget d k = some v → (k, v) ∈ d := by
  intro d
  induction d with
  | nil => intro k v h; exact absurd h (by simp [dget])
  | cons a rest ih =>
    intro k v h
    rcases a with ⟨k1, v1⟩
    by_cases he : k1 = k
    · rw [dget, if_pos he] at h
      injection h with h
      rw [he, h]
      exact List.mem_cons_self _ _
    · rw [dget, if_neg he] at h
      exact List.mem_cons_of_mem _ (ih h)

theorem dget_map_self {α β : Type} (f : (String × α) → β) :
    ∀ (l : List (String × α)), (l.map (·.1)).Nodup → ∀ nv ∈ l,
      dget (l.map (fun x => (x.1, f x))) nv.1 = some (f nv) := by
  intro l
  induction l with
  | nil =>
    intro _ nv hnv
    exact absurd hnv (by simp)
  | cons a rest ih =>
    intro hnd nv hnv
    rcases List.nodup_cons.mp hnd with ⟨ha, hndr⟩
    rcases List.mem_cons.mp hnv with he | hm
    · rw [he]
      simp [dget]
    · have hne : a.1 ≠ nv.1 := by
        intro hc
        exact ha (List.mem_map.mpr ⟨nv, hm, hc.symm⟩)
      rw [List.map_cons, dget, if_neg hne]
      exact ih hndr nv hm

/-- Merging a clean property map into a dictionary it shares no keys with
appends it (`dict.update` on disjoint keys). -/
theorem dupdate_disjoint {α : Type} :
    ∀ (m d : List (String × α)), (m.map (·.1)).Nodup →
      (∀ kv ∈ m, kv.1 ∉ d.map (·.1)) → dupdate d m = d ++ m := by
  intro m
  induction m with
  | nil =>
    intro d _ _
    simp [dupdate]
  | cons kv rest ih =>
    intro d hnd hdisj
    rcases List.nodup_cons.mp hnd with ⟨hk, hndr⟩
    have h1 : dupdate d (kv :: rest) = dupdate (dset d kv.1 kv.2) rest := rfl
    rw [h1, dset_append_missing d kv.1 kv.2 (hdisj kv (by simp))]
    rw [ih (d ++ [(kv.1, kv.2)]) hndr (by
      intro x hx hc
      rw [List.map_append, List.mem_append] at hc
      rcases hc with hc | hc
      · exact hdisj x (by simp [hx]) hc
      · have hxe : x.1 = kv.1 := by simpa using hc
        exact hk (List.mem_map.mpr ⟨x, hx, hxe⟩))]
    rw [List.append_assoc]
    rfl

/-- The root entry a port serializes to: its forced-dict JSON
(`to_json(force_dict=True)` always yields a dictionary). -/
def forcedDict (nodes : List NodeData) (metaOuts : List (String × Props))
    (nm : String) (p : Port) : Props :=
  match Port.to_json nodes metaOuts nm p true with
  | .obj d => d
  | .src s => [("source", .prim (.vstr s))]

theorem to_json_dict_inputs (w : Workflow) :
    (Workflow.to_json_dict w).inputs = w.node.inputs.map (fun nv =>
      (nv.1, match dget w.node.meta.inputs nv.1 with
        | some props => dupdate (forcedDict w.allNodes w.node.meta.outputs nv.1 nv.2) props
        | none => forcedDict w.allNodes w.node.meta.outputs nv.1 nv.2)) := rfl

theorem to_json_dict_outputs (w : Workflow) :
    (Workflow.to_json_dict w).outputs = w.node.outputs.map (fun nv =>
      (nv.1, match dget w.node.meta.outputs nv.1 with
        | some props => dupdate (forcedDict w.allNodes w.node.meta.outputs nv.1 nv.2) props
        | none => forcedDict w.allNodes w.node.meta.outputs nv.1 nv.2)) := rfl

theorem forcedDict_src (nodes : List NodeData) (metaOuts : List (String × Props))
    (nm : String) (p : Port) (ptr : PortPtr) (h : p.source = some ptr) :
    forcedDict nodes metaOuts nm p = [("source", .prim (.vstr (strOfPtr nodes ptr)))] := by
  unfold forcedDict Port.to_json
  rw [h]
  rfl

theorem forcedDict_undef (nodes : List NodeData) (metaOuts : List (String × Props))
    (nm : String) (p : Port) (h : p.source = none) (hu : p.pval = .vundef) :
    forcedDict nodes metaOuts nm p = [] := by
  unfold forcedDict Port.to_json
  rw [h]
  dsimp only
  simp only [if_pos hu]

theorem forcedDict_out (nodes : List NodeData) (metaOuts : List (String × Props))
    (nm : String) (p : Port) (h : p.source = none) (hu : p.pval ≠ .vundef)
    (ho : (dget metaOuts nm).isSome) :
    forcedDict nodes metaOuts nm p = [] := by
  unfold forcedDict Port.to_json
  rw [h]
  dsimp only
  simp only [if_neg hu, if_pos ho]

theorem forcedDict_val (nodes : List NodeData) (metaOuts : List (String × Props))
    (nm : String) (p : Port) (h : p.source = none) (hu : p.pval ≠ .vundef)
    (ho : ¬ (dget metaOuts nm).isSome) :
    forcedDict nodes metaOuts nm p = [("value", p.pval)] := by
  unfold forcedDict Port.to_json
  rw [h]
  dsimp only
  simp only [if_neg hu, if_neg ho]

/-- Re-loading a root port from its forced-dict JSON merged with a clean
declared property map reproduces the `portAfterLoad` state. -/
theorem port_from_to_forced (nodes : List NodeData) (metaOuts : List (String × Props))
    (nm : String) (p : Port) (props : Props) (q : Port)
    (hgood : ∀ ptr, p.source = some ptr →
      goodName (((findNodeByTag nodes ptr.tag).map (·.id)).getD "") = true
      ∧ goodName ptr.name = true)
    (hnd : (props.map (·.1)).Nodup)
    (hs : "source" ∉ props.map (·.1)) (hv : "value" ∉ props.map (·.1)) :
    Port.from_json q (some (.obj (dupdate (forcedDict nodes metaOuts nm p) props)))
      = .ok (portAfterLoad nodes metaOuts nm p) := by
  have hdis : ∀ (d : Props), d.map (·.1) = ["source"] ∨ d.map (·.1) = []
      ∨ d.map (·.1) = ["value"] →
      dupdate d props = d ++ props := by
    intro d hd
    refine dupdate_disjoint props d hnd ?_
    intro kv hkv hc
    rcases hd with hd | hd | hd <;> rw [hd] at hc
    · exact hs ((List.mem_singleton.mp hc) ▸ List.mem_map.mpr ⟨kv, hkv, rfl⟩)
    · exact absurd hc (by simp)
    · exact hv ((List.mem_singleton.mp hc) ▸ List.mem_map.mpr ⟨kv, hkv, rfl⟩)
  have hsn : dget props "source" = none :=
    dget_none_of_not_mem hs
  have hvn : dget props "value" = none :=
    dget_none_of_not_mem hv
  rcases hsrc : p.source with _ | ptr
  · by_cases hu : p.pval = .vundef
    · rw [forcedDict_undef nodes metaOuts nm p hsrc hu]
      rw [hdis [] (Or.inr (Or.inl rfl))]
      rw [from_json_obj_append q [] props hsn hvn]
      unfold portAfterLoad
      rw [hsrc]
      dsimp only
      simp only [if_pos hu]
      rfl
    · by_cases ho : (dget metaOuts nm).isSome
      · rw [forcedDict_out nodes metaOuts nm p hsrc hu ho]
        rw [hdis [] (Or.inr (Or.inl rfl))]
        rw [from_json_obj_append q [] props hsn hvn]
        unfold portAfterLoad
        rw [hsrc]
        dsimp only
        simp only [if_neg hu, if_pos ho]
        rfl
      · rw [forcedDict_val nodes metaOuts nm p hsrc hu ho]
        rw [hdis [("value", p.pval)] (Or.inr (Or.inr rfl))]
        rw [from_json_obj_append q [("value", p.pval)] props hsn hvn]
        unfold portAfterLoad
        rw [hsrc]
        dsimp only
        simp only [if_neg hu, if_neg ho]
        rfl
  · rw [forcedDict_src nodes metaOuts nm p ptr hsrc]
    rw [hdis [("source", .prim (.vstr (strOfPtr nodes ptr)))] (Or.inl rfl)]
    rw [from_json_obj_append q [("source", .prim (.vstr (strOfPtr nodes ptr)))] props hsn hvn]
    unfold portAfterLoad
    rw [hsrc]
    rcases goodName_split (hgood ptr hsrc).1 with ⟨hn1, hn2⟩
    rcases goodName_split (hgood ptr hsrc).2 with ⟨hm1, hm2⟩
    unfold Port.from_json
    dsimp only
    rw [show dget [("source", PyVal.prim (.vstr (strOfPtr nodes ptr)))] "source"
        = some (PyVal.prim (.vstr (strOfPtr nodes ptr))) from rfl]
    rw [show dget [("source", PyVal.prim (.vstr (strOfPtr nodes ptr)))] "value"
        = none from rfl]
    unfold strOfPtr srefOfPtr
    by_cases hr : ptr.name = RETURN_NAME
    · simp only [if_pos hr]
      rw [parse_portRef_short _ hn1 hn2]
      rfl
    · simp only [if_neg hr]
      rw [parse_portRef_long _ _ hn1 hm2 hm1]
      rfl

/-- The root-port population loop on a namespace of fresh ports keyed like
the original ports, each entry re-loading to its `portAfterLoad` state. -/
theorem mapME_fresh_loaded (wjIns : List (String × Props)) (T : String × Port → Port) :
    ∀ (orig : List (String × Port)),
      (∀ nv ∈ orig, Port.from_json Port.fresh ((dget wjIns nv.1).map .obj) = .ok (T nv)) →
      mapME (fun nv => ((nv.2 : Port).from_json ((dget wjIns nv.1).map .obj)).map
          (fun p => (nv.1, p)))
          (orig.map (fun nv => (nv.1, Port.fresh)))
        = .ok (orig.map (fun nv => (nv.1, T nv))) := by
  intro orig
  induction orig with
  | nil => intro _; rfl
  | cons nv rest ih =>
    intro h
    rw [List.map_cons, List.map_cons]
    unfold mapME
    rw [show ((nv.1, Port.fresh).2 : Port).from_json ((dget wjIns (nv.1, Port.fresh).1).map .obj)
        = Port.from_json Port.fresh ((dget wjIns nv.1).map .obj) from rfl]
    rw [h nv (by simp)]
    rw [ih (fun x hx => h x (by simp [hx]))]
    rfl

/-- The root node's ports after `Workflow.from_json_dict` re-populates them
from the serialized entries (before `update_sources`). -/
def rootLoadedPorts (w : Workflow) (ports : List (String × Port)) : List (String × Port) :=
  ports.map (fun nv => (nv.1, portAfterLoad w.allNodes w.node.meta.outputs nv.1 nv.2))

theorem rootPorts_from_to (w w1 : Workflow)
    (hins : w1.node.inputs
      = (Workflow.to_json_dict w).inputs.map (fun mv => (mv.1, Port.fresh)))
    (houts : w1.node.outputs
      = (Workflow.to_json_dict w).outputs.map (fun mv => (mv.1, Port.fresh)))
    (hndI : (w.node.inputs.map (·.1)).Nodup)
    (hndO : (w.node.outputs.map (·.1)).Nodup)
    (hgoodI : ∀ nv ∈ w.node.inputs, ∀ ptr, (nv.2 : Port).source = some ptr →
      goodName (((findNodeByTag w.allNodes ptr.tag).map (·.id)).getD "") = true
      ∧ goodName ptr.name = true)
    (hgoodO : ∀ nv ∈ w.node.outputs, ∀ ptr, (nv.2 : Port).source = some ptr →
      goodName (((findNodeByTag w.allNodes ptr.tag).map (·.id)).getD "") = true
      ∧ goodName ptr.name = true)
    (hpropsI : ∀ mv ∈ w.node.meta.inputs, ((mv.2 : Props).map (·.1)).Nodup
      ∧ "source" ∉ (mv.2 : Props).map (·.1) ∧ "value" ∉ (mv.2 : Props).map (·.1))
    (hpropsO : ∀ mv ∈ w.node.meta.outputs, ((mv.2 : Props).map (·.1)).Nodup
      ∧ "source" ∉ (mv.2 : Props).map (·.1) ∧ "value" ∉ (mv.2 : Props).map (·.1)) :
    rootPortsFromJson w1 (Workflow.to_json_dict w)
      = .ok { w1 with node := { w1.node with
          inputs := rootLoadedPorts w w.node.inputs,
          outputs := rootLoadedPorts w w.node.outputs } } := by
  have hfreshI : (Workflow.to_json_dict w).inputs.map (fun mv => (mv.1, Port.fresh))
      = w.node.inputs.map (fun nv => (nv.1, Port.fresh)) := by
    rw [to_json_dict_inputs, List.map_map]
    rfl
  have hfreshO : (Workflow.to_json_dict w).outputs.map (fun mv => (mv.1, Port.fresh))
      = w.node.outputs.map (fun nv => (nv.1, Port.fresh)) := by
    rw [to_json_dict_outputs, List.map_map]
    rfl
  have hentI : ∀ nv ∈ w.node.inputs,
      Port.from_json Port.fresh ((dget (Workflow.to_json_dict w).inputs nv.1).map .obj)
        = .ok (portAfterLoad w.allNodes w.node.meta.outputs nv.1 nv.2) := by
    intro nv hnv
    rw [to_json_dict_inputs]
    rw [dget_map_self _ w.node.inputs hndI nv hnv]
    rcases hp : dget w.node.meta.inputs nv.1 with _ | props
    · dsimp only [Option.map]
      exact port_from_to_forced w.allNodes w.node.meta.outputs nv.1 nv.2 [] Port.fresh
        (hgoodI nv hnv) (by simp) (by simp) (by simp)
    · dsimp only [Option.map]
      obtain ⟨hq1, hq2, hq3⟩ := hpropsI (nv.1, props) (dget_mem hp)
      exact port_from_to_forced w.allNodes w.node.meta.outputs nv.1 nv.2 props Port.fresh
        (hgoodI nv hnv) hq1 hq2 hq3
  have hentO : ∀ nv ∈ w.node.outputs,
      Port.from_json Port.fresh ((dget (Workflow.to_json_dict w).outputs nv.1).map .obj)
        = .ok (portAfterLoad w.allNodes w.node.meta.outputs nv.1 nv.2) := by
    intro nv hnv
    rw [to_json_dict_outputs]
    rw [dget_map_self _ w.node.outputs hndO nv hnv]
    rcases hp : dget w.node.meta.outputs nv.1 with _ | props
    · dsimp only [Option.map]
      exact port_from_to_forced w.allNodes w.node.meta.outputs nv.1 nv.2 [] Port.fresh
        (hgoodO nv hnv) (by simp) (by simp) (by simp)
    · dsimp only [Option.map]
      obtain ⟨hq1, hq2, hq3⟩ := hpropsO (nv.1, props) (dget_mem hp)
      exact port_from_to_forced w.allNodes w.node.meta.outputs nv.1 nv.2 props Port.fresh
        (hgoodO nv hnv) hq1 hq2 hq3
  unfold rootPortsFromJson
  rw [hins, hfreshI]
  rw [mapME_fresh_loaded (Workflow.to_json_dict w).inputs
    (fun nv => portAfterLoad w.allNodes w.node.meta.outputs nv.1 nv.2)
    w.node.inputs hentI]
  rw [houts, hfreshO]
  rw [mapME_fresh_loaded (Workflow.to_json_dict w).outputs
    (fun nv => portAfterLoad w.allNodes w.node.meta.outputs nv.1 nv.2)
    w.node.outputs hentO]
  rfl

theorem stepsLoaded_ids (nodes : List NodeData) :
    ∀ (tag : Nat) (steps : List Step),
      (stepsLoaded nodes tag steps).map (fun s => s.node.id)
        = steps.map (fun s => s.node.id) := by
  intro tag steps
  induction steps generalizing tag with
  | nil => rfl
  | cons s rest ih =>
    unfold stepsLoaded
    rw [List.map_cons, List.map_cons, stepLoaded_id, ih (tag + 1)]

/-- The workflow state `Workflow.from_json_dict` reaches right before its
final `update_sources()` call: a fresh root node carrying the serialized
meta-info and the re-populated root ports, the re-loaded steps with
successive fresh identities, and the step dictionary built by
`add_steps`. -/
def loadedWorkflow (w : Workflow) (tag0 : Nat) : Workflow :=
  { node := { NodeData.new tag0 w.node.meta.qualified_name
        ⟨w.node.meta.qualified_name, w.node.meta.header,
          (Workflow.to_json_dict w).inputs, (Workflow.to_json_dict w).outputs,
          canCacheOfHeader w.node.meta.header⟩ with
      inputs := rootLoadedPorts w w.node.inputs,
      outputs := rootLoadedPorts w w.node.outputs },
    steps := stepsLoaded w.allNodes (tag0 + 1) w.steps,
    stepsDict := (stepsLoaded w.allNodes (tag0 + 1) w.steps).map
      (fun s => (s.node.id, s.node.tag)) }

theorem from_to_loaded (registry : List (String × OpMetaInfo))
    (resourceEnv : List (String × Workflow)) (w : Workflow) (tag0 : Nat)
    (hstepok : ∀ s ∈ w.steps, StepOk registry resourceEnv w.allNodes s)
    (hids : (w.steps.map (fun s => s.node.id)).Nodup)
    (hndI : (w.node.inputs.map (·.1)).Nodup)
    (hndO : (w.node.outputs.map (·.1)).Nodup)
    (hgoodI : ∀ nv ∈ w.node.inputs, ∀ ptr, (nv.2 : Port).source = some ptr →
      goodName (((findNodeByTag w.allNodes ptr.tag).map (·.id)).getD "") = true
      ∧ goodName ptr.name = true)
    (hgoodO : ∀ nv ∈ w.node.outputs, ∀ ptr, (nv.2 : Port).source = some ptr →
      goodName (((findNodeByTag w.allNodes ptr.tag).map (·.id)).getD "") = true
      ∧ goodName ptr.name = true)
    (hpropsI : ∀ mv ∈ w.node.meta.inputs, ((mv.2 : Props).map (·.1)).Nodup
      ∧ "source" ∉ (mv.2 : Props).map (·.1) ∧ "value" ∉ (mv.2 : Props).map (·.1))
    (hpropsO : ∀ mv ∈ w.node.meta.outputs, ((mv.2 : Props).map (·.1)).Nodup
      ∧ "source" ∉ (mv.2 : Props).map (·.1) ∧ "value" ∉ (mv.2 : Props).map (·.1)) :
    Workflow.from_json_dict registry resourceEnv tag0 (Workflow.to_json_dict w)
      = (loadedWorkflow w tag0).update_sources := by
  unfold Workflow.from_json_dict
  rw [show (Workflow.to_json_dict w).qualified_name
      = some w.node.meta.qualified_name from rfl]
  dsimp only
  rw [show (Workflow.to_json_dict w).steps
      = w.steps.map (Step.to_json_dict w.allNodes) from rfl]
  rw [steps_from_to registry resourceEnv w.allNodes w.steps (tag0 + 1) 1 hstepok]
  dsimp only
  rw [add_steps_fresh (stepsLoaded w.allNodes (tag0 + 1) w.steps)
    (Workflow.new tag0
      ⟨w.node.meta.qualified_name, (Workflow.to_json_dict w).header,
        (Workflow.to_json_dict w).inputs, (Workflow.to_json_dict w).outputs,
        canCacheOfHeader (Workflow.to_json_dict w).header⟩ none)
    (by intro s _ hc; exact absurd hc (by simp [Workflow.new]))
    (by rw [stepsLoaded_ids]; exact hids)]
  dsimp only
  rw [rootPorts_from_to w _ rfl rfl hndI hndO hgoodI hgoodO hpropsI hpropsO]
  rfl

/-! ### Identities in the re-loaded tree -/

/-- Position of the first step with the given id. -/
def stepIndexOfId : List Step → String → Nat
  | [], _ => 0
  | s :: rest, idStr => if s.node.id = idStr then 0 else stepIndexOfId rest idStr + 1

/-- The object identity a node of the original tree receives in the
re-loaded tree: the root becomes the fresh workflow object `tag0`, the
step of a given id keeps its position. -/
def newTagOf (w : Workflow) (tag0 : Nat) (t : Nat) : Nat :=
  if w.node.tag = t then tag0
  else tag0 + 1 + stepIndexOfId w.steps (((findNodeByTag w.allNodes t).map (·.id)).getD "")

theorem stepIndexOfId_get :
    ∀ (steps : List Step) (idStr : String), idStr ∈ steps.map (fun s => s.node.id) →
      ∃ s', steps.get? (stepIndexOfId steps idStr) = some s' ∧ s'.node.id = idStr := by
  intro steps
  induction steps with
  | nil =>
    intro idStr h
    exact absurd h (by simp)
  | cons s rest ih =>
    intro idStr h
    by_cases he : s.node.id = idStr
    · exact ⟨s, by rw [stepIndexOfId, if_pos he]; rfl, he⟩
    · have hm : idStr ∈ rest.map (fun s => s.node.id) := by
        rcases (by simpa using h :
            idStr = s.node.id ∨ ∃ a ∈ rest, a.node.id = idStr) with hc | hc
        · exact absurd hc.symm he
        · rcases hc with ⟨a, ha, hae⟩
          exact List.mem_map.mpr ⟨a, ha, hae⟩
      rcases ih idStr hm with ⟨s', hg, hid⟩
      exact ⟨s', by rw [stepIndexOfId, if_neg he]; simpa using hg, hid⟩

theorem stepIndexOfId_of_get :
    ∀ (steps : List Step) (j : Nat) (s : Step),
      (steps.map (fun s => s.node.id)).Nodup → steps.get? j = some s →
      stepIndexOfId steps s.node.id = j := by
  intro steps
  induction steps with
  | nil =>
    intro j s _ hg
    exact absurd hg (by simp)
  | cons s0 rest ih =>
    intro j s hnd hg
    rcases List.nodup_cons.mp hnd with ⟨h0, hndr⟩
    match j with
    | 0 =>
      have : s0 = s := by simpa using hg
      rw [stepIndexOfId, if_pos (by rw [this])]
    | j' + 1 =>
      have hgr : rest.get? j' = some s := by simpa using hg
      have hne : s0.node.id ≠ s.node.id := by
        intro hc
        exact h0 (List.mem_map.mpr ⟨s, List.get?_mem hgr, hc.symm⟩)
      rw [stepIndexOfId, if_neg hne, ih j' s hndr hgr]

/-- A step id present in the original step list is found in the re-loaded
step dictionary at the step's position-derived fresh tag. -/
theorem stepsDict_lookup (nodes : List NodeData) :
    ∀ (steps : List Step) (t0 : Nat) (idStr : String),
      idStr ∈ steps.map (fun s => s.node.id) →
      dget ((stepsLoaded nodes t0 steps).map (fun s => (s.node.id, s.node.tag))) idStr
        = some (t0 + stepIndexOfId steps idStr) := by
  intro steps
  induction steps with
  | nil =>
    intro t0 idStr h
    exact absurd h (by simp)
  | cons s rest ih =>
    intro t0 idStr h
    by_cases he : s.node.id = idStr
    · unfold stepsLoaded
      rw [List.map_cons, stepLoaded_id, stepLoaded_tag]
      rw [dget, if_pos he, stepIndexOfId, if_pos he]
      rfl
    · have hm : idStr ∈ rest.map (fun s => s.node.id) := by
        rcases (by simpa using h :
            idStr = s.node.id ∨ ∃ a ∈ rest, a.node.id = idStr) with hc | hc
        · exact absurd hc.symm he
        · rcases hc with ⟨a, ha, hae⟩
          exact List.mem_map.mpr ⟨a, ha, hae⟩
      unfold stepsLoaded
      rw [List.map_cons, stepLoaded_id, stepLoaded_tag]
      rw [dget, if_neg he, ih (t0 + 1) idStr hm, stepIndexOfId, if_neg he]
      rw [show t0 + 1 + stepIndexOfId rest idStr
          = t0 + (stepIndexOfId rest idStr + 1) from by omega]

/-- In the re-loaded step list (tags assigned in succession), the step with
tag `t0 + j` is the re-load of the original step at position `j`. -/
theorem loadedSteps_find (nodes : List NodeData) :
    ∀ (steps : List Step) (t0 j : Nat) (s : Step), steps.get? j = some s →
      (stepsLoaded nodes t0 steps).find? (fun x => x.node.tag = t0 + j)
        = some (stepLoaded nodes (t0 + j) s) := by
  intro steps
  induction steps with
  | nil =>
    intro t0 j s hg
    exact absurd hg (by simp)
  | cons s0 rest ih =>
    intro t0 j s hg
    match j with
    | 0 =>
      have hs : s0 = s := by simpa using hg
      unfold stepsLoaded
      rw [List.find?_cons_of_pos _ (by rw [stepLoaded_tag]; simp)]
      rw [hs]
      rfl
    | j' + 1 =>
      have hgr : rest.get? j' = some s := by simpa using hg
      unfold stepsLoaded
      rw [List.find?_cons_of_neg _ (by
        rw [stepLoaded_tag]
        simp only [decide_eq_true_eq]
        omega)]
      rw [show t0 + (j' + 1) = (t0 + 1) + j' from by omega]
      exact ih (t0 + 1) j' s hgr

theorem findNodeByTag_cons (n : NodeData) (rest : List NodeData) (t : Nat) :
    findNodeByTag (n :: rest) t = if n.tag = t then some n else findNodeByTag rest t := by
  unfold findNodeByTag
  by_cases h : n.tag = t
  · rw [List.find?_cons_of_pos _ (by simp [h]), if_pos h]
  · rw [List.find?_cons_of_neg _ (by simp [h]), if_neg h]

theorem loadedNodes_find (nodes : List NodeData) :
    ∀ (steps : List Step) (t0 j : Nat) (s : Step), steps.get? j = some s →
      findNodeByTag ((stepsLoaded nodes t0 steps).map (·.node)) (t0 + j)
        = some (stepLoaded nodes (t0 + j) s).node := by
  intro steps
  induction steps with
  | nil =>
    intro t0 j s hg
    exact absurd hg (by simp)
  | cons s0 rest ih =>
    intro t0 j s hg
    match j with
    | 0 =>
      have hs : s0 = s := by simpa using hg
      unfold stepsLoaded
      rw [List.map_cons, findNodeByTag_cons, if_pos (by rw [stepLoaded_tag]; rfl)]
      rw [hs]
      rfl
    | j' + 1 =>
      have hgr : rest.get? j' = some s := by simpa using hg
      unfold stepsLoaded
      rw [List.map_cons, findNodeByTag_cons, if_neg (by rw [stepLoaded_tag]; omega)]
      rw [show t0 + (j' + 1) = (t0 + 1) + j' from by omega]
      exact ih (t0 + 1) j' s hgr

theorem loadedWorkflow_node_tag (w : Workflow) (tag0 : Nat) :
    (loadedWorkflow w tag0).node.tag = tag0 := rfl

theorem loadedWorkflow_node_id (w : Workflow) (tag0 : Nat) :
    (loadedWorkflow w tag0).node.id = w.node.meta.qualified_name := rfl

theorem loaded_findNodeByTag_root (w : Workflow) (tag0 : Nat) :
    findNodeByTag (loadedWorkflow w tag0).allNodes tag0
      = some (loadedWorkflow w tag0).node := by
  unfold Workflow.allNodes
  rw [findNodeByTag_cons, if_pos (loadedWorkflow_node_tag w tag0)]

theorem loaded_findNodeByTag_step (w : Workflow) (tag0 j : Nat) (s : Step)
    (hj : w.steps.get? j = some s) :
    findNodeByTag (loadedWorkflow w tag0).allNodes (tag0 + 1 + j)
      = some (stepLoaded w.allNodes (tag0 + 1 + j) s).node := by
  unfold Workflow.allNodes
  rw [findNodeByTag_cons, if_neg (by rw [loadedWorkflow_node_tag]; omega)]
  exact loadedNodes_find w.allNodes w.steps (tag0 + 1) j s hj

/-- `find_port` depends only on the port-name lists: a node with the same
input and output names finds the same port, re-owned. -/
theorem find_port_keys (n n2 : NodeData) (nm : String)
    (hi : n2.inputs.map (·.1) = n.inputs.map (·.1))
    (ho : n2.outputs.map (·.1) = n.outputs.map (·.1)) :
    n2.find_port nm = (n.find_port nm).map
      (fun q => (⟨n2.tag, q.isOutput, q.name⟩ : PortPtr)) := by
  unfold NodeData.find_port
  by_cases hmo : nm ∈ n.outputs.map (·.1)
  · rw [if_pos ((dget_isSome_iff_mem _ _).mpr hmo),
      if_pos ((dget_isSome_iff_mem _ _).mpr (ho.symm ▸ hmo))]
    rfl
  · rw [if_neg (fun hc => hmo ((dget_isSome_iff_mem _ _).mp hc)),
      if_neg (fun hc => hmo (ho ▸ (dget_isSome_iff_mem _ _).mp hc))]
    by_cases hmi : nm ∈ n.inputs.map (·.1)
    · rw [if_pos ((dget_isSome_iff_mem _ _).mpr hmi),
        if_pos ((dget_isSome_iff_mem _ _).mpr (hi.symm ▸ hmi))]
      rfl
    · rw [if_neg (fun hc => hmi ((dget_isSome_iff_mem _ _).mp hc)),
        if_neg (fun hc => hmi (hi ▸ (dget_isSome_iff_mem _ _).mp hc))]
      rfl

theorem stepLoaded_input_keys (nodes : List NodeData) (t : Nat) (s : Step) :
    (stepLoaded nodes t s).node.inputs.map (·.1) = s.node.inputs.map (·.1) := by
  rcases s with ⟨n, kind, pers⟩
  rcases kind <;> (unfold stepLoaded) <;> dsimp only
  · unfold loadedPorts
    rw [List.map_map]
    rfl
  all_goals (unfold loadedAllPorts; rw [List.map_map]; rfl)

theorem stepLoaded_output_keys (nodes : List NodeData) (t : Nat) (s : Step)
    (h2 : s.node.outputs.map (·.1) = s.node.meta.outputs.map (·.1)) :
    (stepLoaded nodes t s).node.outputs.map (·.1) = s.node.outputs.map (·.1) := by
  rcases s with ⟨n, kind, pers⟩
  rcases kind <;> (unfold stepLoaded) <;> dsimp only
  · rw [List.map_map]
    dsimp only at h2
    rw [h2]
    rfl
  all_goals (unfold loadedAllPorts; rw [List.map_map]; rfl)

theorem loaded_root_input_keys (w : Workflow) (tag0 : Nat) :
    (loadedWorkflow w tag0).node.inputs.map (·.1) = w.node.inputs.map (·.1) := by
  show (rootLoadedPorts w w.node.inputs).map (·.1) = w.node.inputs.map (·.1)
  unfold rootLoadedPorts
  rw [List.map_map]
  rfl

theorem loaded_root_output_keys (w : Workflow) (tag0 : Nat) :
    (loadedWorkflow w tag0).node.outputs.map (·.1) = w.node.outputs.map (·.1) := by
  show (rootLoadedPorts w w.node.outputs).map (·.1) = w.node.outputs.map (·.1)
  unfold rootLoadedPorts
  rw [List.map_map]
  rfl

theorem newTagOf_root (w : Workflow) (tag0 : Nat) :
    newTagOf w tag0 w.node.tag = tag0 := by
  unfold newTagOf
  rw [if_pos rfl]

theorem newTagOf_step (w : Workflow) (tag0 j : Nat) (s : Step)
    (hu : UniqueTags w.allNodes)
    (hnd : (w.steps.map (fun s => s.node.id)).Nodup)
    (hj : w.steps.get? j = some s) (hroot : w.node.tag ≠ s.node.tag) :
    newTagOf w tag0 s.node.tag = tag0 + 1 + j := by
  unfold newTagOf
  rw [if_neg hroot]
  have hmem : s.node ∈ w.allNodes :=
    List.mem_cons_of_mem _ (List.mem_map.mpr ⟨s, List.get?_mem hj, rfl⟩)
  rw [findNodeByTag_of_mem hu hmem]
  simp only [Option.map_some', Option.getD_some]
  rw [stepIndexOfId_of_get w.steps j s hnd hj]

theorem step_of_node_mem {w : Workflow} {m : NodeData} (hm : m ∈ w.allNodes)
    (hr : w.node.tag ≠ m.tag) : ∃ s ∈ w.steps, s.node = m := by
  rcases List.mem_cons.mp hm with he | hmem
  · exact absurd (congrArg NodeData.tag he.symm) hr
  · rcases List.mem_map.mp hmem with ⟨s, hs, he⟩
    exact ⟨s, hs, he⟩

/-- The position-derived fresh tags separate distinct nodes of the tree. -/
theorem newTagOf_inj (w : Workflow) (tag0 : Nat) (hu : UniqueTags w.allNodes)
    (hnd : (w.steps.map (fun s => s.node.id)).Nodup)
    {m1 m2 : NodeData} (hm1 : m1 ∈ w.allNodes) (hm2 : m2 ∈ w.allNodes)
    (hne : m1.tag ≠ m2.tag) : newTagOf w tag0 m1.tag ≠ newTagOf w tag0 m2.tag := by
  have hstep : ∀ (m : NodeData), m ∈ w.allNodes → w.node.tag ≠ m.tag →
      ∃ j s, w.steps.get? j = some s ∧ s.node = m
      ∧ newTagOf w tag0 m.tag = tag0 + 1 + j := by
    intro m hm hr
    rcases step_of_node_mem hm hr with ⟨s, hs, he⟩
    rcases List.mem_iff_get?.mp hs with ⟨j, hj⟩
    refine ⟨j, s, hj, he, ?_⟩
    rw [← he]
    exact newTagOf_step w tag0 j s hu hnd hj (he ▸ hr)
  by_cases hr1 : w.node.tag = m1.tag
  · rw [← hr1, newTagOf_root]
    by_cases hr2 : w.node.tag = m2.tag
    · exact absurd (hr1.symm.trans hr2) hne
    · rcases hstep m2 hm2 hr2 with ⟨j, s, _, _, he⟩
      rw [he]
      omega
  · rcases hstep m1 hm1 hr1 with ⟨j1, s1, hj1, hn1, he1⟩
    rw [he1]
    by_cases hr2 : w.node.tag = m2.tag
    · rw [← hr2, newTagOf_root]
      omega
    · rcases hstep m2 hm2 hr2 with ⟨j2, s2, hj2, hn2, he2⟩
      rw [he2]
      intro heq
      have hj : j1 = j2 := by omega
      rw [hj, hj2] at hj1
      injection hj1 with hj1
      exact hne (by rw [← hn1, ← hn2, hj1])

/-! ### Resolving the re-loaded source references (`update_sources` after load) -/

theorem update_source_no_sref (w3 : Workflow) (q : Port) (selfPtr : PortPtr)
    (scope : List NodeData) (hq : q.sref = none) :
    Port.update_source q w3 selfPtr scope = .ok q := by
  unfold Port.update_source
  rw [hq]

theorem portAfterLoad_sref_none (nodes : List NodeData) (metaOuts : List (String × Props))
    (nm : String) (p : Port) (h : p.source = none) :
    (portAfterLoad nodes metaOuts nm p).sref = none := by
  unfold portAfterLoad
  rw [h]
  dsimp only
  split
  · rfl
  · split <;> rfl

/-- Resolution of a `node_id.port_name` reference against a node found in
the tree: `find_port` locates the port and the `source` setter rebuilds the
reference from the located node. -/
theorem update_source_resolve_named (w3 : Workflow) (q : Port) (selfPtr : PortPtr)
    (scope : List NodeData) (nid nm : String) (n2 : NodeData) (ptr2 : PortPtr)
    (hq : q.sref = some ⟨some nid, some nm⟩)
    (hfind : (if w3.node.id = nid then some w3.node else w3.find_node nid) = some n2)
    (hport : n2.find_port nm = some ptr2)
    (hne : ptr2 ≠ selfPtr)
    (htag : findNodeByTag w3.allNodes ptr2.tag = some n2) :
    Port.update_source q w3 selfPtr scope
      = .ok ⟨some ⟨some n2.id, some ptr2.name⟩, some ptr2, .vundef⟩ := by
  have hupd : Port.update_source q w3 selfPtr scope =
      (match (if w3.node.id = nid then some w3.node else w3.find_node nid) with
      | some n =>
        match n.find_port nm with
        | some ptr => q.setSource w3.allNodes selfPtr (some ptr)
        | none => .error (.unknownPort nid nm)
      | none => .error (.unknownNodeWithPort nid)) := by
    unfold Port.update_source
    rw [hq]
  rw [hupd, hfind]
  dsimp only
  rw [hport]
  dsimp only
  unfold Port.setSource
  rw [if_neg (fun hc => hne (Option.some.inj hc))]
  dsimp only
  rw [htag]
  rfl

/-- Resolution of a bare `node_id` reference against a single-output node:
the sole output becomes the source. -/
theorem update_source_resolve_shortcut (w3 : Workflow) (q : Port) (selfPtr : PortPtr)
    (scope : List NodeData) (nid : String) (n2 : NodeData)
    (hq : q.sref = some ⟨some nid, none⟩)
    (hfind : (if w3.node.id = nid then some w3.node else w3.find_node nid) = some n2)
    (hkeys : n2.outputs.map (·.1) = [RETURN_NAME])
    (hne : (⟨n2.tag, true, RETURN_NAME⟩ : PortPtr) ≠ selfPtr)
    (htag : findNodeByTag w3.allNodes n2.tag = some n2) :
    Port.update_source q w3 selfPtr scope
      = .ok ⟨some ⟨some n2.id, some RETURN_NAME⟩,
          some ⟨n2.tag, true, RETURN_NAME⟩, .vundef⟩ := by
  have hlen : n2.outputs.length = 1 := by
    have h := congrArg List.length hkeys
    simpa using h
  have hne0 : n2.outputs ≠ [] := by
    intro h
    rw [h] at hlen
    exact absurd hlen (by simp)
  have hhead : ∀ (h : n2.outputs ≠ []), (n2.outputs.head h).1 = RETURN_NAME := by
    intro h
    have h1 : (n2.outputs.map (·.1)).head? = some RETURN_NAME := by
      rw [hkeys]
      rfl
    rw [List.head?_map, List.head?_eq_head h] at h1
    exact Option.some.inj h1
  have hupd : Port.update_source q w3 selfPtr scope =
      (match (if w3.node.id = nid then some w3.node else w3.find_node nid) with
      | some n =>
        if h : n.outputs.length = 1 then
          q.setSource w3.allNodes selfPtr
            (some ⟨n.tag, true, (n.outputs.head (by
              intro hn; rw [hn] at h; exact absurd h (by simp))).1⟩)
        else .error (.ambiguousNode nid n.outputs.length)
      | none => .error (.unknownNode nid)) := by
    unfold Port.update_source
    rw [hq]
  rw [hupd, hfind]
  dsimp only
  rw [dif_pos hlen]
  rw [hhead _]
  unfold Port.setSource
  rw [if_neg (fun hc => hne (Option.some.inj hc))]
  dsimp only
  rw [htag]
  rfl

/-- A resolved source pointer of a serializable tree: its node exists, the
pointer is canonical for its name (re-resolution by name finds the same
port), and a `"return"`-named pointer targets a sole `"return"` output (the
shortcut reference form re-resolves to it). -/
def SrcOk (w : Workflow) (ptr : PortPtr) : Prop :=
  ∃ m, findNodeByTag w.allNodes ptr.tag = some m
    ∧ m.find_port ptr.name = some ptr
    ∧ (ptr.name = RETURN_NAME → m.outputs.map (·.1) = [RETURN_NAME])

/-- A port's state after the full round trip: a resolved source re-resolves
to the like-named port of the same node under its fresh identity, anything
else keeps its after-load state. -/
def portFinal (w : Workflow) (tag0 : Nat) (metaOuts : List (String × Props))
    (nm : String) (p : Port) : Port :=
  match p.source with
  | some ptr =>
    ⟨some ⟨some (((findNodeByTag w.allNodes ptr.tag).map (·.id)).getD ""), some ptr.name⟩,
     some ⟨newTagOf w tag0 ptr.tag, ptr.isOutput, ptr.name⟩, .vundef⟩
  | none => portAfterLoad w.allNodes metaOuts nm p

/-- Re-resolving one re-loaded port against the re-loaded tree. -/
theorem update_source_after_load (w : Workflow) (tag0 : Nat)
    (hu : UniqueTags w.allNodes)
    (hnd : (w.steps.map (fun s => s.node.id)).Nodup)
    (hrootid : w.node.id = w.node.meta.qualified_name)
    (hstepids : ∀ s ∈ w.steps, s.node.id ≠ w.node.meta.qualified_name)
    (hkeys : ∀ s ∈ w.steps, s.node.outputs.map (·.1) = s.node.meta.outputs.map (·.1))
    (metaOuts : List (String × Props)) (nm : String) (p : Port)
    (selfPtr : PortPtr) (scope : List NodeData)
    (hcond : ∀ ptr, p.source = some ptr → SrcOk w ptr
      ∧ (⟨newTagOf w tag0 ptr.tag, ptr.isOutput, ptr.name⟩ : PortPtr) ≠ selfPtr) :
    Port.update_source (portAfterLoad w.allNodes metaOuts nm p)
        (loadedWorkflow w tag0) selfPtr scope
      = .ok (portFinal w tag0 metaOuts nm p) := by
  rcases hsrc : p.source with _ | ptr
  · rw [update_source_no_sref _ _ _ _ (portAfterLoad_sref_none w.allNodes metaOuts nm p hsrc)]
    unfold portFinal
    rw [hsrc]
  · obtain ⟨⟨m, hfindm, hcanon, hret⟩, hne⟩ := hcond ptr hsrc
    obtain ⟨hmem, htagm⟩ := findNodeByTag_mem hfindm
    have hload : portAfterLoad w.allNodes metaOuts nm p
        = ⟨some (srefOfPtr w.allNodes ptr), none, .vundef⟩ := by
      unfold portAfterLoad
      rw [hsrc]
    have hfinal : portFinal w tag0 metaOuts nm p
        = ⟨some ⟨some m.id, some ptr.name⟩,
           some ⟨newTagOf w tag0 ptr.tag, ptr.isOutput, ptr.name⟩, .vundef⟩ := by
      unfold portFinal
      rw [hsrc]
      dsimp only
      rw [hfindm]
      rfl
    have hsref_eq : srefOfPtr w.allNodes ptr
        = if ptr.name = RETURN_NAME then ⟨some m.id, none⟩
          else ⟨some m.id, some ptr.name⟩ := by
      unfold srefOfPtr
      rw [hfindm]
      rfl
    rw [hload, hfinal]
    by_cases hr : w.node.tag = ptr.tag
    · -- the pointer targets the workflow's own node
      have hmroot : m = w.node := by
        have h := hfindm
        rw [show w.allNodes = w.node :: w.steps.map (·.node) from rfl,
          findNodeByTag_cons, if_pos hr] at h
        exact (Option.some.inj h).symm
      have hntag : newTagOf w tag0 ptr.tag = tag0 := by
        rw [← hr, newTagOf_root]
      have hfind2 : (if (loadedWorkflow w tag0).node.id = m.id
            then some (loadedWorkflow w tag0).node
            else (loadedWorkflow w tag0).find_node m.id)
          = some (loadedWorkflow w tag0).node := by
        rw [if_pos]
        rw [loadedWorkflow_node_id, hmroot]
        exact hrootid.symm
      have hfp : (loadedWorkflow w tag0).node.find_port ptr.name
          = some ⟨tag0, ptr.isOutput, ptr.name⟩ := by
        rw [find_port_keys w.node (loadedWorkflow w tag0).node ptr.name
          (loaded_root_input_keys w tag0) (loaded_root_output_keys w tag0)]
        rw [← hmroot, hcanon]
        rfl
      have hmid : m.id = w.node.meta.qualified_name := by
        rw [hmroot]
        exact hrootid
      by_cases hrn : ptr.name = RETURN_NAME
      · have hko : (loadedWorkflow w tag0).node.outputs.map (·.1) = [RETURN_NAME] := by
          rw [loaded_root_output_keys w tag0, ← hmroot]
          exact hret hrn
        have hdg : (dget m.outputs ptr.name).isSome :=
          (dget_isSome_iff_mem _ _).mpr (by rw [hret hrn, hrn]; simp)
        have hfpm : m.find_port ptr.name = some ⟨m.tag, true, ptr.name⟩ := by
          unfold NodeData.find_port
          rw [if_pos hdg]
        have hptr : ptr = ⟨m.tag, true, ptr.name⟩ := by
          rw [hfpm] at hcanon
          exact (Option.some.inj hcanon).symm
        have hout : ptr.isOutput = true := by
          rw [hptr]
        have h := update_source_resolve_shortcut (loadedWorkflow w tag0)
          ⟨some ⟨some m.id, none⟩, none, .vundef⟩ selfPtr scope m.id
          (loadedWorkflow w tag0).node rfl hfind2 hko
          (by
            rw [show (loadedWorkflow w tag0).node.tag = tag0 from rfl]
            rw [hntag, hout, hrn] at hne
            exact hne)
          (loaded_findNodeByTag_root w tag0)
        rw [hsref_eq, if_pos hrn, h]
        rw [loadedWorkflow_node_id, loadedWorkflow_node_tag, hmid, hntag, hout, hrn]
      · have h := update_source_resolve_named (loadedWorkflow w tag0)
          ⟨some ⟨some m.id, some ptr.name⟩, none, .vundef⟩ selfPtr scope m.id ptr.name
          (loadedWorkflow w tag0).node ⟨tag0, ptr.isOutput, ptr.name⟩ rfl hfind2 hfp
          (by
            rw [hntag] at hne
            exact hne)
          (loaded_findNodeByTag_root w tag0)
        rw [hsref_eq, if_neg hrn, h]
        rw [loadedWorkflow_node_id, hmid, hntag]
    · -- the pointer targets a step's node
      rcases step_of_node_mem hmem (fun hc => hr (hc.trans htagm)) with ⟨s, hs, hsn⟩
      rcases List.mem_iff_get?.mp hs with ⟨j, hj⟩
      have hrs : w.node.tag ≠ s.node.tag := by
        rw [hsn, htagm]
        exact hr
      have hntag : newTagOf w tag0 ptr.tag = tag0 + 1 + j := by
        rw [← htagm, ← hsn]
        exact newTagOf_step w tag0 j s hu hnd hj hrs
      have hmid : m.id = s.node.id := by rw [hsn]
      have hfind2 : (if (loadedWorkflow w tag0).node.id = m.id
            then some (loadedWorkflow w tag0).node
            else (loadedWorkflow w tag0).find_node m.id)
          = some (stepLoaded w.allNodes (tag0 + 1 + j) s).node := by
        rw [if_neg (by
          rw [loadedWorkflow_node_id, hmid]
          exact fun hc => hstepids s hs hc.symm)]
        unfold Workflow.find_node
        rw [show (loadedWorkflow w tag0).stepsDict
            = (stepsLoaded w.allNodes (tag0 + 1) w.steps).map
              (fun s => (s.node.id, s.node.tag)) from rfl]
        rw [hmid, stepsDict_lookup w.allNodes w.steps (tag0 + 1) s.node.id
          (List.mem_map.mpr ⟨s, hs, rfl⟩)]
        rw [stepIndexOfId_of_get w.steps j s hnd hj]
        dsimp only
        rw [show (loadedWorkflow w tag0).steps
            = stepsLoaded w.allNodes (tag0 + 1) w.steps from rfl]
        rw [loadedSteps_find w.allNodes w.steps (tag0 + 1) j s hj]
        rfl
      have hltag : (stepLoaded w.allNodes (tag0 + 1 + j) s).node.tag = tag0 + 1 + j :=
        stepLoaded_tag w.allNodes (tag0 + 1 + j) s
      have hfp : (stepLoaded w.allNodes (tag0 + 1 + j) s).node.find_port ptr.name
          = some ⟨tag0 + 1 + j, ptr.isOutput, ptr.name⟩ := by
        rw [find_port_keys s.node (stepLoaded w.allNodes (tag0 + 1 + j) s).node ptr.name
          (stepLoaded_input_keys w.allNodes (tag0 + 1 + j) s)
          (stepLoaded_output_keys w.allNodes (tag0 + 1 + j) s (hkeys s hs))]
        rw [hsn, hcanon]
        dsimp only [Option.map]
        rw [hltag]
      have hftag : findNodeByTag (loadedWorkflow w tag0).allNodes
            (stepLoaded w.allNodes (tag0 + 1 + j) s).node.tag
          = some (stepLoaded w.allNodes (tag0 + 1 + j) s).node := by
        rw [hltag]
        exact loaded_findNodeByTag_step w tag0 j s hj
      have hlid : (stepLoaded w.allNodes (tag0 + 1 + j) s).node.id = s.node.id :=
        stepLoaded_id w.allNodes (tag0 + 1 + j) s
      by_cases hrn : ptr.name = RETURN_NAME
      · have hko : (stepLoaded w.allNodes (tag0 + 1 + j) s).node.outputs.map (·.1)
            = [RETURN_NAME] := by
          rw [stepLoaded_output_keys w.allNodes (tag0 + 1 + j) s (hkeys s hs), hsn]
          exact hret hrn
        have hdg : (dget m.outputs ptr.name).isSome :=
          (dget_isSome_iff_mem _ _).mpr (by rw [hret hrn, hrn]; simp)
        have hfpm : m.find_port ptr.name = some ⟨m.tag, true, ptr.name⟩ := by
          unfold NodeData.find_port
          rw [if_pos hdg]
        have hptr : ptr = ⟨m.tag, true, ptr.name⟩ := by
          rw [hfpm] at hcanon
          exact (Option.some.inj hcanon).symm
        have hout : ptr.isOutput = true := by
          rw [hptr]
        have h := update_source_resolve_shortcut (loadedWorkflow w tag0)
          ⟨some ⟨some m.id, none⟩, none, .vundef⟩ selfPtr scope m.id
          (stepLoaded w.allNodes (tag0 + 1 + j) s).node rfl hfind2 hko
          (by
            rw [hltag]
            rw [hntag, hout, hrn] at hne
            exact hne)
          hftag
        rw [hsref_eq, if_pos hrn, h]
        rw [hlid, hltag, hmid, hntag, hout, hrn]
      · have h := update_source_resolve_named (loadedWorkflow w tag0)
          ⟨some ⟨some m.id, some ptr.name⟩, none, .vundef⟩ selfPtr scope m.id ptr.name
          (stepLoaded w.allNodes (tag0 + 1 + j) s).node
          ⟨tag0 + 1 + j, ptr.isOutput, ptr.name⟩ rfl hfind2 hfp
          (by
            rw [hntag] at hne
            exact hne)
          (loaded_findNodeByTag_step w tag0 j s hj)
        rw [hsref_eq, if_neg hrn, h]
        rw [hlid, hmid, hntag]

/-! ### Resolving a whole re-loaded tree -/

theorem mapME_update_ports {α : Type} (w3 : Workflow) (ntag : Nat) (isOut : Bool)
    (scope : List NodeData) (F G : String × α → Port) :
    ∀ (orig : List (String × α)),
      (∀ nv ∈ orig, Port.update_source (F nv) w3 ⟨ntag, isOut, nv.1⟩ scope = .ok (G nv)) →
      mapME (fun nv => (Port.update_source nv.2 w3 ⟨ntag, isOut, nv.1⟩ scope).map
          (fun p => (nv.1, p)))
          (orig.map (fun nv => (nv.1, F nv)))
        = .ok (orig.map (fun nv => (nv.1, G nv))) := by
  intro orig
  induction orig with
  | nil => intro _; rfl
  | cons nv rest ih =>
    intro h
    rw [List.map_cons, List.map_cons]
    unfold mapME
    rw [show Port.update_source ((nv.1, F nv).2 : Port) w3 ⟨ntag, isOut, (nv.1, F nv).1⟩ scope
        = Port.update_source (F nv) w3 ⟨ntag, isOut, nv.1⟩ scope from rfl]
    rw [h nv (by simp)]
    rw [ih (fun x hx => h x (by simp [hx]))]
    rfl

/-- Structural side conditions the resolution pass relies on: unique node
identities, unique step ids distinct from the root id, and output
namespaces matching the declared outputs. -/
def ResolveGlobals (w : Workflow) : Prop :=
  UniqueTags w.allNodes
  ∧ (w.steps.map (fun s => s.node.id)).Nodup
  ∧ w.node.id = w.node.meta.qualified_name
  ∧ (∀ s ∈ w.steps, s.node.id ≠ w.node.meta.qualified_name)
  ∧ (∀ s ∈ w.steps, s.node.outputs.map (·.1) = s.node.meta.outputs.map (·.1))

/-- Per-node source conditions against the fresh identity `tl` the node
receives on re-load: every resolved source is serializable and does not
re-resolve to the very port holding it. -/
def NodeResolveOk (w : Workflow) (tag0 tl : Nat) (n : NodeData) : Prop :=
  (∀ nv ∈ n.inputs, ∀ ptr, (nv.2 : Port).source = some ptr → SrcOk w ptr
    ∧ (⟨newTagOf w tag0 ptr.tag, ptr.isOutput, ptr.name⟩ : PortPtr) ≠ ⟨tl, false, nv.1⟩)
  ∧ (∀ nv ∈ n.outputs, ∀ ptr, (nv.2 : Port).source = some ptr → SrcOk w ptr
    ∧ (⟨newTagOf w tag0 ptr.tag, ptr.isOutput, ptr.name⟩ : PortPtr) ≠ ⟨tl, true, nv.1⟩)

/-- A selectively re-loaded port list after the resolution pass. -/
def finalPorts (w : Workflow) (tag0 : Nat) (metaOuts : List (String × Props))
    (sel : (String × Port) → Bool) (ports : List (String × Port)) :
    List (String × Port) :=
  ports.map (fun nv => (nv.1,
    if sel nv then portFinal w tag0 metaOuts nv.1 nv.2 else Port.fresh))

def finalAllPorts (w : Workflow) (tag0 : Nat) (metaOuts : List (String × Props))
    (ports : List (String × Port)) : List (String × Port) :=
  ports.map (fun nv => (nv.1, portFinal w tag0 metaOuts nv.1 nv.2))

theorem update_loadedPorts (w : Workflow) (tag0 : Nat) (hg : ResolveGlobals w)
    (metaOuts : List (String × Props)) (sel : (String × Port) → Bool)
    (orig : List (String × Port)) (ntag : Nat) (isOut : Bool) (scope : List NodeData)
    (hres : ∀ nv ∈ orig, ∀ ptr, (nv.2 : Port).source = some ptr → SrcOk w ptr
      ∧ (⟨newTagOf w tag0 ptr.tag, ptr.isOutput, ptr.name⟩ : PortPtr) ≠ ⟨ntag, isOut, nv.1⟩) :
    mapME (fun nv => (Port.update_source nv.2 (loadedWorkflow w tag0)
          ⟨ntag, isOut, nv.1⟩ scope).map (fun p => (nv.1, p)))
        (orig.map (fun nv => (nv.1,
          if sel nv then portAfterLoad w.allNodes metaOuts nv.1 nv.2 else Port.fresh)))
      = .ok (orig.map (fun nv => (nv.1,
          if sel nv then portFinal w tag0 metaOuts nv.1 nv.2 else Port.fresh))) := by
  obtain ⟨hu, hnd, hrootid, hstepids, hkeys⟩ := hg
  refine mapME_update_ports (loadedWorkflow w tag0) ntag isOut scope _ _ orig ?_
  intro nv hnv
  by_cases hsel : sel nv
  · rw [if_pos hsel, if_pos hsel]
    exact update_source_after_load w tag0 hu hnd hrootid hstepids hkeys metaOuts nv.1 nv.2
      ⟨ntag, isOut, nv.1⟩ scope (fun ptr hptr => hres nv hnv ptr hptr)
  · rw [if_neg hsel, if_neg hsel]
    exact update_source_no_sref _ _ _ _ rfl

theorem update_loadedAllPorts (w : Workflow) (tag0 : Nat) (hg : ResolveGlobals w)
    (metaOuts : List (String × Props)) (orig : List (String × Port))
    (ntag : Nat) (isOut : Bool) (scope : List NodeData)
    (hres : ∀ nv ∈ orig, ∀ ptr, (nv.2 : Port).source = some ptr → SrcOk w ptr
      ∧ (⟨newTagOf w tag0 ptr.tag, ptr.isOutput, ptr.name⟩ : PortPtr) ≠ ⟨ntag, isOut, nv.1⟩) :
    mapME (fun nv => (Port.update_source nv.2 (loadedWorkflow w tag0)
          ⟨ntag, isOut, nv.1⟩ scope).map (fun p => (nv.1, p)))
        (orig.map (fun nv => (nv.1, portAfterLoad w.allNodes metaOuts nv.1 nv.2)))
      = .ok (orig.map (fun nv => (nv.1, portFinal w tag0 metaOuts nv.1 nv.2))) := by
  obtain ⟨hu, hnd, hrootid, hstepids, hkeys⟩ := hg
  refine mapME_update_ports (loadedWorkflow w tag0) ntag isOut scope _ _ orig ?_
  intro nv hnv
  exact update_source_after_load w tag0 hu hnd hrootid hstepids hkeys metaOuts nv.1 nv.2
    ⟨ntag, isOut, nv.1⟩ scope (fun ptr hptr => hres nv hnv ptr hptr)

theorem update_freshPorts {α : Type} (w3 : Workflow) (orig : List (String × α))
    (ntag : Nat) (isOut : Bool) (scope : List NodeData) :
    mapME (fun nv => (Port.update_source nv.2 w3 ⟨ntag, isOut, nv.1⟩ scope).map
        (fun p => (nv.1, p)))
        (orig.map (fun nv => (nv.1, Port.fresh)))
      = .ok (orig.map (fun nv => (nv.1, Port.fresh))) := by
  refine mapME_update_ports w3 ntag isOut scope _ _ orig ?_
  intro nv _
  exact update_source_no_sref _ _ _ _ rfl

/-- A re-loaded step after the resolution pass. -/
def stepFinal (w : Workflow) (tag0 tag : Nat) (s : Step) : Step :=
  match s.kind with
  | .opStep _ =>
    ⟨⟨tag, s.node.id, s.node.meta,
      finalPorts w tag0 s.node.meta.outputs (opKeepB w.allNodes s.node) s.node.inputs,
      s.node.meta.outputs.map (fun mv => (mv.1, Port.fresh))⟩,
     .opStep s.node.meta.qualified_name, s.persistent⟩
  | .workflowStep r =>
    ⟨⟨tag, s.node.id, s.node.meta,
      finalAllPorts w tag0 s.node.meta.outputs s.node.inputs,
      finalAllPorts w tag0 s.node.meta.outputs s.node.outputs⟩,
     .workflowStep r, s.persistent⟩
  | k =>
    ⟨⟨tag, s.node.id, ⟨s.node.id, [], s.node.meta.inputs, s.node.meta.outputs, true⟩,
      finalAllPorts w tag0 s.node.meta.outputs s.node.inputs,
      finalAllPorts w tag0 s.node.meta.outputs s.node.outputs⟩,
     k, s.persistent⟩

def stepsFinal (w : Workflow) (tag0 : Nat) : Nat → List Step → List Step
  | _, [] => []
  | tag, s :: rest => stepFinal w tag0 tag s :: stepsFinal w tag0 (tag + 1) rest

/-- The full round-trip image of a serializable workflow: the same tree
shape under fresh identities, with re-resolved sources, the serialized root
meta-info, and the step dictionary rebuilt by `add_steps`. -/
def finalWorkflow (w : Workflow) (tag0 : Nat) : Workflow :=
  { node := { NodeData.new tag0 w.node.meta.qualified_name
        ⟨w.node.meta.qualified_name, w.node.meta.header,
          (Workflow.to_json_dict w).inputs, (Workflow.to_json_dict w).outputs,
          canCacheOfHeader w.node.meta.header⟩ with
      inputs := finalAllPorts w tag0 w.node.meta.outputs w.node.inputs,
      outputs := finalAllPorts w tag0 w.node.meta.outputs w.node.outputs },
    steps := stepsFinal w tag0 (tag0 + 1) w.steps,
    stepsDict := (stepsLoaded w.allNodes (tag0 + 1) w.steps).map
      (fun s => (s.node.id, s.node.tag)) }

theorem root_update_sources_loaded (w : Workflow) (tag0 : Nat) (hg : ResolveGlobals w)
    (scope : List NodeData) (hres : NodeResolveOk w tag0 tag0 w.node) :
    (loadedWorkflow w tag0).node.update_sources (loadedWorkflow w tag0) scope
      = .ok (finalWorkflow w tag0).node := by
  obtain ⟨hin, hout⟩ := hres
  unfold NodeData.update_sources
  rw [show (loadedWorkflow w tag0).node.outputs = rootLoadedPorts w w.node.outputs from rfl]
  rw [show (loadedWorkflow w tag0).node.inputs = rootLoadedPorts w w.node.inputs from rfl]
  rw [show (loadedWorkflow w tag0).node.tag = tag0 from rfl]
  unfold rootLoadedPorts
  rw [update_loadedAllPorts w tag0 hg w.node.meta.outputs w.node.outputs tag0 true scope hout]
  rw [update_loadedAllPorts w tag0 hg w.node.meta.outputs w.node.inputs tag0 false scope hin]
  rfl

theorem stepLoaded_update_sources (w : Workflow) (tag0 : Nat) (hg : ResolveGlobals w)
    (t : Nat) (s : Step) (scope : List NodeData)
    (hres : NodeResolveOk w tag0 t s.node) :
    (stepLoaded w.allNodes t s).node.update_sources (loadedWorkflow w tag0) scope
      = .ok (stepFinal w tag0 t s).node := by
  obtain ⟨hin, hout⟩ := hres
  rcases s with ⟨n, kind, pers⟩
  rcases kind with opName | r | e | _ | ⟨c, rp, cwd, env, sh, sre, pre, dre⟩
  · unfold stepLoaded stepFinal
    dsimp only
    unfold NodeData.update_sources
    dsimp only
    rw [update_freshPorts (loadedWorkflow w tag0) n.meta.outputs t true scope]
    unfold loadedPorts finalPorts
    rw [update_loadedPorts w tag0 hg n.meta.outputs (opKeepB w.allNodes n) n.inputs
      t false scope hin]
    rfl
  all_goals (
    unfold stepLoaded stepFinal
    dsimp only
    unfold NodeData.update_sources
    dsimp only
    unfold loadedAllPorts finalAllPorts
    rw [update_loadedAllPorts w tag0 hg n.meta.outputs n.outputs t true scope hout]
    rw [update_loadedAllPorts w tag0 hg n.meta.outputs n.inputs t false scope hin]
    rfl)

theorem stepLoaded_final_kind (w : Workflow) (tag0 : Nat) (nodes : List NodeData)
    (t : Nat) (s : Step) : (stepLoaded nodes t s).kind = (stepFinal w tag0 t s).kind := by
  rcases s with ⟨n, kind, pers⟩
  rcases kind <;> rfl

theorem stepLoaded_final_pers (w : Workflow) (tag0 : Nat) (nodes : List NodeData)
    (t : Nat) (s : Step) :
    (stepLoaded nodes t s).persistent = (stepFinal w tag0 t s).persistent := by
  rcases s with ⟨n, kind, pers⟩
  rcases kind <;> rfl

theorem steps_update_sources_loaded (w : Workflow) (tag0 : Nat) (hg : ResolveGlobals w) :
    ∀ (steps : List Step) (t : Nat),
      (∀ (i : Nat) (s : Step), steps.get? i = some s → NodeResolveOk w tag0 (t + i) s.node) →
      mapME (fun s => ((s.node.update_sources (loadedWorkflow w tag0)
            [s.node, (loadedWorkflow w tag0).node]).map (fun nd => { s with node := nd })))
          (stepsLoaded w.allNodes t steps)
        = .ok (stepsFinal w tag0 t steps) := by
  intro steps
  induction steps with
  | nil => intro t _; rfl
  | cons s rest ih =>
    intro t hres
    unfold stepsLoaded
    unfold mapME
    rw [stepLoaded_update_sources w tag0 hg t s _ (by
      have h := hres 0 s (by rfl)
      rw [show t + 0 = t from rfl] at h
      exact h)]
    rw [ih (t + 1) (fun i x hx => by
      have h := hres (i + 1) x (by simpa using hx)
      rw [show t + (i + 1) = (t + 1) + i from by omega] at h
      exact h)]
    rw [stepLoaded_final_kind w tag0 w.allNodes t s, stepLoaded_final_pers w tag0 w.allNodes t s]
    rfl

/-- The final `update_sources()` pass of `Workflow.from_json_dict` on the
re-loaded tree. -/
theorem loaded_update_sources (w : Workflow) (tag0 : Nat) (hg : ResolveGlobals w)
    (hroot : NodeResolveOk w tag0 tag0 w.node)
    (hsteps : ∀ (i : Nat) (s : Step), w.steps.get? i = some s →
      NodeResolveOk w tag0 (tag0 + 1 + i) s.node) :
    (loadedWorkflow w tag0).update_sources = .ok (finalWorkflow w tag0) := by
  unfold Workflow.update_sources
  rw [root_update_sources_loaded w tag0 hg _ hroot]
  rw [show (loadedWorkflow w tag0).steps
      = stepsLoaded w.allNodes (tag0 + 1) w.steps from rfl]
  rw [steps_update_sources_loaded w tag0 hg w.steps (tag0 + 1) hsteps]
  rfl

/-! ### An executable serializability check -/

instance (nodes : List NodeData) : Decidable (UniqueTags nodes) :=
  decidable_of_iff (∀ m ∈ nodes, ∀ m2 ∈ nodes, m.tag = m2.tag → m = m2) Iff.rfl

def portSrcNamesB (nodes : List NodeData) (ports : List (String × Port)) : Bool :=
  ports.all (fun nv => match (nv.2 : Port).source with
    | some ptr => goodName (((findNodeByTag nodes ptr.tag).map (·.id)).getD "")
        && goodName ptr.name
    | none => true)

theorem portSrcNames_of_b {nodes : List NodeData} {ports : List (String × Port)}
    (h : portSrcNamesB nodes ports = true) :
    ∀ nv ∈ ports, ∀ ptr, (nv.2 : Port).source = some ptr →
      goodName (((findNodeByTag nodes ptr.tag).map (·.id)).getD "") = true
      ∧ goodName ptr.name = true := by
  intro nv hnv ptr hptr
  have h2 := List.all_eq_true.mp h nv hnv
  rw [hptr] at h2
  simpa only [Bool.and_eq_true] using h2

def propsCleanB (metaNs : List (String × Props)) : Bool :=
  metaNs.all (fun mv => decide (((mv.2 : Props).map (·.1)).Nodup)
    && decide ("source" ∉ (mv.2 : Props).map (·.1))
    && decide ("value" ∉ (mv.2 : Props).map (·.1)))

theorem propsClean_of_b {metaNs : List (String × Props)} (h : propsCleanB metaNs = true) :
    ∀ mv ∈ metaNs, ((mv.2 : Props).map (·.1)).Nodup
      ∧ "source" ∉ (mv.2 : Props).map (·.1) ∧ "value" ∉ (mv.2 : Props).map (·.1) := by
  intro mv hmv
  have h2 := List.all_eq_true.mp h mv hmv
  obtain ⟨⟨ha, hb⟩, hc⟩ := by
    simpa only [Bool.and_eq_true] using h2
  exact ⟨of_decide_eq_true ha, of_decide_eq_true hb, of_decide_eq_true hc⟩

def constructedOkB (s : Step) : Bool :=
  s.node.meta.inputs.all (fun mv => decide (mv.2 = ([] : Props)))
  && s.node.meta.outputs.all (fun mv => decide (mv.2 = ([] : Props)))
  && decide ((s.node.meta.outputs.map (·.1)).head? = some RETURN_NAME)
  && decide (s.node.meta.qualified_name = s.node.id)
  && decide (s.node.meta.header = [])
  && decide (s.node.meta.can_cache = true)

theorem constructedOk_of_b {s : Step} (h : constructedOkB s = true) : ConstructedOk s := by
  obtain ⟨⟨⟨⟨⟨h1, h2⟩, h3⟩, h4⟩, h5⟩, h6⟩ := by
    simpa only [constructedOkB, Bool.and_eq_true] using h
  refine ⟨?_, ?_, of_decide_eq_true h3, of_decide_eq_true h4,
    of_decide_eq_true h5, of_decide_eq_true h6⟩
  · intro mv hmv
    exact of_decide_eq_true (List.all_eq_true.mp h1 mv hmv)
  · intro mv hmv
    exact of_decide_eq_true (List.all_eq_true.mp h2 mv hmv)

def stepKindOkB (registry : List (String × OpMetaInfo))
    (resourceEnv : List (String × Workflow)) (s : Step) : Bool :=
  match s.kind with
  | .opStep opName => decide (dget registry s.node.meta.qualified_name = some s.node.meta)
      && decide (s.node.meta.qualified_name ≠ "")
      && decide (opName = s.node.meta.qualified_name)
  | .workflowStep r =>
    (match dget resourceEnv r with
     | some wfI => decide (wfI.node.meta = s.node.meta)
     | none => false)
  | .exprStep e => decide (e ≠ "") && constructedOkB s
  | .noOpStep => constructedOkB s
  | .subProcessStep c _ cwd env _ sre pre dre => decide (c ≠ "") && decide (cwd ≠ some "")
      && decide (env ≠ some []) && decide (sre ≠ some "") && decide (pre ≠ some "")
      && decide (dre ≠ some "") && constructedOkB s

def stepOkB (registry : List (String × OpMetaInfo))
    (resourceEnv : List (String × Workflow)) (nodes : List NodeData) (s : Step) : Bool :=
  decide (s.node.inputs.map (·.1) = s.node.meta.inputs.map (·.1))
  && decide (s.node.outputs.map (·.1) = s.node.meta.outputs.map (·.1))
  && decide ((s.node.inputs.map (·.1)).Nodup)
  && decide ((s.node.outputs.map (·.1)).Nodup)
  && portSrcNamesB nodes s.node.inputs
  && portSrcNamesB nodes s.node.outputs
  && stepKindOkB registry resourceEnv s

theorem stepOk_of_b {registry : List (String × OpMetaInfo)}
    {resourceEnv : List (String × Workflow)} {nodes : List NodeData} {s : Step}
    (h : stepOkB registry resourceEnv nodes s = true) :
    StepOk registry resourceEnv nodes s := by
  obtain ⟨⟨⟨⟨⟨⟨h1, h2⟩, h3⟩, h4⟩, h5⟩, h6⟩, h7⟩ := by
    simpa only [stepOkB, Bool.and_eq_true] using h
  refine ⟨of_decide_eq_true h1, of_decide_eq_true h2, of_decide_eq_true h3,
    of_decide_eq_true h4, portSrcNames_of_b h5, portSrcNames_of_b h6, ?_⟩
  rcases s with ⟨n, kind, pers⟩
  rcases kind with opName | r | e | _ | ⟨c, rp, cwd, env, sh, sre, pre, dre⟩
  · obtain ⟨⟨ha, hb⟩, hc⟩ := by
      simpa only [stepKindOkB, Bool.and_eq_true] using h7
    exact ⟨of_decide_eq_true ha, of_decide_eq_true hb, of_decide_eq_true hc⟩
  · unfold stepKindOkB at h7
    dsimp only at h7
    rcases hr : dget resourceEnv r with _ | wfI
    · rw [hr] at h7
      exact absurd h7 (by simp)
    · rw [hr] at h7
      exact ⟨wfI, hr, of_decide_eq_true h7⟩
  · obtain ⟨ha, hb⟩ := by
      simpa only [stepKindOkB, Bool.and_eq_true] using h7
    exact ⟨of_decide_eq_true ha, constructedOk_of_b hb⟩
  · exact constructedOk_of_b h7
  · obtain ⟨⟨⟨⟨⟨⟨ha, hb⟩, hc⟩, hd⟩, he⟩, hf⟩, hg⟩ := by
      simpa only [stepKindOkB, Bool.and_eq_true] using h7
    exact ⟨of_decide_eq_true ha, of_decide_eq_true hb, of_decide_eq_true hc,
      of_decide_eq_true hd, of_decide_eq_true he, of_decide_eq_true hf,
      constructedOk_of_b hg⟩

def srcOkB (w : Workflow) (ptr : PortPtr) : Bool :=
  match findNodeByTag w.allNodes ptr.tag with
  | some m => decide (m.find_port ptr.name = some ptr)
      && (decide (ptr.name ≠ RETURN_NAME) || decide (m.outputs.map (·.1) = [RETURN_NAME]))
  | none => false

theorem srcOk_of_b {w : Workflow} {ptr : PortPtr} (h : srcOkB w ptr = true) : SrcOk w ptr := by
  unfold srcOkB at h
  rcases hf : findNodeByTag w.allNodes ptr.tag with _ | m
  · rw [hf] at h
    exact absurd h (by simp)
  · rw [hf] at h
    dsimp only at h
    obtain ⟨h1, h2⟩ := by
      simpa only [Bool.and_eq_true] using h
    refine ⟨m, hf, of_decide_eq_true h1, ?_⟩
    intro hrn
    rcases (by simpa only [Bool.or_eq_true] using h2 :
        (decide (ptr.name ≠ RETURN_NAME)) = true
        ∨ (decide (m.outputs.map (·.1) = [RETURN_NAME])) = true) with hc | hc
    · exact absurd hrn (of_decide_eq_true hc)
    · exact of_decide_eq_true hc

def noSelfSourceB (n : NodeData) : Bool :=
  n.inputs.all (fun nv => match (nv.2 : Port).source with
    | some ptr => decide (ptr ≠ ⟨n.tag, false, nv.1⟩)
    | none => true)
  && n.outputs.all (fun nv => match (nv.2 : Port).source with
    | some ptr => decide (ptr ≠ ⟨n.tag, true, nv.1⟩)
    | none => true)

def srcsOkB (w : Workflow) (n : NodeData) : Bool :=
  (n.inputs ++ n.outputs).all (fun nv => match (nv.2 : Port).source with
    | some ptr => srcOkB w ptr
    | none => true)

/-- The fresh identities keep a port's re-resolved source distinct from the
port itself whenever it was distinct originally. -/
theorem resolve_ne_of_noself (w : Workflow) (tag0 : Nat)
    (hu : UniqueTags w.allNodes) (hnd : (w.steps.map (fun s => s.node.id)).Nodup)
    {n : NodeData} (hmem : n ∈ w.allNodes)
    {ptr : PortPtr} (hsrcok : SrcOk w ptr) (b : Bool) (nm : String)
    (hns : ptr ≠ ⟨n.tag, b, nm⟩) :
    (⟨newTagOf w tag0 ptr.tag, ptr.isOutput, ptr.name⟩ : PortPtr)
      ≠ ⟨newTagOf w tag0 n.tag, b, nm⟩ := by
  rcases ptr with ⟨pt, po, pn⟩
  intro hc
  injection hc with ha hb2 hc2
  dsimp only at ha hb2 hc2
  by_cases ht : pt = n.tag
  · exact hns (by rw [show (⟨pt, po, pn⟩ : PortPtr) = ⟨n.tag, b, nm⟩ from by
      rw [ht, hb2, hc2]])
  · obtain ⟨m, hfind, _, _⟩ := hsrcok
    obtain ⟨hmm, hmt⟩ := findNodeByTag_mem hfind
    exact newTagOf_inj w tag0 hu hnd hmm hmem
      (fun hcc => ht ((hmt.symm.trans hcc : (pt : Nat) = n.tag)))
      (by rw [hmt]; exact ha)

theorem nodeResolveOk_of_b (w : Workflow) (tag0 : Nat)
    (hu : UniqueTags w.allNodes) (hnd : (w.steps.map (fun s => s.node.id)).Nodup)
    {n : NodeData} (hmem : n ∈ w.allNodes)
    (h1 : srcsOkB w n = true) (h2 : noSelfSourceB n = true) :
    NodeResolveOk w tag0 (newTagOf w tag0 n.tag) n := by
  obtain ⟨h2i, h2o⟩ := by
    simpa only [noSelfSourceB, Bool.and_eq_true] using h2
  have hall := List.all_eq_true.mp h1
  have halli := List.all_eq_true.mp h2i
  have hallo := List.all_eq_true.mp h2o
  constructor
  · intro nv hnv ptr hptr
    have ha := hall nv (List.mem_append_left _ hnv)
    rw [hptr] at ha
    have hsok := srcOk_of_b ha
    have hb := halli nv hnv
    rw [hptr] at hb
    exact ⟨hsok, resolve_ne_of_noself w tag0 hu hnd hmem hsok false nv.1
      (of_decide_eq_true hb)⟩
  · intro nv hnv ptr hptr
    have ha := hall nv (List.mem_append_right _ hnv)
    rw [hptr] at ha
    have hsok := srcOk_of_b ha
    have hb := hallo nv hnv
    rw [hptr] at hb
    exact ⟨hsok, resolve_ne_of_noself w tag0 hu hnd hmem hsok true nv.1
      (of_decide_eq_true hb)⟩

/-- Decidable serializability of a workflow: well-formed names and
namespaces, a registry agreeing with the steps' meta-infos, canonically
re-resolvable source pointers, and the structural side conditions of the
re-load. -/
def serializableB (registry : List (String × OpMetaInfo))
    (resourceEnv : List (String × Workflow)) (w : Workflow) : Bool :=
  w.steps.all (stepOkB registry resourceEnv w.allNodes)
  && decide ((w.steps.map (fun s => s.node.id)).Nodup)
  && decide (UniqueTags w.allNodes)
  && decide (w.node.id = w.node.meta.qualified_name)
  && w.steps.all (fun s => decide (s.node.id ≠ w.node.meta.qualified_name))
  && w.steps.all (fun s => decide (w.node.tag ≠ s.node.tag))
  && decide ((w.node.inputs.map (·.1)).Nodup)
  && decide ((w.node.outputs.map (·.1)).Nodup)
  && portSrcNamesB w.allNodes w.node.inputs
  && portSrcNamesB w.allNodes w.node.outputs
  && propsCleanB w.node.meta.inputs
  && propsCleanB w.node.meta.outputs
  && w.allNodes.all (fun n => srcsOkB w n && noSelfSourceB n)

/-! ### The amended round-trip theorem -/

theorem stepFinal_id (w : Workflow) (tag0 t : Nat) (s : Step) :
    (stepFinal w tag0 t s).node.id = s.node.id := by
  rcases s with ⟨n, kind, pers⟩
  rcases kind <;> rfl

theorem stepFinal_pers (w : Workflow) (tag0 t : Nat) (s : Step) :
    (stepFinal w tag0 t s).persistent = s.persistent := by
  rcases s with ⟨n, kind, pers⟩
  rcases kind <;> rfl

theorem stepFinal_kind (w : Workflow) (tag0 t : Nat) (s : Step)
    (h : match s.kind with
      | .opStep opName => opName = s.node.meta.qualified_name
      | _ => True) :
    (stepFinal w tag0 t s).kind = s.kind := by
  rcases s with ⟨n, kind, pers⟩
  rcases kind with opName | r | e | _ | k
  · dsimp only at h
    unfold stepFinal
    dsimp only
    rw [h]
  all_goals rfl

theorem stepOk_kind_name {registry : List (String × OpMetaInfo)}
    {resourceEnv : List (String × Workflow)} {nodes : List NodeData} {s : Step}
    (h : StepOk registry resourceEnv nodes s) :
    (match s.kind with
      | .opStep opName => opName = s.node.meta.qualified_name
      | _ => True) := by
  obtain ⟨_, _, _, _, _, _, hk⟩ := h
  rcases s with ⟨n, kind, pers⟩
  rcases kind with opName | r | e | _ | k
  · exact hk.2.2
  all_goals trivial

theorem stepsFinal_summary (w : Workflow) (tag0 : Nat) :
    ∀ (steps : List Step) (t : Nat),
      (∀ s ∈ steps, match s.kind with
        | .opStep opName => opName = s.node.meta.qualified_name
        | _ => True) →
      (stepsFinal w tag0 t steps).map (fun s => (s.node.id, s.kind, s.persistent))
        = steps.map (fun s => (s.node.id, s.kind, s.persistent)) := by
  intro steps
  induction steps with
  | nil => intro t _; rfl
  | cons s rest ih =>
    intro t h
    unfold stepsFinal
    rw [List.map_cons, List.map_cons]
    rw [stepFinal_id w tag0 t s, stepFinal_pers w tag0 t s,
      stepFinal_kind w tag0 t s (h s (by simp))]
    rw [ih (t + 1) (fun x hx => h x (by simp [hx]))]

theorem final_root_input_keys (w : Workflow) (tag0 : Nat) :
    (finalWorkflow w tag0).node.inputs.map (·.1) = w.node.inputs.map (·.1) := by
  show (finalAllPorts w tag0 w.node.meta.outputs w.node.inputs).map (·.1)
    = w.node.inputs.map (·.1)
  unfold finalAllPorts
  rw [List.map_map]
  rfl

theorem final_root_output_keys (w : Workflow) (tag0 : Nat) :
    (finalWorkflow w tag0).node.outputs.map (·.1) = w.node.outputs.map (·.1) := by
  show (finalAllPorts w tag0 w.node.meta.outputs w.node.outputs).map (·.1)
    = w.node.outputs.map (·.1)
  unfold finalAllPorts
  rw [List.map_map]
  rfl

/-- **C1 (amended).** Storing a serializable workflow with
`Workflow.to_json_dict` and re-loading the result with
`Workflow.from_json_dict` does not reproduce the workflow identically, but
yields exactly `finalWorkflow w tag0`: a tree with the same qualified name,
the same steps (same ids, kinds and persistence flags, in order), the same
port namespaces, in which every resolved source binding is re-resolved to
the like-named port of the like-named node under its fresh object identity,
while (a) an `OpStep` input whose literal value equals the operation's
declared default re-loads as `UNDEFINED`, (b) output-port and
declared-output values are never serialized and re-load as fresh ports,
(c) the root meta-info's property maps come back as the serialized port
dictionaries (polluted with `source`/`value` bookkeeping entries), and
(d) every node carries a fresh identity.  `serializableB` captures the
side conditions: well-formed names, unique ids and identities, a registry
agreeing with the steps' meta-infos, canonically re-resolvable source
pointers, and no port bound to itself. -/
theorem workflow_roundtrip_amended (registry : List (String × OpMetaInfo))
    (resourceEnv : List (String × Workflow)) (w : Workflow) (tag0 : Nat)
    (h : serializableB registry resourceEnv w = true) :
    Workflow.from_json_dict registry resourceEnv tag0 (Workflow.to_json_dict w)
      = .ok (finalWorkflow w tag0)
    ∧ (finalWorkflow w tag0).node.meta.qualified_name = w.node.meta.qualified_name
    ∧ (finalWorkflow w tag0).steps.map (fun s => (s.node.id, s.kind, s.persistent))
        = w.steps.map (fun s => (s.node.id, s.kind, s.persistent))
    ∧ (finalWorkflow w tag0).node.inputs.map (·.1) = w.node.inputs.map (·.1)
    ∧ (finalWorkflow w tag0).node.outputs.map (·.1) = w.node.outputs.map (·.1) := by
  obtain ⟨⟨⟨⟨⟨⟨⟨⟨⟨⟨⟨⟨hA, hB⟩, hC⟩, hD⟩, hE⟩, hF⟩, hG⟩, hH⟩, hI⟩, hJ⟩, hK⟩, hL⟩, hM⟩ := by
    simpa only [serializableB, Bool.and_eq_true] using h
  have hstepok : ∀ s ∈ w.steps, StepOk registry resourceEnv w.allNodes s :=
    fun s hs => stepOk_of_b (List.all_eq_true.mp hA s hs)
  have hids : (w.steps.map (fun s => s.node.id)).Nodup := of_decide_eq_true hB
  have hu : UniqueTags w.allNodes := of_decide_eq_true hC
  have hrootid : w.node.id = w.node.meta.qualified_name := of_decide_eq_true hD
  have hstepids : ∀ s ∈ w.steps, s.node.id ≠ w.node.meta.qualified_name :=
    fun s hs => of_decide_eq_true (List.all_eq_true.mp hE s hs)
  have htagsep : ∀ s ∈ w.steps, w.node.tag ≠ s.node.tag :=
    fun s hs => of_decide_eq_true (List.all_eq_true.mp hF s hs)
  have hnodes : ∀ n ∈ w.allNodes, srcsOkB w n = true ∧ noSelfSourceB n = true := by
    intro n hn
    have h2 := List.all_eq_true.mp hM n hn
    simpa only [Bool.and_eq_true] using h2
  have hg : ResolveGlobals w :=
    ⟨hu, hids, hrootid, hstepids, fun s hs => (hstepok s hs).2.1⟩
  have hroot : NodeResolveOk w tag0 tag0 w.node := by
    have h0 := nodeResolveOk_of_b w tag0 hu hids
      (show w.node ∈ w.allNodes from List.mem_cons_self _ _)
      (hnodes w.node (List.mem_cons_self _ _)).1
      (hnodes w.node (List.mem_cons_self _ _)).2
    rw [newTagOf_root] at h0
    exact h0
  have hsteps : ∀ (i : Nat) (s : Step), w.steps.get? i = some s →
      NodeResolveOk w tag0 (tag0 + 1 + i) s.node := by
    intro i s hget
    have hm : s ∈ w.steps := List.get?_mem hget
    have hmem : s.node ∈ w.allNodes :=
      List.mem_cons_of_mem _ (List.mem_map.mpr ⟨s, hm, rfl⟩)
    have h0 := nodeResolveOk_of_b w tag0 hu hids hmem
      (hnodes s.node hmem).1 (hnodes s.node hmem).2
    rw [newTagOf_step w tag0 i s hu hids hget (htagsep s hm)] at h0
    exact h0
  refine ⟨?_, rfl, ?_, final_root_input_keys w tag0, final_root_output_keys w tag0⟩
  · rw [from_to_loaded registry resourceEnv w tag0 hstepok hids
      (of_decide_eq_true hG) (of_decide_eq_true hH)
      (portSrcNames_of_b hI) (portSrcNames_of_b hJ)
      (propsClean_of_b hK) (propsClean_of_b hL)]
    exact loaded_update_sources w tag0 hg hroot hsteps
  · exact stepsFinal_summary w tag0 w.steps (tag0 + 1)
      (fun s hs => stepOk_kind_name (hstepok s hs))

/-! ### Witness data for the amended round trip -/

def c1MetaG : OpMetaInfo := ⟨"pkg.g2", [], [("x", [])], [(RETURN_NAME, [])], true⟩

def c1RegA : List (String × OpMetaInfo) := [("pkg.g2", c1MetaG)]

/-- A step whose input `"x"` is bound to the workflow input `"in"`. -/
def c1SA : Step :=
  ⟨⟨1, "s", c1MetaG,
    [("x", ⟨some ⟨some "wf2", some "in"⟩, some ⟨0, false, "in"⟩, .vundef⟩)],
    [(RETURN_NAME, Port.fresh)]⟩, .opStep "pkg.g2", false⟩

/-- A workflow with a literal-valued input `"in"` and an output `"out"`
bound to the step's sole `"return"` output. -/
def c1WA : Workflow :=
  ⟨⟨0, "wf2", ⟨"wf2", [], [("in", [])], [("out", [])], true⟩,
    [("in", ⟨none, none, .prim (.vint 5)⟩)],
    [("out", ⟨some ⟨some "s", some RETURN_NAME⟩, some ⟨1, true, RETURN_NAME⟩, .vundef⟩)]⟩,
   [c1SA], [("s", 1)]⟩

theorem workflow_roundtrip_amended_witness :
    serializableB c1RegA [] c1WA = true
    ∧ (Workflow.from_json_dict c1RegA [] 7 (Workflow.to_json_dict c1WA)
          = .ok (finalWorkflow c1WA 7)
      ∧ (finalWorkflow c1WA 7).node.meta.qualified_name = c1WA.node.meta.qualified_name
      ∧ (finalWorkflow c1WA 7).steps.map (fun s => (s.node.id, s.kind, s.persistent))
          = c1WA.steps.map (fun s => (s.node.id, s.kind, s.persistent))
      ∧ (finalWorkflow c1WA 7).node.inputs.map (·.1) = c1WA.node.inputs.map (·.1)
      ∧ (finalWorkflow c1WA 7).node.outputs.map (·.1) = c1WA.node.outputs.map (·.1)) :=
  ⟨by decide, workflow_roundtrip_amended c1RegA [] c1WA 7 (by decide)⟩

end Cate
